import Mathlib

/-!
# OBJObject: mesh loading, movement and bounding-box collision

A shallow embedding of `src/OBJObject.cpp`.

* C `float` values are embedded as `Flt`: a rational, `+INFINITY`, `-INFINITY` or NaN. Every
  arithmetic result is rounded to IEEE binary32 (`round32`: to nearest, ties to even, with the
  subnormal range and overflow to an infinity); the special values follow the IEEE rules
  (`inf - inf`, `0 * inf`, `0 / 0` are NaN, every ordered comparison with NaN is false, `x / 0`
  is an infinity of the sign of `x`). Zero has no sign.
* `glm::vec3`, `glm::vec4`, `glm::mat4` are records of `Flt`; a `glm::mat4` is stored by columns,
  so `toWorld[3]` is the field `c3`.
* `std::vector` is `List`; `push_back` appends at the end.
* `Window::delta` (a global of the window module) is passed as an argument.
* The OpenGL calls (buffer creation and upload, drawing) touch no field that is embedded here and
  are left out.
* The functions of the glm library that `A_movement` and `D_movement` call (`glm::rotate`,
  `glm::normalize`, the matrix products, `glm::pi`) are no part of the repository: they are the
  fields of a parameter `Glm` of these two methods.
-/

set_option maxRecDepth 100000

namespace OBJ

/-! ## Floats -/

/-- Model of a C `float` (IEEE binary32): a rational, one of the two infinities, or NaN. -/
inductive Flt where
  | fin (q : ℚ)
  | pinf
  | ninf
  | nan
deriving DecidableEq

/-- The binary logarithm of `n`, rounded down, found in at most `fuel` halvings. -/
def log2Fuel : Nat → Nat → Nat
  | 0, _ => 0
  | fuel + 1, n => if 2 ≤ n then log2Fuel fuel (n / 2) + 1 else 0

/-- The binary logarithm of `n`, rounded down (0 for `n = 0`). -/
def ilog2 (n : Nat) : Nat := log2Fuel n n

/-- The power `2 ^ e` of an integer exponent. -/
def pow2 (e : ℤ) : ℚ :=
  if 0 ≤ e then ((2 ^ e.toNat : ℕ) : ℚ) else 1 / ((2 ^ (-e).toNat : ℕ) : ℚ)

/-- The binary exponent of a nonzero rational: the `e` with `2 ^ e ≤ |q| < 2 ^ (e + 1)`. -/
def floorLog2 (q : ℚ) : ℤ :=
  if pow2 ((ilog2 q.num.natAbs : ℤ) - (ilog2 q.den : ℤ)) ≤ |q| then
    (ilog2 q.num.natAbs : ℤ) - (ilog2 q.den : ℤ)
  else (ilog2 q.num.natAbs : ℤ) - (ilog2 q.den : ℤ) - 1

/-- Rounding of a rational to the nearest integer, a tie going to the even one. -/
def roundEven (q : ℚ) : ℤ :=
  if q - ⌊q⌋ < 1 / 2 then ⌊q⌋
  else if 1 / 2 < q - ⌊q⌋ then ⌊q⌋ + 1
  else if ⌊q⌋ % 2 = 0 then ⌊q⌋ else ⌊q⌋ + 1

/-- The binary exponent of the binary32 values around `q`: that of `q`, and -126 in the
subnormal range. -/
def gridExp (q : ℚ) : ℤ := max (floorLog2 q) (-126)

/-- The distance between neighbouring binary32 values at `q`: 24 significant binary digits
above `2 ^ -126`, the fixed step `2 ^ -149` of the subnormal values below. -/
def ulp (q : ℚ) : ℚ := pow2 (gridExp q - 23)

/-- Rounding to the nearest multiple of `ulp q`, a tie going to the even multiple. -/
def rnd (q : ℚ) : ℚ := (roundEven (q / ulp q) : ℚ) * ulp q

/-- The binary32 value of a rational: rounding to nearest, ties to even; a result of magnitude
`2 ^ 128` or more is an infinity. -/
def round32 (q : ℚ) : Flt :=
  if pow2 128 ≤ rnd q then .pinf else if rnd q ≤ -pow2 128 then .ninf else .fin (rnd q)

namespace Flt

instance : Inhabited Flt := ⟨fin 0⟩

/-- Unary minus. -/
def neg : Flt → Flt
  | fin q => fin (-q)
  | pinf => ninf
  | ninf => pinf
  | nan => nan

/-- Addition: the rounded sum; `inf + (-inf)` and everything involving NaN is NaN. -/
def add : Flt → Flt → Flt
  | fin a, fin b => round32 (a + b)
  | fin _, pinf => pinf
  | fin _, ninf => ninf
  | pinf, fin _ => pinf
  | pinf, pinf => pinf
  | ninf, fin _ => ninf
  | ninf, ninf => ninf
  | _, _ => nan

/-- Subtraction. -/
def sub (a b : Flt) : Flt := add a (neg b)

/-- An infinity of the sign of `q`, NaN when `q = 0`. -/
def signedInf (q : ℚ) : Flt :=
  if 0 < q then pinf else if q < 0 then ninf else nan

/-- Multiplication: the rounded product; `0 * inf` is NaN. -/
def mul : Flt → Flt → Flt
  | fin a, fin b => round32 (a * b)
  | fin a, pinf => signedInf a
  | fin a, ninf => signedInf (-a)
  | pinf, fin b => signedInf b
  | ninf, fin b => signedInf (-b)
  | pinf, pinf => pinf
  | ninf, ninf => pinf
  | pinf, ninf => ninf
  | ninf, pinf => ninf
  | _, _ => nan

/-- Division: the rounded quotient; a finite nonzero value over zero is an infinity, `0 / 0` and
`inf / inf` are NaN. -/
def div : Flt → Flt → Flt
  | fin a, fin b => if b = 0 then signedInf a else round32 (a / b)
  | fin _, pinf => fin 0
  | fin _, ninf => fin 0
  | pinf, fin b => if 0 ≤ b then pinf else ninf
  | ninf, fin b => if 0 ≤ b then ninf else pinf
  | _, _ => nan

/-- The C comparison `a < b`. -/
def lt : Flt → Flt → Bool
  | fin a, fin b => decide (a < b)
  | fin _, pinf => true
  | ninf, fin _ => true
  | ninf, pinf => true
  | _, _ => false

/-- The C comparison `a <= b`. -/
def le : Flt → Flt → Bool
  | fin a, fin b => decide (a ≤ b)
  | fin _, pinf => true
  | ninf, fin _ => true
  | ninf, pinf => true
  | pinf, pinf => true
  | ninf, ninf => true
  | _, _ => false

/-- The C comparison `a > b`. -/
def gt (a b : Flt) : Bool := lt b a

/-- The C comparison `a >= b`. -/
def ge (a b : Flt) : Bool := le b a

instance : Neg Flt := ⟨neg⟩
instance : Add Flt := ⟨add⟩
instance : Sub Flt := ⟨sub⟩
instance : Mul Flt := ⟨mul⟩
instance : Div Flt := ⟨div⟩

end Flt

/-! ## Vectors and matrices -/

/-- The type `glm::vec2`. -/
structure Vec2 where
  x : Flt
  y : Flt
deriving DecidableEq

/-- The type `glm::vec3`. -/
structure Vec3 where
  x : Flt
  y : Flt
  z : Flt
deriving DecidableEq

/-- The type `glm::vec4`. -/
structure Vec4 where
  x : Flt
  y : Flt
  z : Flt
  w : Flt
deriving DecidableEq

/-- The type `glm::mat4`, by columns: `m[i]` is `m.ci`. -/
structure Mat4 where
  c0 : Vec4
  c1 : Vec4
  c2 : Vec4
  c3 : Vec4
deriving DecidableEq

namespace Vec3

/-- Componentwise `a + b`. -/
def add (a b : Vec3) : Vec3 := ⟨a.x + b.x, a.y + b.y, a.z + b.z⟩

/-- Componentwise `a - b`. -/
def sub (a b : Vec3) : Vec3 := ⟨a.x - b.x, a.y - b.y, a.z - b.z⟩

/-- The product `v * s` of a vector and a scalar. -/
def scale (v : Vec3) (s : Flt) : Vec3 := ⟨v.x * s, v.y * s, v.z * s⟩

/-- The conversion `glm::vec3(v)` of a `glm::vec4`: the first three components. -/
def ofVec4 (v : Vec4) : Vec3 := ⟨v.x, v.y, v.z⟩

/-- The conversion `glm::vec4(v, w)`. -/
def toVec4 (v : Vec3) (w : Flt) : Vec4 := ⟨v.x, v.y, v.z, w⟩

instance : Add Vec3 := ⟨add⟩
instance : Sub Vec3 := ⟨sub⟩

end Vec3

/-- The value `glm::mat4(1.0f)`. -/
def Mat4.identity : Mat4 :=
  ⟨⟨.fin 1, .fin 0, .fin 0, .fin 0⟩, ⟨.fin 0, .fin 1, .fin 0, .fin 0⟩,
   ⟨.fin 0, .fin 0, .fin 1, .fin 0⟩, ⟨.fin 0, .fin 0, .fin 0, .fin 1⟩⟩

/-! ## The object -/

/-- The record `Container` of one vertex handed to the renderer. -/
structure Container where
  vertex : Vec3
  normal : Vec3
  texCoord : Vec2
deriving DecidableEq

/-- The data members of `OBJObject` that `OBJObject.cpp` reads and writes, named as that file
names them (the class declaration in `OBJObject.h` belongs to another revision and lacks most
of them); the OpenGL handles and the material colours are left out. `collisionFlag` holds 0 or 1
and is a `Bool` here. -/
structure OBJObject where
  containers : List Container
  vertices : List Vec3
  normals : List Vec3
  indices : List Nat
  boxCoords : List Vec3
  toWorld : Mat4
  currentDirection : Vec3
  currentSpeed : Flt
  currentTurnSpeed : Flt
  material : Int
  collisionFlag : Bool
  minX : Flt
  minY : Flt
  minZ : Flt
  maxX : Flt
  maxY : Flt
  maxZ : Flt
  scale_v : Flt
  avgX : Flt
  avgY : Flt
  avgZ : Flt
  average : Vec3
  longestDim : Flt
deriving DecidableEq

/-- The constant `RUN_SPEED`. -/
def RUN_SPEED : Flt := .fin 500

/-- The constant `TURN_SPEED`. -/
def TURN_SPEED : Flt := .fin 900

/-- The functions of the glm library that `A_movement` and `D_movement` call: `glm::pi<float>()`,
`glm::rotate(m, angle, axis)`, the products `m * v` of a matrix and a vector and `m * n` of two
matrices, and `glm::normalize(v)`. -/
structure Glm where
  pi : Flt
  rotate : Mat4 → Flt → Vec3 → Mat4
  mulVec : Mat4 → Vec4 → Vec4
  mulMat : Mat4 → Mat4 → Mat4
  normalize : Vec3 → Vec3

/-- The translation `glm::vec3(toWorld[3])` of an object. -/
def OBJObject.translation (o : OBJObject) : Vec3 := Vec3.ofVec4 o.toWorld.c3

/-- The boundary test of `W_movement` and `S_movement`:
`p.x > boundaries.x || p.z > boundaries.y || p.x < 0 || p.z < 0`. -/
def outOfBounds (p : Vec3) (boundaries : Vec2) : Bool :=
  Flt.gt p.x boundaries.x || Flt.gt p.z boundaries.y || Flt.lt p.x (.fin 0) || Flt.lt p.z (.fin 0)

/-- The method `OBJObject::W_movement`; `delta` is `Window::delta`. -/
def OBJObject.W_movement (o : OBJObject) (boundaries : Vec2) (delta : Flt) : OBJObject :=
  let current_position := Vec3.ofVec4 o.toWorld.c3
  let displacement := o.currentDirection.scale (RUN_SPEED * delta)
  let new_position := current_position + displacement
  let new_position := if outOfBounds new_position boundaries then current_position else new_position
  { o with toWorld := { o.toWorld with c3 := new_position.toVec4 (.fin 1) } }

/-- The method `OBJObject::S_movement`; `delta` is `Window::delta`. -/
def OBJObject.S_movement (o : OBJObject) (boundaries : Vec2) (delta : Flt) : OBJObject :=
  let current_position := Vec3.ofVec4 o.toWorld.c3
  let displacement := o.currentDirection.scale (RUN_SPEED * delta)
  let new_position := current_position - displacement
  let new_position := if outOfBounds new_position boundaries then current_position else new_position
  { o with toWorld := { o.toWorld with c3 := new_position.toVec4 (.fin 1) } }

/-- The method `OBJObject::A_movement`; `delta` is `Window::delta`. -/
def OBJObject.A_movement (o : OBJObject) (g : Glm) (boundaries : Vec2) (delta : Flt) :
    OBJObject :=
  let rotate := g.rotate Mat4.identity ((TURN_SPEED * delta) / .fin 180 * g.pi)
    ⟨.fin 0, .fin 1, .fin 0⟩
  let current_direction := o.currentDirection.toVec4 (.fin 1)
  let current_direction := g.mulVec rotate current_direction
  let new_direction := Vec3.ofVec4 current_direction
  { o with currentDirection := g.normalize new_direction, toWorld := g.mulMat o.toWorld rotate }

/-- The method `OBJObject::D_movement`; `delta` is `Window::delta`. -/
def OBJObject.D_movement (o : OBJObject) (g : Glm) (boundaries : Vec2) (delta : Flt) :
    OBJObject :=
  let rotate := g.rotate Mat4.identity ((Flt.neg TURN_SPEED * delta) / .fin 180 * g.pi)
    ⟨.fin 0, .fin 1, .fin 0⟩
  let current_direction := o.currentDirection.toVec4 (.fin 1)
  let current_direction := g.mulVec rotate current_direction
  let new_direction := Vec3.ofVec4 current_direction
  { o with currentDirection := g.normalize new_direction, toWorld := g.mulMat o.toWorld rotate }

/-- The method `OBJObject::update_height`; `0.8f` is the binary32 value nearest to 4/5. -/
def OBJObject.update_height (o : OBJObject) (height : Flt) : OBJObject :=
  { o with toWorld := { o.toWorld with c3 := { o.toWorld.c3 with y := height + round32 (4 / 5) } } }

/-- The left operand of the first comparison of one axis of `collision`:
`t + ((max - min) / 2 - avg) / longestDim`. -/
def reach (t max min avg longestDim : Flt) : Flt :=
  t + ((max - min) / .fin 2 - avg) / longestDim

/-- The local `collisionX` of `collision`. -/
def collisionX (a b : OBJObject) : Bool :=
  Flt.ge (reach a.toWorld.c3.x a.maxX a.minX a.average.x a.longestDim)
      (b.toWorld.c3.x - .fin (1 / 2)) &&
    Flt.ge (reach b.toWorld.c3.x b.maxX b.minX b.average.x b.longestDim)
      (a.toWorld.c3.x - .fin (1 / 2))

/-- The local `collisionY` of `collision`. -/
def collisionY (a b : OBJObject) : Bool :=
  Flt.ge (reach a.toWorld.c3.y a.maxY a.minY a.average.y a.longestDim)
      (b.toWorld.c3.y - .fin (1 / 2)) &&
    Flt.ge (reach b.toWorld.c3.y b.maxY b.minY b.average.y b.longestDim)
      (a.toWorld.c3.y - .fin (1 / 2))

/-- The local `collisionZ` of `collision`. -/
def collisionZ (a b : OBJObject) : Bool :=
  Flt.ge (reach a.toWorld.c3.z a.maxZ a.minZ a.average.z a.longestDim)
      (b.toWorld.c3.z - .fin (1 / 2)) &&
    Flt.ge (reach b.toWorld.c3.z b.maxZ b.minZ b.average.z b.longestDim)
      (a.toWorld.c3.z - .fin (1 / 2))

/-- The method `OBJObject::collision`, called on `a` with `obj2 = &b`: the returned boolean, the
state of `a` and the state of `b` after the call. -/
def OBJObject.collision (a b : OBJObject) : Bool × OBJObject × OBJObject :=
  let collide := collisionX a b && collisionY a b && collisionZ a b
  let ab : OBJObject × OBJObject :=
    if collide then ({ a with collisionFlag := true }, { b with collisionFlag := true })
    else ({ a with collisionFlag := false }, { b with collisionFlag := false })
  (collisionX a b && collisionY a b && collisionZ a b, ab.1, ab.2)

/-- The method `OBJObject::setCube`. -/
def OBJObject.setCube (o : OBJObject) : OBJObject :=
  let hx := (o.maxX - o.minX) / .fin 2
  let hy := (o.maxY - o.minY) / .fin 2
  let hz := (o.maxZ - o.minZ) / .fin 2
  let t := o.toWorld.c3
  let v0 : Vec3 := ⟨t.x + hx, t.y + hy, t.z + hz⟩
  let v1 : Vec3 := ⟨t.x - hx, t.y + hy, t.z + hz⟩
  let v2 : Vec3 := ⟨t.x + hx, t.y - hy, t.z + hz⟩
  let v3 : Vec3 := ⟨t.x - hx, t.y - hy, t.z + hz⟩
  let v4 : Vec3 := ⟨t.x + hx, t.y + hy, t.z - hz⟩
  let v5 : Vec3 := ⟨t.x - hx, t.y + hy, t.z - hz⟩
  let v6 : Vec3 := ⟨t.x + hx, t.y - hy, t.z - hz⟩
  let v7 : Vec3 := ⟨t.x - hx, t.y - hy, t.z - hz⟩
  let norm : Vec3 → Vec3 := fun v =>
    ⟨(v.x - o.average.x) / o.longestDim, (v.y - o.average.y) / o.longestDim,
     (v.z - o.average.z) / o.longestDim⟩
  let v0 := norm v0
  let v1 := norm v1
  let v2 := norm v2
  let v3 := norm v3
  let v4 := norm v4
  let v5 := norm v5
  let v6 := norm v6
  let v7 := norm v7
  { o with boxCoords :=
      [v0, v1, v2, v0, v2, v3,
       v0, v3, v4, v4, v5, v0,
       v0, v5, v6, v6, v1, v0,
       v7, v4, v5, v5, v6, v7,
       v7, v2, v1, v1, v6, v7,
       v7, v4, v3, v3, v2, v7] }

/-! ## Reading the file

The file is the list of its characters. `fscanf` follows the C standard: a conversion skips
leading white space and then reads the longest sequence of characters that is a matching input or
a prefix of one; when that sequence is not a matching input the call stops there (the characters
read stay consumed) and the remaining arguments are not assigned. `%f` reads what `strtod`
reads: a decimal number with an optional fraction and exponent, a hexadecimal number after `0x`
with an optional binary exponent, `inf`, `infinity`, `nan` or `nan(...)`, each after an optional
sign, and stores the binary32 value nearest to it; `%d` reads an optionally signed decimal integer.
The token read by `%s` is assumed to fit the buffer `buf`. -/

/-- The C `isspace`: space, tab, line feed, vertical tab, form feed, carriage return. -/
def isSpace (c : Char) : Bool := c.toNat = 32 || (9 ≤ c.toNat && c.toNat ≤ 13)

/-- The C `isdigit`. -/
def isDigit (c : Char) : Bool := 48 ≤ c.toNat && c.toNat ≤ 57

/-- Skipping of white space, as a white-space directive and every conversion do first. -/
def skipSpace : List Char → List Char
  | [] => []
  | c :: r => if isSpace c then skipSpace r else c :: r

/-- The characters a `%s` conversion stores (up to the next white space) and the ones it
leaves in the stream. -/
def takeToken : List Char → List Char × List Char
  | [] => ([], [])
  | c :: r => if isSpace c then ([], c :: r) else (c :: (takeToken r).1, (takeToken r).2)

/-- The call `fscanf(objFile, "%s", buf)`: `none` is the result `EOF` (only white space is left),
otherwise the token stored in `buf` and the rest of the stream. -/
def scanString (s : List Char) : Option (List Char × List Char) :=
  match skipSpace s with
  | [] => none
  | c :: r => some (takeToken (c :: r))

/-- An optional sign: whether it is `-`, and the rest of the stream. -/
def scanSign : List Char → Bool × List Char
  | [] => (false, [])
  | c :: r => if c = '-' then (true, r) else if c = '+' then (false, r) else (false, c :: r)

/-- A maximal run of decimal digits read on top of the value `acc`: the value, the number of
digits read and the rest of the stream. -/
def scanDigits : List Char → Nat → Nat × Nat × List Char
  | [], acc => (acc, 0, [])
  | c :: r, acc =>
    if isDigit c then
      let res := scanDigits r (acc * 10 + (c.toNat - 48))
      (res.1, res.2.1 + 1, res.2.2)
    else (acc, 0, c :: r)

/-- The value of the decimal number with digits `mant`, `frac` of them after the point, and
exponent `e`, rounded to binary32. -/
def decimalValue (isNeg : Bool) (mant frac : Nat) (e : Int) : Flt :=
  round32 (if 0 ≤ e - frac
    then (if isNeg then -(mant : ℚ) else (mant : ℚ)) * ((10 ^ (e - frac).toNat : Nat) : ℚ)
    else (if isNeg then -(mant : ℚ) else (mant : ℚ)) / ((10 ^ (-(e - frac)).toNat : Nat) : ℚ))

/-- The optional exponent part of a decimal number: `none` when an `e` is followed by no digit
(the number is then not a matching input), otherwise the exponent. -/
def scanExponent : List Char → Option Int × List Char
  | [] => (some 0, [])
  | c :: r =>
    if c = 'e' || c = 'E' then
      let sg := scanSign r
      let ds := scanDigits sg.2 0
      if ds.2.1 = 0 then (none, ds.2.2)
      else (some (if sg.1 then -(ds.1 : Int) else (ds.1 : Int)), ds.2.2)
    else (some 0, c :: r)

/-- The optional fraction part of a decimal number: a point and a run of digits, read on top of
the value `acc` of the integer part. -/
def scanFraction : List Char → Nat → Nat × Nat × List Char
  | [], acc => (acc, 0, [])
  | c :: r, acc => if c = '.' then scanDigits r acc else (acc, 0, c :: r)

/-- A decimal floating-point number after its sign: digits with an optional point, then an
optional exponent. -/
def scanDecimal (isNeg : Bool) (s : List Char) : Option Flt × List Char :=
  let ip := scanDigits s 0
  let fp := scanFraction ip.2.2 ip.1
  if ip.2.1 + fp.2.1 = 0 then (none, fp.2.2)
  else
    let ex := scanExponent fp.2.2
    match ex.1 with
    | none => (none, ex.2)
    | some e => (some (decimalValue isNeg fp.1 fp.2.1 e), ex.2)

/-- The value of a hexadecimal digit. -/
def hexDigit (c : Char) : Option Nat :=
  if isDigit c then some (c.toNat - 48)
  else if 97 ≤ c.toNat && c.toNat ≤ 102 then some (c.toNat - 87)
  else if 65 ≤ c.toNat && c.toNat ≤ 70 then some (c.toNat - 55)
  else none

/-- A maximal run of hexadecimal digits read on top of the value `acc`: the value, the number of
digits read and the rest of the stream. -/
def scanHexDigits : List Char → Nat → Nat × Nat × List Char
  | [], acc => (acc, 0, [])
  | c :: r, acc =>
    match hexDigit c with
    | some d =>
      let res := scanHexDigits r (acc * 16 + d)
      (res.1, res.2.1 + 1, res.2.2)
    | none => (acc, 0, c :: r)

/-- The optional fraction part of a hexadecimal number. -/
def scanHexFraction : List Char → Nat → Nat × Nat × List Char
  | [], acc => (acc, 0, [])
  | c :: r, acc => if c = '.' then scanHexDigits r acc else (acc, 0, c :: r)

/-- The optional binary exponent part of a hexadecimal number: `none` when a `p` is followed by
no digit, otherwise the exponent. -/
def scanBinaryExponent : List Char → Option Int × List Char
  | [] => (some 0, [])
  | c :: r =>
    if c = 'p' || c = 'P' then
      let sg := scanSign r
      let ds := scanDigits sg.2 0
      if ds.2.1 = 0 then (none, ds.2.2)
      else (some (if sg.1 then -(ds.1 : Int) else (ds.1 : Int)), ds.2.2)
    else (some 0, c :: r)

/-- The value of the hexadecimal number with digits `mant`, `frac` of them after the point, and
binary exponent `e`, rounded to binary32. -/
def hexValue (isNeg : Bool) (mant frac : Nat) (e : Int) : Flt :=
  round32 ((if isNeg then -(mant : ℚ) else (mant : ℚ)) * pow2 (e - 4 * frac))

/-- A hexadecimal floating-point number after its sign and its `0x`: hexadecimal digits with an
optional point, then an optional binary exponent. -/
def scanHex (isNeg : Bool) (s : List Char) : Option Flt × List Char :=
  let ip := scanHexDigits s 0
  let fp := scanHexFraction ip.2.2 ip.1
  if ip.2.1 + fp.2.1 = 0 then (none, fp.2.2)
  else
    let ex := scanBinaryExponent fp.2.2
    match ex.1 with
    | none => (none, ex.2)
    | some e => (some (hexValue isNeg fp.1 fp.2.1 e), ex.2)

/-- Whether `c` is the lower-case letter `l` in either case. -/
def isLetter (l c : Char) : Bool := c.toNat = l.toNat || c.toNat + 32 = l.toNat

/-- The longest start of the lower-case `word` that the stream spells, in either case: the
number of letters read and the rest of the stream. -/
def scanWord : List Char → List Char → Nat × List Char
  | [], s => (0, s)
  | _ :: _, [] => (0, [])
  | l :: ls, c :: r =>
    if isLetter l c then ((scanWord ls r).1 + 1, (scanWord ls r).2) else (0, c :: r)

/-- The spellings `inf` and `infinity` after the sign. A start of one of them that is not the
whole of it is no matching input. -/
def scanInfinity (isNeg : Bool) (s : List Char) : Option Flt × List Char :=
  let w := scanWord ['i', 'n', 'f'] s
  if w.1 < 3 then (none, w.2)
  else
    let t := scanWord ['i', 'n', 'i', 't', 'y'] w.2
    if t.1 = 0 || t.1 = 5 then (some (if isNeg then .ninf else .pinf), t.2) else (none, t.2)

/-- A character of the sequence between the parentheses of `nan(...)`: a digit, a letter or an
underscore. -/
def isNChar (c : Char) : Bool :=
  isDigit c || (97 ≤ c.toNat && c.toNat ≤ 122) || (65 ≤ c.toNat && c.toNat ≤ 90) || c = '_'

/-- Skipping of a maximal run of the characters of `isNChar`. -/
def skipNChars : List Char → List Char
  | [] => []
  | c :: r => if isNChar c then skipNChars r else c :: r

/-- The optional part `(...)` of a NaN: `false` when an opening parenthesis is not closed. -/
def scanNanTail : List Char → Bool × List Char
  | [] => (true, [])
  | c :: r =>
    if c = '(' then
      match skipNChars r with
      | [] => (false, [])
      | d :: r2 => if d = ')' then (true, r2) else (false, d :: r2)
    else (true, c :: r)

/-- The spellings `nan` and `nan(...)` after the sign. -/
def scanNan (s : List Char) : Option Flt × List Char :=
  let w := scanWord ['n', 'a', 'n'] s
  if w.1 < 3 then (none, w.2)
  else if (scanNanTail w.2).1 then (some .nan, (scanNanTail w.2).2)
  else (none, (scanNanTail w.2).2)

/-- What follows the sign of a `%f` conversion: an infinity, a NaN, a hexadecimal number after
`0x`, or a decimal number. -/
def scanNumber (isNeg : Bool) : List Char → Option Flt × List Char
  | [] => (none, [])
  | c :: r =>
    if isLetter 'i' c then scanInfinity isNeg (c :: r)
    else if isLetter 'n' c then scanNan (c :: r)
    else if c = '0' then
      match r with
      | [] => scanDecimal isNeg (c :: r)
      | x :: r2 => if isLetter 'x' x then scanHex isNeg r2 else scanDecimal isNeg (c :: r)
    else scanDecimal isNeg (c :: r)

/-- A `%f` conversion: the value to assign (`none` on a matching failure or at the end of the
file) and the rest of the stream. -/
def scanFloat (s : List Char) : Option Flt × List Char :=
  scanNumber (scanSign (skipSpace s)).1 (scanSign (skipSpace s)).2

/-- A `%d` conversion: the value to assign (`none` on a matching failure or at the end of the
file) and the rest of the stream. -/
def scanInt (s : List Char) : Option Int × List Char :=
  let sg := scanSign (skipSpace s)
  let ds := scanDigits sg.2 0
  if ds.2.1 = 0 then (none, ds.2.2)
  else (some (if sg.1 then -(ds.1 : Int) else (ds.1 : Int)), ds.2.2)

/-- The directives of the format strings of `parse`. -/
inductive Directive where
  | f
  | d
  | lit (c : Char)
  | ws
deriving DecidableEq

/-- The run of `fscanf` over a list of directives: the floats and the integers assigned so far,
in the order of the arguments, and the rest of the stream. The run stops at the first directive
that fails. -/
def fscanf : List Directive → List Char → List Flt → List Int → List Flt × List Int × List Char
  | [], s, fs, ns => (fs, ns, s)
  | .ws :: ds, s, fs, ns => fscanf ds (skipSpace s) fs ns
  | .lit c :: ds, s, fs, ns =>
    match s with
    | [] => (fs, ns, [])
    | c1 :: r => if c1 = c then fscanf ds r fs ns else (fs, ns, c1 :: r)
  | .f :: ds, s, fs, ns =>
    match (scanFloat s).1 with
    | some v => fscanf ds (scanFloat s).2 (fs ++ [v]) ns
    | none => (fs, ns, (scanFloat s).2)
  | .d :: ds, s, fs, ns =>
    match (scanInt s).1 with
    | some v => fscanf ds (scanInt s).2 fs (ns ++ [v])
    | none => (fs, ns, (scanInt s).2)

/-- The format `"%f %f %f\n"` of the vertex and normal lines. -/
def vertexFormat : List Directive := [.f, .ws, .f, .ws, .f, .ws]

/-- The format `"%d//%d %d//%d %d//%d\n"` of the face lines. -/
def faceFormat : List Directive :=
  [.d, .lit '/', .lit '/', .d, .ws, .d, .lit '/', .lit '/', .d, .ws,
   .d, .lit '/', .lit '/', .d, .ws]

/-- One pass of the body of the reading loop that found a record: the kind and the values that
`fscanf` assigned, in the order of its arguments (`vertex.x, vertex.y, vertex.z` for `v` and
`vn`; `faces_v[0], faces_vn[0], faces_v[1], faces_vn[1], faces_v[2], faces_vn[2]` for `f`). -/
inductive Record where
  | v (fields : List Flt)
  | vn (fields : List Flt)
  | f (fields : List Int)
deriving DecidableEq

/-- The stream side of the reading loop `while (1)`: the records met, in order. A token that is
none of `v`, `vn`, `f` starts no record. Every pass consumes at least one character, so
`fuel` above the length of the stream is never used up. -/
def scanRecords : Nat → List Char → List Record
  | 0, _ => []
  | fuel + 1, s =>
    match scanString s with
    | none => []
    | some (buf, r) =>
      if buf = ['v'] then
        let res := fscanf vertexFormat r [] []
        .v res.1 :: scanRecords fuel res.2.2
      else if buf = ['v', 'n'] then
        let res := fscanf vertexFormat r [] []
        .vn res.1 :: scanRecords fuel res.2.2
      else if buf = ['f'] then
        let res := fscanf faceFormat r [] []
        .f res.2.1 :: scanRecords fuel res.2.2
      else scanRecords fuel r

/-- The records of a whole file. -/
def fileRecords (s : List Char) : List Record := scanRecords (s.length + 1) s

/-- Indeterminate values: what the locals of the loop body hold before `fscanf` assigns them
(`vec n` for `vertex` or `normalVertex` and `faces_v n j` for `faces_v[j]` in the pass of the
`n`-th record). A field that a failed `fscanf` does not assign keeps this value. -/
structure Uninit where
  vec : Nat → Vec3
  faces_v : Nat → Nat → Nat

/-- The local `vertex` (or `normalVertex`) after `fscanf` assigned `fields` to its leading
components. -/
def fillVec (init : Vec3) : List Flt → Vec3
  | [] => init
  | [a] => { init with x := a }
  | [a, b] => { init with x := a, y := b }
  | a :: b :: c :: _ => ⟨a, b, c⟩

/-- The value of an `unsigned int` that holds the integer `n`. -/
def toUnsigned (n : Int) : Nat := (n % 4294967296).toNat

/-- The local `faces_v[j]` after `fscanf` assigned `fields`: argument `2 * j` when it was
assigned, else the indeterminate value. -/
def faceVertex (init : Nat → Nat) (fields : List Int) (j : Nat) : Nat :=
  match fields.get? (2 * j) with
  | some n => toUnsigned n
  | none => init j % 4294967296

/-- The pushed value `faces_v[j] - 1`, in `unsigned int` arithmetic. -/
def faceIndex (init : Nat → Nat) (fields : List Int) (j : Nat) : Nat :=
  (faceVertex init fields j + 4294967295) % 4294967296

/-- The updates of the six bounds after a vertex was read (lines 63 to 68): each `if` compares
one component with one bound and overwrites that bound. -/
def OBJObject.updateBounds (o : OBJObject) (vertex : Vec3) : OBJObject :=
  { o with minX := if Flt.lt vertex.x o.minX then vertex.x else o.minX,
           minY := if Flt.lt vertex.y o.minY then vertex.y else o.minY,
           minZ := if Flt.lt vertex.z o.minZ then vertex.z else o.minZ,
           maxX := if Flt.gt vertex.x o.maxX then vertex.x else o.maxX,
           maxY := if Flt.gt vertex.y o.maxY then vertex.y else o.maxY,
           maxZ := if Flt.gt vertex.z o.maxZ then vertex.z else o.maxZ }

/-- The object side of one pass of the reading loop, for the `n`-th record. -/
def OBJObject.addRecord (u : Uninit) (n : Nat) (o : OBJObject) : Record → OBJObject
  | .v fields =>
    let vertex := fillVec (u.vec n) fields
    OBJObject.updateBounds { o with vertices := o.vertices ++ [vertex] } vertex
  | .vn fields =>
    let normalVertex := fillVec (u.vec n) fields
    { o with normals := o.normals ++ [normalVertex] }
  | .f fields =>
    { o with indices := o.indices ++
        [faceIndex (u.faces_v n) fields 0, faceIndex (u.faces_v n) fields 1,
         faceIndex (u.faces_v n) fields 2] }

/-- The object side of the reading loop over the records from the `n`-th on. -/
def OBJObject.addRecords (u : Uninit) : Nat → OBJObject → List Record → OBJObject
  | _, o, [] => o
  | n, o, r :: rs => OBJObject.addRecords u (n + 1) (OBJObject.addRecord u n o r) rs

/-- The body of the normalising loop for one vertex: subtract the averages, multiply by
`1 / scale_v`. -/
def OBJObject.normalizeVertex (o : OBJObject) (v : Vec3) : Vec3 :=
  Vec3.scale ⟨v.x - o.avgX, v.y - o.avgY, v.z - o.avgZ⟩ (.fin 1 / o.scale_v)

/-- The normalising loop over the vertices `vertices[i], vertices[i+1], ...` and the normals
`normals[i], normals[i+1], ...`: the new vertices and the containers pushed. Reading `normals[i]`
past the end of `normals` is undefined behaviour: `none`. -/
def OBJObject.normalizeLoop (o : OBJObject) : List Vec3 → List Vec3 → Option (List Vec3 × List Container)
  | [], _ => some ([], [])
  | _ :: _, [] => none
  | v :: vs, n :: ns =>
    match OBJObject.normalizeLoop o vs ns with
    | none => none
    | some (vs1, cs) =>
      let v1 := OBJObject.normalizeVertex o v
      some (v1 :: vs1, ⟨v1, n, ⟨.fin 0, .fin 0⟩⟩ :: cs)

/-- Lines 92 to 102 of `parse`: the averages and the scale. -/
def OBJObject.computeScale (o : OBJObject) : OBJObject :=
  let avgX := (o.minX + o.maxX) / Flt.fin 2
  let avgY := (o.minY + o.maxY) / Flt.fin 2
  let avgZ := (o.minX + o.maxZ) / Flt.fin 2
  let scale_x := o.maxX - avgX
  let scale_y := o.maxY - avgY
  let scale_z := o.maxZ - avgZ
  let scale_v := o.scale_v
  let scale_v := if Flt.gt scale_x scale_v then scale_x else scale_v
  let scale_v := if Flt.gt scale_y scale_v then scale_y else scale_v
  let scale_v := if Flt.gt scale_z scale_v then scale_z else scale_v
  { o with avgX := avgX, avgY := avgY, avgZ := avgZ, scale_v := scale_v }

/-- The part of `parse` after the reading loop (lines 92 to 119). -/
def OBJObject.normalize (o : OBJObject) : Option OBJObject :=
  let o := o.computeScale
  match OBJObject.normalizeLoop o o.vertices o.normals with
  | none => none
  | some (vs, cs) =>
    some { o with vertices := vs, containers := o.containers ++ cs,
                  average := ⟨o.avgX, o.avgY, o.avgZ⟩, longestDim := o.scale_v }

/-- The reading loop of `parse` on an open file: the records of the stream are added in order. -/
def OBJObject.readFile (u : Uninit) (o : OBJObject) (s : List Char) : OBJObject :=
  OBJObject.addRecords u 0 o (fileRecords s)

/-- Lines 46 to 48 of `parse`: the bounds and the scale start at the infinities. -/
def OBJObject.resetBounds (o : OBJObject) : OBJObject :=
  { o with minX := .pinf, minY := .pinf, minZ := .pinf,
           maxX := .ninf, maxY := .ninf, maxZ := .ninf, scale_v := .ninf }

/-- The method `OBJObject::parse`. `file` is the content of the file at `filepath`, `none` when
`fopen` fails; the result is `none` when the call has undefined behaviour. -/
def OBJObject.parse (u : Uninit) (o : OBJObject) (file : Option (List Char)) : Option OBJObject :=
  match file with
  | none => some o.resetBounds
  | some s => OBJObject.normalize (OBJObject.readFile u o.resetBounds s)

/-- The constructor `OBJObject::OBJObject`. `mem` gives the indeterminate values of the scalar
members before the constructor body runs; the vectors start empty. -/
def OBJObject.new (mem : OBJObject) (u : Uninit) (file : Option (List Char)) (material : Int) :
    Option OBJObject :=
  let o : OBJObject :=
    { mem with containers := [], vertices := [], normals := [], indices := [], boxCoords := [],
               currentDirection := ⟨.fin 0, .fin 0, .fin 1⟩,
               currentSpeed := .fin 0, currentTurnSpeed := .fin 0,
               toWorld := { Mat4.identity with c3 := ⟨.fin 0, .fin 1, .fin 0, .fin 1⟩ },
               material := material }
  match OBJObject.parse u o file with
  | none => none
  | some o => some { OBJObject.setCube o with collisionFlag := false }

/-! ## Vocabulary of the statements -/

/-- What `roundEven q` has to be: an integer nearest to `q`, the even one of two. -/
def NearestEven (q : ℚ) (n : ℤ) : Prop :=
  |q - n| < 1 / 2 ∨ (|q - n| = 1 / 2 ∧ n % 2 = 0)

/-- The three coordinate axes. -/
inductive Axis where
  | X
  | Y
  | Z
deriving DecidableEq

/-- The component of a vector on an axis. -/
def Vec3.on (v : Vec3) : Axis → Flt
  | .X => v.x
  | .Y => v.y
  | .Z => v.z

/-- The raw lower bound of the mesh on an axis. -/
def OBJObject.minOn (o : OBJObject) : Axis → Flt
  | .X => o.minX
  | .Y => o.minY
  | .Z => o.minZ

/-- The raw upper bound of the mesh on an axis. -/
def OBJObject.maxOn (o : OBJObject) : Axis → Flt
  | .X => o.maxX
  | .Y => o.maxY
  | .Z => o.maxZ

/-- The per-axis test of `collision` on an axis. -/
def collisionOn : Axis → OBJObject → OBJObject → Bool
  | .X => collisionX
  | .Y => collisionY
  | .Z => collisionZ

/-- Whether a float is a number (neither an infinity nor NaN). -/
def Flt.isFinite : Flt → Bool
  | .fin _ => true
  | _ => false

/-- The rational value of a finite float (0 for the others). -/
def Flt.toRat : Flt → ℚ
  | .fin q => q
  | _ => 0

/-- Whether a vector has three finite components. -/
def Vec3.isFinite (v : Vec3) : Bool := v.x.isFinite && v.y.isFinite && v.z.isFinite

/-- The position of an object on an axis: the component of its translation. -/
def OBJObject.pos (o : OBJObject) (ax : Axis) : ℚ := (o.translation.on ax).toRat

/-- The half-extent on an axis: half the raw width `max - min`, divided by `longestDim`. -/
def OBJObject.halfExtent (o : OBJObject) (ax : Axis) : ℚ :=
  (((o.maxOn ax).toRat - (o.minOn ax).toRat) / 2) / o.longestDim.toRat

/-- The extent `collision` adds to the position of an object on an axis, as the code computes
it: `((max - min) / 2 - average) / longestDim`. -/
def OBJObject.extent (o : OBJObject) (ax : Axis) : Flt :=
  ((o.maxOn ax - o.minOn ax) / .fin 2 - o.average.on ax) / o.longestDim

/-- The value `2 ^ -24`: half the distance between 1 and the next binary32 value, the largest
relative error of a rounding. -/
def halfUlp : ℚ := 1 / 16777216

/-- On `ax` the object `b` stands beyond the reach of `a`: the position of `a`, its extent and
the position of `b` are numbers, the exact sum `x` of the first two and `y`, the position of `b`
minus 0.5, are of magnitude at most `2 ^ 127`, and `y` exceeds `x` by more than the two
roundings can make up for. -/
def beyondReach (a b : OBJObject) (ax : Axis) : Prop :=
  (a.translation.on ax).isFinite = true ∧ (a.extent ax).isFinite = true ∧
  (b.translation.on ax).isFinite = true ∧
  |a.pos ax + (a.extent ax).toRat| ≤ pow2 127 ∧ |b.pos ax - 1 / 2| ≤ pow2 127 ∧
  (|a.pos ax + (a.extent ax).toRat| + |b.pos ax - 1 / 2|) * halfUlp + pow2 (-149) <
    (b.pos ax - 1 / 2) - (a.pos ax + (a.extent ax).toRat)

/-- Whether a record is a vertex line. -/
def Record.isVertex : Record → Bool
  | .v _ => true
  | _ => false

/-- Whether a record is a normal line. -/
def Record.isNormal : Record → Bool
  | .vn _ => true
  | _ => false

/-- The number of vertex lines among the records. -/
def vertexCount (rs : List Record) : Nat := rs.countP Record.isVertex

/-- The number of normal lines among the records. -/
def normalCount (rs : List Record) : Nat := rs.countP Record.isNormal

/-- For a face line: `fscanf` assigned all of `faces_v[0]`, `faces_v[1]`, `faces_v[2]`, each a
value from 1 to `count`. The other records pass. -/
def Record.facesWithin (count : Nat) : Record → Bool
  | .f fields =>
    (List.range 3).all fun j =>
      match fields.get? (2 * j) with
      | some m => decide (1 ≤ m) && decide (m ≤ (count : Int))
      | none => false
  | _ => true

/-- For a vertex line: `fscanf` assigned all three components. The other records pass. -/
def Record.wellFormedVertex : Record → Bool
  | .v fields => fields.length == 3
  | _ => true

/-- The vertex of a vertex line whose three components were assigned. -/
def Record.vertexOf : Record → Option Vec3
  | .v [a, b, c] => some ⟨a, b, c⟩
  | _ => none

/-- The 8 corners of the cube with every coordinate +1 or -1. -/
def cubeCorners : List Vec3 :=
  [⟨.fin (-1), .fin (-1), .fin (-1)⟩, ⟨.fin (-1), .fin (-1), .fin 1⟩,
   ⟨.fin (-1), .fin 1, .fin (-1)⟩, ⟨.fin (-1), .fin 1, .fin 1⟩,
   ⟨.fin 1, .fin (-1), .fin (-1)⟩, ⟨.fin 1, .fin (-1), .fin 1⟩,
   ⟨.fin 1, .fin 1, .fin (-1)⟩, ⟨.fin 1, .fin 1, .fin 1⟩]

/-- The state in which the constructor calls `parse`: the four vectors are empty. -/
def OBJObject.fresh (o : OBJObject) : Prop :=
  o.containers = [] ∧ o.vertices = [] ∧ o.normals = [] ∧ o.indices = []

/-- The invariant of the reading loop on one axis: either no vertex was read and the bounds are
still the infinities, or the bounds are two coordinates that occur among the vertices and every
vertex has a finite coordinate between them. -/
def OBJObject.boundsOK (o : OBJObject) (ax : Axis) : Prop :=
  (o.vertices = [] ∧ o.minOn ax = .pinf ∧ o.maxOn ax = .ninf) ∨
  ∃ lo hi : ℚ, o.minOn ax = .fin lo ∧ o.maxOn ax = .fin hi ∧
    (∃ v ∈ o.vertices, v.on ax = .fin lo) ∧ (∃ v ∈ o.vertices, v.on ax = .fin hi) ∧
    ∀ v ∈ o.vertices, ∃ q : ℚ, v.on ax = .fin q ∧ lo ≤ q ∧ q ≤ hi

/-- Memory filled with zeros (and an identity matrix): one value of the indeterminate members. -/
def zeroMemory : OBJObject :=
  { containers := [], vertices := [], normals := [], indices := [], boxCoords := [],
    toWorld := Mat4.identity, currentDirection := ⟨.fin 0, .fin 0, .fin 0⟩,
    currentSpeed := .fin 0, currentTurnSpeed := .fin 0, material := 0, collisionFlag := false,
    minX := .fin 0, minY := .fin 0, minZ := .fin 0, maxX := .fin 0, maxY := .fin 0,
    maxZ := .fin 0, scale_v := .fin 0, avgX := .fin 0, avgY := .fin 0, avgZ := .fin 0,
    average := ⟨.fin 0, .fin 0, .fin 0⟩, longestDim := .fin 0 }

/-- Locals filled with zeros: one value of the indeterminate locals. -/
def zeroUninit : Uninit := ⟨fun _ => ⟨.fin 0, .fin 0, .fin 0⟩, fun _ _ => 0⟩

/-- The object the constructor builds from a file content, from zeroed memory (`zeroMemory` when
the constructor has undefined behaviour). -/
def built (file : String) : OBJObject :=
  (OBJObject.new zeroMemory zeroUninit (some file.toList) 1).getD zeroMemory

/-- A mesh of two vertices whose bounding box is centred at the origin. -/
def centredFile : String :=
  "v -1 -1 -1\nv 1 1 1\nvn 0 0 1\nvn 0 0 1\nf 1//1 2//2 1//1\n"

/-- A mesh of two vertices whose bounding box is centred at (-10, 0, -10). -/
def shiftedFile : String :=
  "v -11 -1 -11\nv -9 1 -9\nvn 0 0 1\nvn 0 0 1\nf 1//1 2//2 1//1\n"

/-- A mesh of two vertices whose bounding box is centred at (11, 0, 11). -/
def offsetFile : String :=
  "v 10 -1 10\nv 12 1 12\nvn 0 0 1\nvn 0 0 1\nf 1//1 2//2 1//1\n"

/-- A mesh of a single vertex. -/
def pointFile : String := "v 1 1 1\nvn 0 0 1\n"

/-- A mesh of two vertices on the x axis, at 3 and at 16777216 = 2 ^ 24: the sum of the two
is not a binary32 value. -/
def roundedFile : String := "v 3 0 0\nv 16777216 0 0\nvn 0 0 1\nvn 0 0 1\n"

/-- A mesh of two vertices, widest on x. -/
def wideFile : String := "v -3 0 0\nv 5 1 1\nvn 0 0 1\nvn 0 0 1\n"

/-- A mesh of two vertices on the z axis. -/
def needleFile : String := "v 0 0 -10\nv 0 0 1\nvn 0 0 1\nvn 0 0 1\n"

/-- A mesh of one vertex with a face that names three vertices. -/
def danglingFile : String := "v 0 0 0\nvn 0 0 1\nf 1//1 2//1 3//1\n"

/-- A unit cube: 8 vertices with every coordinate +1 or -1, 8 normals, 12 triangles. -/
def cubeFile : String :=
  "# unit cube\n" ++
  "v 1.000000 -1.000000 -1.000000\nv 1.000000 -1.000000 1.000000\n" ++
  "v -1.000000 -1.000000 1.000000\nv -1.000000 -1.000000 -1.000000\n" ++
  "v 1.000000 1.000000 -1.000000\nv 1.000000 1.000000 1.000000\n" ++
  "v -1.000000 1.000000 1.000000\nv -1.000000 1.000000 -1.000000\n" ++
  "vn 0.5774 -0.5774 -0.5774\nvn 0.5774 -0.5774 0.5774\n" ++
  "vn -0.5774 -0.5774 0.5774\nvn -0.5774 -0.5774 -0.5774\n" ++
  "vn 0.5774 0.5774 -0.5774\nvn 0.5774 0.5774 0.5774\n" ++
  "vn -0.5774 0.5774 0.5774\nvn -0.5774 0.5774 -0.5774\n" ++
  "f 2//2 3//3 4//4\nf 8//8 7//7 6//6\nf 5//5 6//6 2//2\nf 6//6 7//7 3//3\n" ++
  "f 3//3 7//7 8//8\nf 1//1 4//4 8//8\nf 1//1 2//2 4//4\nf 5//5 8//8 6//6\n" ++
  "f 1//1 5//5 2//2\nf 2//2 6//6 3//3\nf 4//4 3//3 8//8\nf 5//5 1//1 8//8\n"

/-- The vertices of `cubeFile`, in the order of the file. -/
def cubeFileVertices : List Vec3 :=
  [⟨.fin 1, .fin (-1), .fin (-1)⟩, ⟨.fin 1, .fin (-1), .fin 1⟩,
   ⟨.fin (-1), .fin (-1), .fin 1⟩, ⟨.fin (-1), .fin (-1), .fin (-1)⟩,
   ⟨.fin 1, .fin 1, .fin (-1)⟩, ⟨.fin 1, .fin 1, .fin 1⟩,
   ⟨.fin (-1), .fin 1, .fin 1⟩, ⟨.fin (-1), .fin 1, .fin (-1)⟩]

/-- The object `parse` leaves when called on zeroed memory with a file content (`zeroMemory`
when the call has undefined behaviour). -/
def parsed (file : String) : OBJObject :=
  (OBJObject.parse zeroUninit zeroMemory (some file.toList)).getD zeroMemory

/-- The object built from `centredFile` after a forward move with `delta = 1/64`, that is of
500/64 = 7.8125 units along z. -/
def movedCentred : OBJObject :=
  (built centredFile).W_movement ⟨.fin 100, .fin 100⟩ (.fin (1 / 64))

/-- Whether a record is a face line. -/
def Record.isFace : Record → Bool
  | .f _ => true
  | _ => false

/-- The number of face lines among the records. -/
def faceCount (rs : List Record) : Nat := rs.countP Record.isFace

/-- For a normal line: `fscanf` assigned all three components. The other records pass. -/
def Record.wellFormedNormal : Record → Bool
  | .vn fields => fields.length == 3
  | _ => true

/-- The normal of a normal line whose three components were assigned. -/
def Record.normalOf : Record → Option Vec3
  | .vn [a, b, c] => some ⟨a, b, c⟩
  | _ => none

/-- The two signs +1 and -1. -/
def signs : List Flt := [.fin 1, .fin (-1)]

/-- The corner `((t + s * h) - average) / longestDim` of the bounding box for the signs
`s = (sx, sy, sz)`, where `t` is the translation and `h` the three half widths
`(max - min) / 2` of the raw bounds. -/
def OBJObject.boxCorner (o : OBJObject) (sx sy sz : Flt) : Vec3 :=
  ⟨((o.toWorld.c3.x + sx * ((o.maxX - o.minX) / .fin 2)) - o.average.x) / o.longestDim,
   ((o.toWorld.c3.y + sy * ((o.maxY - o.minY) / .fin 2)) - o.average.y) / o.longestDim,
   ((o.toWorld.c3.z + sz * ((o.maxZ - o.minZ) / .fin 2)) - o.average.z) / o.longestDim⟩

/-- A character that starts no numeric input and is no slash: neither a digit, a sign, a point,
the `i` or `n` that starts an infinity or a NaN, nor a slash. -/
def numericFree (c : Char) : Bool :=
  !isDigit c && c != '-' && c != '+' && c != '.' && c != '/' && !isLetter 'i' c &&
    !isLetter 'n' c

/-- A character that is neither white space nor the start of a numeric input or a slash, such
as the `v` or `f` that starts a record, or `#`. -/
def inert (c : Char) : Bool := !isSpace c && numericFree c

/-- The relation between the stream `x` of a file `pre ++ w :: k :: rest` and the stream `y` of
the file `pre` alone at the same point of the reading loop: `x` is `y` followed by the rest of
the longer file, or `y` is used up and `x` stands at `k`. -/
def Resumes (w k : Char) (rest x y : List Char) : Prop :=
  x = y ++ w :: k :: rest ∨ (y = [] ∧ x = k :: rest)

/-- The fields that `fscanf` assigned on a vertex line. -/
def Record.vertexFields : Record → Option (List Flt)
  | .v fields => some fields
  | _ => none

/-- The fields that `fscanf` assigned on a normal line. -/
def Record.normalFields : Record → Option (List Flt)
  | .vn fields => some fields
  | _ => none

/-- The fields that `fscanf` assigned on a face line. -/
def Record.faceFields : Record → Option (List Int)
  | .f fields => some fields
  | _ => none

/-- The vector `v` keeps the components that `fscanf` assigned: the first, the second and the
third field, when there is one, are its x, its y and its z. -/
def keepsFields (fields : List Flt) (v : Vec3) : Prop :=
  (∀ a, fields.get? 0 = some a → v.x = a) ∧ (∀ b, fields.get? 1 = some b → v.y = b) ∧
    (∀ c, fields.get? 2 = some c → v.z = c)

/-- The index pushed for a position index `m` that `fscanf` assigned: `m - 1` in
`unsigned int` arithmetic. -/
def assignedIndex (m : Int) : Nat := (toUnsigned m + 4294967295) % 4294967296

/-- The three indices `t` pushed for a face line keep the position indices that `fscanf`
assigned (the fields 0, 2 and 4), each minus one. -/
def keepsIndices (fields : List Int) (t : Nat × Nat × Nat) : Prop :=
  (∀ m, fields.get? 0 = some m → t.1 = assignedIndex m) ∧
    (∀ m, fields.get? 2 = some m → t.2.1 = assignedIndex m) ∧
    (∀ m, fields.get? 4 = some m → t.2.2 = assignedIndex m)

/-- The bounds of an axis take every vertex in: no vertex has a coordinate below the lower bound
or above the upper bound, and each bound is the coordinate of a vertex unless it still is the
infinity it started at. -/
def OBJObject.boundsTakeIn (o : OBJObject) (ax : Axis) : Prop :=
  (∀ v ∈ o.vertices,
    Flt.lt (v.on ax) (o.minOn ax) = false ∧ Flt.gt (v.on ax) (o.maxOn ax) = false) ∧
  (o.minOn ax = .pinf ∨ ∃ v ∈ o.vertices, v.on ax = o.minOn ax) ∧
  (o.maxOn ax = .ninf ∨ ∃ v ∈ o.vertices, v.on ax = o.maxOn ax)

/-- A mesh of one vertex and two normals. -/
def plainFile : String := "v 1 2 3\nvn 0 0 1\nvn 0 0 1\n"

/-- The file `plainFile` with a comment line inserted at the top. -/
def commentedFile : String := "# v 4 5 6\nv 1 2 3\nvn 0 0 1\nvn 0 0 1\n"

/-- A mesh of one vertex and two normals, after a vertex line that lacks its third number. -/
def brokenFile : String := "v 1 2\nv 3 4 5\nvn 0 0 1\nvn 0 0 1\n"

/-- The file `brokenFile` without its first line. -/
def soundFile : String := "v 3 4 5\nvn 0 0 1\nvn 0 0 1\n"

/-- A call of one of the two turning methods, with the frame time `Window::delta` of the call:
`A_movement` (turn left) or `D_movement` (turn right). -/
inductive Turn where
  | A (delta : Flt)
  | D (delta : Flt)
deriving DecidableEq

/-- The object after one call of a turning method. -/
def OBJObject.turn (g : Glm) (boundaries : Vec2) (o : OBJObject) : Turn → OBJObject
  | .A delta => o.A_movement g boundaries delta
  | .D delta => o.D_movement g boundaries delta

/-- The object after a sequence of calls of the turning methods. -/
def OBJObject.turns (g : Glm) (boundaries : Vec2) (o : OBJObject) (ts : List Turn) : OBJObject :=
  ts.foldl (OBJObject.turn g boundaries) o

/-- The angle that a call of a turning method passes to `glm::rotate`. -/
def Glm.turnAngle (g : Glm) : Turn → Flt
  | .A delta => (TURN_SPEED * delta) / .fin 180 * g.pi
  | .D delta => (Flt.neg TURN_SPEED * delta) / .fin 180 * g.pi

/-- The vector that a turning method passes to `glm::normalize`: the direction `v`, turned by
`angle` about the vertical axis. -/
def Glm.rotated (g : Glm) (angle : Flt) (v : Vec3) : Vec3 :=
  Vec3.ofVec4 (g.mulVec (g.rotate Mat4.identity angle ⟨.fin 0, .fin 1, .fin 0⟩)
    (v.toVec4 (.fin 1)))

/-- The square of the magnitude of a vector of numbers. -/
def Vec3.normSq (v : Vec3) : ℚ := v.x.toRat ^ 2 + v.y.toRat ^ 2 + v.z.toRat ^ 2

/-- A vector of magnitude 1. -/
def Vec3.unitLength (v : Vec3) : Prop := v.isFinite = true ∧ v.normSq = 1

/-- A vector of numbers whose squared magnitude is within `eps` of 1 (its magnitude is then
within `eps` of 1 as well). -/
def Vec3.nearUnit (eps : ℚ) (v : Vec3) : Prop := v.isFinite = true ∧ |v.normSq - 1| ≤ eps

/-- The accuracy asked of `glm::normalize`: for a vector of numbers whose squared magnitude
lies between 1/4 and 4, the result is a vector of numbers whose squared magnitude is within
`eps` of 1. -/
def Glm.NormalizeWithin (g : Glm) (eps : ℚ) : Prop :=
  ∀ v : Vec3, v.isFinite = true → 1 / 4 ≤ v.normSq → v.normSq ≤ 4 → (g.normalize v).nearUnit eps

/-- The accuracy asked of `glm::rotate` and of the product of a matrix and a vector: turning a
vector of numbers whose squared magnitude is within `eps` of 1 by an angle that is a number
gives a vector of numbers whose squared magnitude lies between 1/4 and 4. -/
def Glm.RotateWithin (g : Glm) (eps : ℚ) : Prop :=
  ∀ (angle : Flt) (v : Vec3), angle.isFinite = true → v.nearUnit eps →
    (g.rotated angle v).isFinite = true ∧ 1 / 4 ≤ (g.rotated angle v).normSq ∧
      (g.rotated angle v).normSq ≤ 4

/-- The functions of the library pass a NaN on, as IEEE arithmetic does: the rotation by a NaN
angle has a NaN as its first entry, the product of a matrix whose first entry is NaN and a
vector has a NaN as its first component, and so has the normalized vector of a vector whose
first component is NaN. -/
def Glm.PropagatesNaN (g : Glm) : Prop :=
  (∀ m axis, (g.rotate m .nan axis).c0.x = .nan) ∧
  (∀ (m : Mat4) (v : Vec4), m.c0.x = .nan → (g.mulVec m v).x = .nan) ∧
  (∀ v : Vec3, v.x = .nan → (g.normalize v).x = .nan)

/-- The integer square root by bits: from `acc` with `acc ^ 2 ≤ n < (acc + 2 ^ bits) ^ 2`, the
largest `r` with `r ^ 2 ≤ n`. -/
def isqrtBits : Nat → Nat → Nat → Nat
  | 0, acc, _ => acc
  | bits + 1, acc, n =>
    if (acc + 2 ^ bits) ^ 2 ≤ n then isqrtBits bits (acc + 2 ^ bits) n else isqrtBits bits acc n

/-- A square root of floats for the examples: the binary32 value nearest to the square root
rounded down to 32 binary places, which is within `2 ^ -23` of the square root, relatively, for
arguments between 1/8 and 8; NaN for a negative argument or NaN. -/
def sqrtRef : Flt → Flt
  | .fin s =>
    if s < 0 then .nan
    else round32 ((isqrtBits 64 0 ⌊s * 18446744073709551616⌋.toNat : ℚ) / 4294967296)
  | .pinf => .pinf
  | .ninf => .nan
  | .nan => .nan

/-- The accuracy asked of a square root: between 1/8 and 8 its result is a positive number whose
square is within the relative error `3 * 2 ^ -24` of the argument (the square of the binary32
value nearest to the square root is within `2 ^ -23`, about). -/
def SqrtWithin (sqrt : Flt → Flt) : Prop :=
  ∀ s : ℚ, 1 / 8 ≤ s → s ≤ 8 →
    ∃ q : ℚ, sqrt (.fin s) = .fin q ∧ 0 < q ∧ s * (1 - 3 * halfUlp) ≤ q ^ 2 ∧
      q ^ 2 ≤ s * (1 + 3 * halfUlp)

/-- The scalar product as glm computes it: the products are summed from the left. -/
def dotRef (a b : Vec3) : Flt := (a.x * b.x + a.y * b.y) + a.z * b.z

/-- The function `glm::normalize` as glm defines it, `v * inversesqrt(dot(v, v))` with
`inversesqrt(x) = 1 / sqrt(x)`, over a square root `sqrt`. -/
def normalizeRef (sqrt : Flt → Flt) (v : Vec3) : Vec3 :=
  v.scale (.fin 1 / sqrt (dotRef v v))

/-- The product of a matrix and a vector, summed as glm sums it. -/
def mulVecRef (m : Mat4) (v : Vec4) : Vec4 :=
  ⟨(m.c0.x * v.x + m.c1.x * v.y) + (m.c2.x * v.z + m.c3.x * v.w),
   (m.c0.y * v.x + m.c1.y * v.y) + (m.c2.y * v.z + m.c3.y * v.w),
   (m.c0.z * v.x + m.c1.z * v.y) + (m.c2.z * v.z + m.c3.z * v.w),
   (m.c0.w * v.x + m.c1.w * v.y) + (m.c2.w * v.z + m.c3.w * v.w)⟩

/-- The product of two matrices: the columns of the second, each multiplied by the first. -/
def mulMatRef (m n : Mat4) : Mat4 :=
  ⟨mulVecRef m n.c0, mulVecRef m n.c1, mulVecRef m n.c2, mulVecRef m n.c3⟩

/-- The rotation about the vertical axis with cosine `c` and sine `s`. -/
def rotationY (c s : Flt) : Mat4 :=
  ⟨⟨c, .fin 0, Flt.neg s, .fin 0⟩, ⟨.fin 0, .fin 1, .fin 0, .fin 0⟩,
   ⟨s, .fin 0, c, .fin 0⟩, ⟨.fin 0, .fin 0, .fin 0, .fin 1⟩⟩

/-- A rotation for the examples: the quarter turn to the side of the sign of the angle (the
quarter turns are the rotations about the vertical axis whose matrix is exact in binary32), no
turn for the angle 0, NaN entries for an angle that is no number. -/
def quarterRotate (m : Mat4) (angle : Flt) (_axis : Vec3) : Mat4 :=
  match angle with
  | .fin q =>
    if 0 < q then mulMatRef m (rotationY (.fin 0) (.fin 1))
    else if q < 0 then mulMatRef m (rotationY (.fin 0) (.fin (-1)))
    else m
  | _ => mulMatRef m (rotationY .nan .nan)

/-- A glm for the examples: `glm::normalize` and the products as glm defines them, over
`sqrtRef`; quarter turns for the rotations; `glm::pi<float>()` is the binary32 value nearest to
pi. -/
def quarterGlm : Glm :=
  { pi := .fin (13176795 / 4194304), rotate := quarterRotate, mulVec := mulVecRef,
    mulMat := mulMatRef, normalize := normalizeRef sqrtRef }

/-- The object built from `centredFile` after a turn left, a turn right and a turn left, each
with the frame time 1/64. -/
def turnedCentred : OBJObject :=
  (built centredFile).turns quarterGlm ⟨.fin 100, .fin 100⟩
    [.A (.fin (1 / 64)), .D (.fin (1 / 64)), .A (.fin (1 / 64))]

/-! ## Rounding to binary32 -/

theorem log2Fuel_eq : ∀ fuel n, n ≤ fuel → log2Fuel fuel n = Nat.log2 n := by
  intro fuel
  induction fuel with
  | zero =>
    intro n h
    have h0 : n = 0 := by omega
    subst h0
    rw [Nat.log2]
    simp [log2Fuel]
  | succ k ih =>
    intro n h
    rw [Nat.log2, log2Fuel]
    by_cases h2 : 2 ≤ n
    · have h3 : n / 2 ≤ k := by omega
      simp [h2, ih _ h3]
    · simp [h2]

theorem ilog2_eq (n : Nat) : ilog2 n = Nat.log2 n := log2Fuel_eq n n le_rfl

theorem ilog2_le {n : Nat} (h : n ≠ 0) : 2 ^ ilog2 n ≤ n := by
  rw [ilog2_eq]; exact Nat.log2_self_le h

theorem lt_ilog2 (n : Nat) : n < 2 ^ (ilog2 n + 1) := by
  rw [ilog2_eq]; exact Nat.lt_log2_self

theorem pow2_eq (e : ℤ) : pow2 e = (2 : ℚ) ^ e := by
  unfold pow2
  split
  · rename_i h
    obtain ⟨n, rfl⟩ := Int.eq_ofNat_of_zero_le h
    simp [zpow_natCast]
  · rename_i h
    obtain ⟨n, hn⟩ := Int.eq_ofNat_of_zero_le (show 0 ≤ -e by omega)
    have he : e = -(n : ℤ) := by omega
    subst he
    simp [zpow_neg, zpow_natCast]

theorem pow2_pos (e : ℤ) : 0 < pow2 e := by
  rw [pow2_eq]; positivity

theorem pow2_add (a b : ℤ) : pow2 (a + b) = pow2 a * pow2 b := by
  simp only [pow2_eq]; exact zpow_add₀ (by norm_num) a b

theorem pow2_le {a b : ℤ} (h : a ≤ b) : pow2 a ≤ pow2 b := by
  simp only [pow2_eq]; exact zpow_le_zpow_right₀ (by norm_num) h

theorem pow2_lt {a b : ℤ} (h : a < b) : pow2 a < pow2 b := by
  simp only [pow2_eq]; exact (zpow_lt_zpow_iff_right₀ (by norm_num)).2 h

theorem pow2_lt_iff {a b : ℤ} : pow2 a < pow2 b ↔ a < b := by
  simp only [pow2_eq]; exact zpow_lt_zpow_iff_right₀ (by norm_num)

theorem pow2_le_iff {a b : ℤ} : pow2 a ≤ pow2 b ↔ a ≤ b := by
  simp only [pow2_eq]; exact zpow_le_zpow_iff_right₀ (by norm_num)

theorem pow2_succ (a : ℤ) : pow2 (a + 1) = 2 * pow2 a := by
  rw [pow2_add, mul_comm]; congr 1

theorem pow2_zero : pow2 0 = 1 := by simp [pow2]

theorem pow2_natCast (n : ℕ) : pow2 (n : ℤ) = (2 : ℚ) ^ n := by
  rw [pow2_eq, zpow_natCast]

/-- The binary exponent brackets a nonzero rational. -/
theorem floorLog2_spec {q : ℚ} (hq : q ≠ 0) :
    pow2 (floorLog2 q) ≤ |q| ∧ |q| < pow2 (floorLog2 q + 1) := by
  have hn : q.num.natAbs ≠ 0 := by
    simpa [Int.natAbs_eq_zero] using hq
  have hd : q.den ≠ 0 := q.den_nz
  have habs : |q| = (q.num.natAbs : ℚ) / (q.den : ℚ) := by
    have h1 : |q| = |(q.num : ℚ)| / (q.den : ℚ) := by
      conv_lhs => rw [← Rat.num_div_den q]
      rw [abs_div, abs_of_pos (show (0 : ℚ) < q.den by exact_mod_cast Nat.pos_of_ne_zero hd)]
    rw [h1, Nat.cast_natAbs, Int.cast_abs]
  have hdpos : (0 : ℚ) < q.den := by exact_mod_cast Nat.pos_of_ne_zero hd
  have a1 : ((2 : ℚ) ^ ilog2 q.num.natAbs) ≤ q.num.natAbs := by exact_mod_cast ilog2_le hn
  have a2 : (q.num.natAbs : ℚ) < (2 : ℚ) ^ (ilog2 q.num.natAbs + 1) := by
    exact_mod_cast lt_ilog2 q.num.natAbs
  have b1 : ((2 : ℚ) ^ ilog2 q.den) ≤ q.den := by exact_mod_cast ilog2_le hd
  have b2 : (q.den : ℚ) < (2 : ℚ) ^ (ilog2 q.den + 1) := by exact_mod_cast lt_ilog2 q.den
  set a := ilog2 q.num.natAbs
  set b := ilog2 q.den
  have low : pow2 ((a : ℤ) - b - 1) ≤ |q| := by
    rw [habs, le_div_iff₀ hdpos]
    have e1 : pow2 ((a : ℤ) - b - 1) * (2 : ℚ) ^ (b + 1) = (2 : ℚ) ^ a := by
      rw [← pow2_natCast, ← pow2_natCast, ← pow2_add]; congr 1; push_cast; ring
    calc pow2 ((a : ℤ) - b - 1) * (q.den : ℚ)
        ≤ pow2 ((a : ℤ) - b - 1) * (2 : ℚ) ^ (b + 1) :=
          mul_le_mul_of_nonneg_left b2.le (pow2_pos _).le
      _ = (2 : ℚ) ^ a := e1
      _ ≤ _ := a1
  have high : |q| < pow2 ((a : ℤ) - b + 1) := by
    rw [habs, div_lt_iff₀ hdpos]
    have e1 : pow2 ((a : ℤ) - b + 1) * (2 : ℚ) ^ b = (2 : ℚ) ^ (a + 1) := by
      rw [← pow2_natCast, ← pow2_natCast, ← pow2_add]; congr 1; push_cast; ring
    calc (q.num.natAbs : ℚ) < (2 : ℚ) ^ (a + 1) := a2
      _ = pow2 ((a : ℤ) - b + 1) * (2 : ℚ) ^ b := e1.symm
      _ ≤ pow2 ((a : ℤ) - b + 1) * (q.den : ℚ) :=
          mul_le_mul_of_nonneg_left b1 (pow2_pos _).le
  unfold floorLog2
  split
  · rename_i h
    exact ⟨h, high⟩
  · rename_i h
    refine ⟨low, ?_⟩
    have : (a : ℤ) - b - 1 + 1 = (a : ℤ) - b := by ring
    rw [this]
    exact not_le.1 h

/-- The binary exponent is the only integer that brackets a rational. -/
theorem floorLog2_unique {q : ℚ} {k : ℤ} (h1 : pow2 k ≤ |q|) (h2 : |q| < pow2 (k + 1)) :
    floorLog2 q = k := by
  have hq : q ≠ 0 := by
    intro h0
    rw [h0, abs_zero] at h1
    exact absurd (pow2_pos k) (not_lt.2 h1)
  obtain ⟨s1, s2⟩ := floorLog2_spec hq
  have l1 : floorLog2 q < k + 1 := pow2_lt_iff.1 (lt_of_le_of_lt s1 h2)
  have l2 : k < floorLog2 q + 1 := pow2_lt_iff.1 (lt_of_le_of_lt h1 s2)
  omega

theorem floorLog2_neg (q : ℚ) : floorLog2 (-q) = floorLog2 q := by
  unfold floorLog2
  simp [Rat.num_neg_eq_neg_num]

theorem roundEven_spec (q : ℚ) : NearestEven q (roundEven q) := by
  have h1 : (⌊q⌋ : ℚ) ≤ q := Int.floor_le q
  have h2 : q < ⌊q⌋ + 1 := Int.lt_floor_add_one q
  unfold roundEven NearestEven
  split
  · rename_i h
    left
    rw [abs_lt]; constructor <;> linarith
  · rename_i h
    split
    · rename_i h'
      left
      push_cast
      rw [abs_lt]; constructor <;> linarith
    · rename_i h'
      have h3 : q - ⌊q⌋ = 1 / 2 := le_antisymm (not_lt.1 h') (not_lt.1 h)
      split
      · rename_i h4
        right
        exact ⟨by rw [h3]; norm_num, h4⟩
      · rename_i h4
        right
        refine ⟨?_, by omega⟩
        push_cast
        have : q - (⌊q⌋ + 1) = -(1 / 2) := by linarith
        rw [this]; norm_num

theorem NearestEven.unique {q : ℚ} {n m : ℤ} (hn : NearestEven q n) (hm : NearestEven q m) :
    n = m := by
  have key : |((n - m : ℤ) : ℚ)| ≤ |q - n| + |q - m| := by
    have : ((n - m : ℤ) : ℚ) = (q - m) - (q - n) := by push_cast; ring
    rw [this]
    calc |q - ↑m - (q - ↑n)| ≤ |q - ↑m| + |q - ↑n| := abs_sub _ _
      _ = _ := add_comm _ _
  have hn1 : |q - n| ≤ 1 / 2 := by
    rcases hn with h | ⟨h, _⟩ <;> linarith
  have hm1 : |q - m| ≤ 1 / 2 := by
    rcases hm with h | ⟨h, _⟩ <;> linarith
  by_contra hne
  have h1 : (1 : ℚ) ≤ |((n - m : ℤ) : ℚ)| := by
    have : 1 ≤ |n - m| := Int.one_le_abs (sub_ne_zero.2 hne)
    rw [← Int.cast_abs]
    exact_mod_cast this
  have hn2 : |q - n| = 1 / 2 := by linarith
  have hm2 : |q - m| = 1 / 2 := by linarith
  have en : n % 2 = 0 := by
    rcases hn with h | ⟨_, h⟩
    · linarith
    · exact h
  have em : m % 2 = 0 := by
    rcases hm with h | ⟨_, h⟩
    · linarith
    · exact h
  have h2 : |((n - m : ℤ) : ℚ)| ≤ 1 := by linarith
  have h3 : |n - m| ≤ 1 := by
    rw [← Int.cast_abs] at h2
    exact_mod_cast h2
  have h4 : |n - m| = 1 := le_antisymm h3 (Int.one_le_abs (sub_ne_zero.2 hne))
  rcases abs_eq (by norm_num : (0 : ℤ) ≤ 1) |>.1 h4 with h | h <;> omega

theorem roundEven_eq {q : ℚ} {n : ℤ} (h : NearestEven q n) : roundEven q = n :=
  (roundEven_spec q).unique h

theorem roundEven_intCast (n : ℤ) : roundEven (n : ℚ) = n :=
  roundEven_eq (Or.inl (by simp))

theorem roundEven_zero : roundEven 0 = 0 := by
  have := roundEven_intCast 0
  simpa using this

theorem roundEven_neg (q : ℚ) : roundEven (-q) = -roundEven q := by
  apply roundEven_eq
  have h := roundEven_spec q
  unfold NearestEven at *
  have e : |(-q) - ((-roundEven q : ℤ) : ℚ)| = |q - roundEven q| := by
    push_cast
    rw [← abs_neg]; congr 1; ring
  rw [e]
  rcases h with h | ⟨h, h'⟩
  · exact Or.inl h
  · exact Or.inr ⟨h, by omega⟩

theorem abs_roundEven_sub_le (q : ℚ) : |q - roundEven q| ≤ 1 / 2 := by
  rcases roundEven_spec q with h | ⟨h, _⟩ <;> linarith

theorem roundEven_mono {a b : ℚ} (h : a ≤ b) : roundEven a ≤ roundEven b := by
  by_contra hlt
  have hlt : roundEven b + 1 ≤ roundEven a := by omega
  have ha := abs_roundEven_sub_le a
  have hb := abs_roundEven_sub_le b
  have hq : ((roundEven b : ℤ) : ℚ) + 1 ≤ roundEven a := by exact_mod_cast hlt
  rw [abs_le] at ha hb
  have e1 : a = b := by linarith [ha.1, ha.2, hb.1, hb.2]
  rw [e1] at hlt
  omega

theorem roundEven_le_of_le {q : ℚ} {n : ℤ} (h : q ≤ n) : roundEven q ≤ n := by
  have := roundEven_mono h
  rwa [roundEven_intCast] at this

theorem le_roundEven_of_le {q : ℚ} {n : ℤ} (h : (n : ℚ) ≤ q) : n ≤ roundEven q := by
  have := roundEven_mono h
  rwa [roundEven_intCast] at this

/-! ### The grid of a rational -/

theorem ulp_eq (q : ℚ) : ulp q = pow2 (gridExp q - 23) := rfl

theorem ulp_pos (q : ℚ) : 0 < ulp q := pow2_pos _

theorem gridExp_neg (q : ℚ) : gridExp (-q) = gridExp q := by
  unfold gridExp; rw [floorLog2_neg]

theorem ulp_neg (q : ℚ) : ulp (-q) = ulp q := by
  rw [ulp_eq, ulp_eq, gridExp_neg]

theorem gridExp_ge (q : ℚ) : -126 ≤ gridExp q := le_max_right _ _

theorem rnd_neg (q : ℚ) : rnd (-q) = -rnd q := by
  unfold rnd
  rw [ulp_neg, neg_div, roundEven_neg]
  push_cast; ring

theorem rnd_zero : rnd 0 = 0 := by
  unfold rnd
  simp [roundEven_zero]

theorem rnd_error (q : ℚ) : |rnd q - q| ≤ ulp q / 2 := by
  have hu := ulp_pos q
  have h := abs_roundEven_sub_le (q / ulp q)
  have e : rnd q - q = -((q / ulp q - roundEven (q / ulp q)) * ulp q) := by
    unfold rnd; field_simp; ring
  rw [e, abs_neg, abs_mul, abs_of_pos hu]
  calc |q / ulp q - ↑(roundEven (q / ulp q))| * ulp q ≤ 1 / 2 * ulp q :=
        mul_le_mul_of_nonneg_right h hu.le
    _ = ulp q / 2 := by ring

theorem rnd_nonneg {q : ℚ} (h : 0 ≤ q) : 0 ≤ rnd q := by
  unfold rnd
  have hu := ulp_pos q
  have : (0 : ℤ) ≤ roundEven (q / ulp q) :=
    le_roundEven_of_le (by simpa using div_nonneg h hu.le)
  have : (0 : ℚ) ≤ roundEven (q / ulp q) := by exact_mod_cast this
  positivity

theorem rnd_nonpos {q : ℚ} (h : q ≤ 0) : rnd q ≤ 0 := by
  have := rnd_nonneg (show 0 ≤ -q by linarith)
  rw [rnd_neg] at this
  linarith

theorem floorLog2_mono {a b : ℚ} (ha : 0 < a) (h : a ≤ b) : floorLog2 a ≤ floorLog2 b := by
  have hb : 0 < b := lt_of_lt_of_le ha h
  obtain ⟨a1, _⟩ := floorLog2_spec ha.ne'
  obtain ⟨_, b2⟩ := floorLog2_spec hb.ne'
  rw [abs_of_pos ha] at a1
  rw [abs_of_pos hb] at b2
  have : floorLog2 a < floorLog2 b + 1 := pow2_lt_iff.1 (by linarith)
  omega

theorem gridExp_mono {a b : ℚ} (ha : 0 < a) (h : a ≤ b) : gridExp a ≤ gridExp b :=
  max_le_max (floorLog2_mono ha h) le_rfl

theorem pow2_24 (e : ℤ) : pow2 (e + 1) = 16777216 * pow2 (e - 23) := by
  have : e + 1 = 24 + (e - 23) := by ring
  rw [this, pow2_add]
  congr 1

theorem pow2_23 (e : ℤ) : pow2 e = 8388608 * pow2 (e - 23) := by
  have : e = 23 + (e - 23) := by ring
  conv_lhs => rw [this, pow2_add]
  congr 1

/-- A positive rational is below the end of its grid. -/
theorem lt_gridExp {q : ℚ} (h : 0 < q) : q < pow2 (gridExp q + 1) := by
  obtain ⟨_, h2⟩ := floorLog2_spec h.ne'
  rw [abs_of_pos h] at h2
  exact lt_of_lt_of_le h2 (pow2_le (by unfold gridExp; have := le_max_left (floorLog2 q) (-126); omega))

theorem rnd_le_top {q : ℚ} (h : 0 < q) : rnd q ≤ pow2 (gridExp q + 1) := by
  have hu := ulp_pos q
  have h1 : q / ulp q ≤ ((16777216 : ℤ) : ℚ) := by
    rw [div_le_iff₀ hu, ulp_eq]
    have := lt_gridExp h
    rw [pow2_24] at this
    push_cast
    linarith
  have h2 : roundEven (q / ulp q) ≤ 16777216 := roundEven_le_of_le h1
  have h3 : ((roundEven (q / ulp q) : ℤ) : ℚ) ≤ 16777216 := by exact_mod_cast h2
  unfold rnd
  rw [pow2_24, ← ulp_eq]
  exact mul_le_mul_of_nonneg_right h3 hu.le

theorem le_rnd_of_pow2_le {q : ℚ} (h : pow2 (gridExp q) ≤ q) : pow2 (gridExp q) ≤ rnd q := by
  have hu := ulp_pos q
  have h1 : ((8388608 : ℤ) : ℚ) ≤ q / ulp q := by
    rw [le_div_iff₀ hu, ulp_eq]
    rw [pow2_23] at h
    push_cast
    linarith
  have h2 : 8388608 ≤ roundEven (q / ulp q) := le_roundEven_of_le h1
  have h3 : (8388608 : ℚ) ≤ ((roundEven (q / ulp q) : ℤ) : ℚ) := by exact_mod_cast h2
  unfold rnd
  rw [pow2_23, ← ulp_eq]
  exact mul_le_mul_of_nonneg_right h3 hu.le

theorem rnd_mono_pos {a b : ℚ} (ha : 0 < a) (h : a ≤ b) : rnd a ≤ rnd b := by
  have hb : 0 < b := lt_of_lt_of_le ha h
  rcases (gridExp_mono ha h).lt_or_eq with hlt | heq
  · have h1 := rnd_le_top ha
    have hfb : gridExp b = floorLog2 b := by
      unfold gridExp at hlt ⊢
      have := gridExp_ge a
      unfold gridExp at this
      rcases max_cases (floorLog2 b) (-126) with ⟨e, _⟩ | ⟨e, _⟩
      · exact e
      · rw [e] at hlt; omega
    have h2 : pow2 (gridExp b) ≤ b := by
      rw [hfb]
      have := (floorLog2_spec hb.ne').1
      rwa [abs_of_pos hb] at this
    have h3 := le_rnd_of_pow2_le h2
    have h4 : pow2 (gridExp a + 1) ≤ pow2 (gridExp b) := pow2_le (by omega)
    linarith
  · have hu : ulp a = ulp b := by rw [ulp_eq, ulp_eq, heq]
    unfold rnd
    rw [hu]
    have hub := ulp_pos b
    have : roundEven (a / ulp b) ≤ roundEven (b / ulp b) :=
      roundEven_mono (div_le_div_of_nonneg_right h hub.le)
    have : ((roundEven (a / ulp b) : ℤ) : ℚ) ≤ roundEven (b / ulp b) := by exact_mod_cast this
    exact mul_le_mul_of_nonneg_right this hub.le

/-- Rounding is monotone. -/
theorem rnd_mono {a b : ℚ} (h : a ≤ b) : rnd a ≤ rnd b := by
  rcases lt_trichotomy 0 a with ha | ha | ha
  · exact rnd_mono_pos ha h
  · subst ha
    rw [rnd_zero]; exact rnd_nonneg h
  · rcases lt_or_le b 0 with hb | hb
    · have := rnd_mono_pos (show 0 < -b by linarith) (show -b ≤ -a by linarith)
      rw [rnd_neg, rnd_neg] at this
      linarith
    · have := rnd_nonpos ha.le
      have := rnd_nonneg hb
      linarith

/-! ### Values that rounding keeps -/

theorem rnd_of_int_div {x : ℚ} {n : ℤ} (h : x / ulp x = n) : rnd x = x := by
  have hu := ulp_pos x
  unfold rnd
  rw [h, roundEven_intCast, ← h]
  field_simp

theorem pow2_sub_natCast (k e : ℤ) (h : e ≤ k) :
    pow2 (k - 23) / pow2 (e - 23) = (((2 : ℤ) ^ (k - e).toNat : ℤ) : ℚ) := by
  have hp := pow2_pos (e - 23)
  rw [div_eq_iff hp.ne']
  have e1 : k - 23 = ((k - e).toNat : ℤ) + (e - 23) := by
    rw [Int.toNat_of_nonneg (by omega)]; ring
  conv_lhs => rw [e1, pow2_add, pow2_natCast]
  push_cast
  ring

theorem rnd_grid_pos (m k : ℤ) (hk : -126 ≤ k) (hm0 : 0 < m) (hm : m ≤ 16777216) :
    rnd (m * pow2 (k - 23)) = m * pow2 (k - 23) := by
  have hu := pow2_pos (k - 23)
  have hmq : (0 : ℚ) < m := by exact_mod_cast hm0
  have hmq2 : (m : ℚ) ≤ 16777216 := by exact_mod_cast hm
  have hx : 0 < (m : ℚ) * pow2 (k - 23) := mul_pos hmq hu
  have hle : (m : ℚ) * pow2 (k - 23) ≤ pow2 (k + 1) := by
    rw [pow2_24]
    exact mul_le_mul_of_nonneg_right hmq2 hu.le
  have hfl : floorLog2 ((m : ℚ) * pow2 (k - 23)) ≤ k + 1 := by
    have h1 := (floorLog2_spec hx.ne').1
    rw [abs_of_pos hx] at h1
    have h2 : pow2 (floorLog2 ((m : ℚ) * pow2 (k - 23))) < pow2 (k + 1 + 1) :=
      lt_of_le_of_lt (le_trans h1 hle) (pow2_lt (by omega))
    have := pow2_lt_iff.1 h2
    omega
  have hge : gridExp ((m : ℚ) * pow2 (k - 23)) ≤ k + 1 := max_le hfl (by omega)
  rcases hge.lt_or_eq with hlt | heq
  · have hlt' : gridExp ((m : ℚ) * pow2 (k - 23)) ≤ k := by omega
    apply rnd_of_int_div (n := m * (2 : ℤ) ^ (k - gridExp ((m : ℚ) * pow2 (k - 23))).toNat)
    rw [ulp_eq, mul_div_assoc, pow2_sub_natCast _ _ hlt']
    push_cast
    ring
  · have hfl2 : floorLog2 ((m : ℚ) * pow2 (k - 23)) = k + 1 := by
      unfold gridExp at heq
      rcases max_cases (floorLog2 ((m : ℚ) * pow2 (k - 23))) (-126) with ⟨e, _⟩ | ⟨e, _⟩
      · rw [e] at heq; exact heq
      · rw [e] at heq; omega
    have h1 := (floorLog2_spec hx.ne').1
    rw [abs_of_pos hx, hfl2] at h1
    have hxe : (m : ℚ) * pow2 (k - 23) = pow2 (k + 1) := le_antisymm hle h1
    apply rnd_of_int_div (n := 8388608)
    rw [ulp_eq, heq, hxe]
    have hp := pow2_pos (k + 1 - 23)
    rw [div_eq_iff hp.ne']
    conv_lhs => rw [pow2_23 (k + 1)]
    push_cast
    ring

/-- A multiple `m * 2 ^ (k - 23)` with at most 24 binary digits and `k` from -126 on is a value
that rounding keeps. -/
theorem rnd_grid (m k : ℤ) (hk : -126 ≤ k) (hm : |m| ≤ 16777216) :
    rnd (m * pow2 (k - 23)) = m * pow2 (k - 23) := by
  rcases lt_trichotomy 0 m with h | h | h
  · exact rnd_grid_pos m k hk h (le_trans (le_abs_self m) hm)
  · subst h
    simp [rnd_zero]
  · have h1 : |(-m)| ≤ 16777216 := by rwa [abs_neg]
    have := rnd_grid_pos (-m) k hk (by omega) (le_trans (le_abs_self (-m)) h1)
    push_cast at this
    rw [neg_mul, rnd_neg] at this
    linarith

theorem roundEven_div_ulp_nonneg {q : ℚ} (h : 0 ≤ q) : 0 ≤ roundEven (q / ulp q) :=
  le_roundEven_of_le (by simpa using div_nonneg h (ulp_pos q).le)

theorem roundEven_div_ulp_le {q : ℚ} (h : 0 < q) : roundEven (q / ulp q) ≤ 16777216 := by
  have hu := ulp_pos q
  have h1 : q / ulp q ≤ ((16777216 : ℤ) : ℚ) := by
    rw [div_le_iff₀ hu, ulp_eq]
    have := lt_gridExp h
    rw [pow2_24] at this
    push_cast
    linarith
  exact roundEven_le_of_le h1

theorem abs_roundEven_div_ulp_le (q : ℚ) : |roundEven (q / ulp q)| ≤ 16777216 := by
  rcases lt_trichotomy 0 q with h | h | h
  · rw [abs_of_nonneg (roundEven_div_ulp_nonneg h.le)]
    exact roundEven_div_ulp_le h
  · subst h
    simp [roundEven_zero]
  · have h1 := roundEven_div_ulp_nonneg (show 0 ≤ -q by linarith)
    have h2 := roundEven_div_ulp_le (show 0 < -q by linarith)
    rw [ulp_neg, neg_div, roundEven_neg] at h1 h2
    rw [abs_le]
    constructor <;> omega

/-- Rounding a rounded value changes nothing. -/
theorem rnd_idem (q : ℚ) : rnd (rnd q) = rnd q := by
  have := rnd_grid (roundEven (q / ulp q)) (gridExp q) (gridExp_ge q) (abs_roundEven_div_ulp_le q)
  unfold rnd at this ⊢
  rw [ulp_eq q] at this ⊢
  exact this

/-! ### The rounding error -/

theorem gridExp_of_le {q : ℚ} (h : pow2 (-126) ≤ |q|) : gridExp q = floorLog2 q := by
  have hq : q ≠ 0 := by
    intro h0
    rw [h0, abs_zero] at h
    exact absurd (pow2_pos (-126)) (not_lt.2 h)
  have h2 := (floorLog2_spec hq).2
  have : (-126 : ℤ) < floorLog2 q + 1 := pow2_lt_iff.1 (lt_of_le_of_lt h h2)
  unfold gridExp
  exact max_eq_left (by omega)

theorem gridExp_of_lt {q : ℚ} (hq : q ≠ 0) (h : |q| < pow2 (-126)) : gridExp q = -126 := by
  have h1 := (floorLog2_spec hq).1
  have : floorLog2 q < -126 := pow2_lt_iff.1 (lt_of_le_of_lt h1 h)
  unfold gridExp
  exact max_eq_right (by omega)

theorem ulp_le {q : ℚ} (h : pow2 (-126) ≤ |q|) : ulp q ≤ |q| * pow2 (-23) := by
  have hq : q ≠ 0 := by
    intro h0
    rw [h0, abs_zero] at h
    exact absurd (pow2_pos (-126)) (not_lt.2 h)
  rw [ulp_eq, gridExp_of_le h]
  have e : floorLog2 q - 23 = floorLog2 q + -23 := by ring
  rw [e, pow2_add]
  exact mul_le_mul_of_nonneg_right (floorLog2_spec hq).1 (pow2_pos _).le

theorem pow2_neg24 : pow2 (-24) = 1 / 16777216 := by
  rw [pow2_eq]; norm_num [zpow_neg]

theorem pow2_neg23 : pow2 (-23) = 1 / 8388608 := by
  rw [pow2_eq]; norm_num [zpow_neg]

/-- The relative error of rounding in the normal range is at most `2 ^ -24`. -/
theorem rnd_error_rel {q : ℚ} (h : pow2 (-126) ≤ |q|) : |rnd q - q| ≤ |q| / 16777216 := by
  have h1 := rnd_error q
  have h2 := ulp_le h
  rw [pow2_neg23] at h2
  linarith

/-- The error of rounding: relative `2 ^ -24` or, in the subnormal range, absolute `2 ^ -150`. -/
theorem rnd_error_abs (q : ℚ) : |rnd q - q| ≤ |q| / 16777216 + pow2 (-150) := by
  have hp := pow2_pos (-150)
  by_cases hq : q = 0
  · subst hq
    rw [rnd_zero]; simp; exact hp.le
  · rcases le_or_lt (pow2 (-126)) |q| with h | h
    · have := rnd_error_rel h
      linarith
    · have h1 := rnd_error q
      rw [ulp_eq, gridExp_of_lt hq h] at h1
      have e : pow2 (-126 - 23) / 2 = pow2 (-150) := by
        have : (-126 - 23 : ℤ) = -150 + 1 := by norm_num
        rw [this, pow2_succ]; ring
      rw [e] at h1
      have := abs_nonneg q
      have : 0 ≤ |q| / 16777216 := by positivity
      linarith

/-! ### Rounding to a float -/

theorem round32_cases (q : ℚ) :
    (round32 q = .pinf ∧ pow2 128 ≤ rnd q) ∨ (round32 q = .ninf ∧ rnd q ≤ -pow2 128) ∨
      (round32 q = .fin (rnd q) ∧ -pow2 128 < rnd q ∧ rnd q < pow2 128) := by
  unfold round32
  split
  · rename_i h; exact Or.inl ⟨rfl, h⟩
  · rename_i h
    split
    · rename_i h'; exact Or.inr (Or.inl ⟨rfl, h'⟩)
    · rename_i h'; exact Or.inr (Or.inr ⟨rfl, not_le.1 h', not_le.1 h⟩)

theorem round32_ne_nan (q : ℚ) : round32 q ≠ .nan := by
  rcases round32_cases q with ⟨h, _⟩ | ⟨h, _⟩ | ⟨h, _⟩ <;> rw [h] <;> simp

theorem round32_eq_fin {q r : ℚ} (h : round32 q = .fin r) :
    r = rnd q ∧ -pow2 128 < rnd q ∧ rnd q < pow2 128 := by
  rcases round32_cases q with ⟨h1, _⟩ | ⟨h1, _⟩ | ⟨h1, h2⟩
  · rw [h1] at h; simp at h
  · rw [h1] at h; simp at h
  · rw [h1] at h
    injection h with h
    exact ⟨h.symm, h2⟩

theorem round32_of_lt {q : ℚ} (h1 : -pow2 128 < rnd q) (h2 : rnd q < pow2 128) :
    round32 q = .fin (rnd q) := by
  unfold round32
  rw [if_neg (not_le.2 h2), if_neg (not_le.2 h1)]

/-- Rounding a value that a rounding produced changes nothing. -/
theorem round32_idem {q r : ℚ} (h : round32 q = .fin r) : round32 r = .fin r := by
  obtain ⟨e, h1, h2⟩ := round32_eq_fin h
  subst e
  have := round32_of_lt (q := rnd q) (by rw [rnd_idem]; exact h1) (by rw [rnd_idem]; exact h2)
  rw [rnd_idem] at this
  exact this

theorem round32_neg (q : ℚ) : round32 (-q) = Flt.neg (round32 q) := by
  have hp := pow2_pos 128
  unfold round32
  rw [rnd_neg]
  by_cases h1 : pow2 128 ≤ rnd q
  · rw [if_pos h1, if_neg (by linarith), if_pos (by linarith)]; rfl
  · by_cases h2 : rnd q ≤ -pow2 128
    · rw [if_neg h1, if_pos h2, if_pos (by linarith)]; rfl
    · rw [if_neg h1, if_neg h2, if_neg (by linarith), if_neg (by linarith)]; rfl

/-- Rounding to a float is monotone. -/
theorem round32_mono {a b : ℚ} (h : a ≤ b) : Flt.le (round32 a) (round32 b) = true := by
  have hp := pow2_pos 128
  have hm := rnd_mono h
  rcases round32_cases a with ⟨a1, a2⟩ | ⟨a1, a2⟩ | ⟨a1, a2, a3⟩ <;>
    rcases round32_cases b with ⟨b1, b2⟩ | ⟨b1, b2⟩ | ⟨b1, b2, b3⟩ <;>
    rw [a1, b1] <;> simp [Flt.le] <;> linarith

theorem pow2_127_grid : pow2 127 = ((8388608 : ℤ) : ℚ) * pow2 (127 - 23) := by
  rw [pow2_23 127]; push_cast; ring

theorem rnd_pow2_127 : rnd (pow2 127) = pow2 127 := by
  rw [pow2_127_grid]
  exact rnd_grid 8388608 127 (by norm_num) (by norm_num)

/-- A rational of magnitude at most `2 ^ 127` rounds to a finite float. -/
theorem round32_of_abs_le {q : ℚ} (h : |q| ≤ pow2 127) : round32 q = .fin (rnd q) := by
  rw [abs_le] at h
  have h1 := rnd_mono h.2
  have h2 := rnd_mono h.1
  rw [rnd_pow2_127] at h1
  rw [rnd_neg, rnd_pow2_127] at h2
  have := pow2_lt (show (127 : ℤ) < 128 by norm_num)
  exact round32_of_lt (by linarith) (by linarith)

/-! ## Lemmas on floats -/

theorem Flt.add_fin (a b : ℚ) : (Flt.fin a + Flt.fin b) = round32 (a + b) := rfl

theorem Flt.sub_fin (a b : ℚ) : (Flt.fin a - Flt.fin b) = round32 (a - b) := by
  show Flt.add (Flt.fin a) (Flt.neg (Flt.fin b)) = _
  simp [Flt.add, Flt.neg, sub_eq_add_neg]

theorem Flt.mul_fin (a b : ℚ) : (Flt.fin a * Flt.fin b) = round32 (a * b) := rfl

theorem Flt.div_fin (a b : ℚ) (h : b ≠ 0) : (Flt.fin a / Flt.fin b) = round32 (a / b) := by
  show Flt.div (Flt.fin a) (Flt.fin b) = _
  simp [Flt.div, h]

theorem Flt.ge_fin (a b : ℚ) : Flt.ge (Flt.fin a) (Flt.fin b) = decide (b ≤ a) := rfl

theorem Flt.le_fin (a b : ℚ) : Flt.le (Flt.fin a) (Flt.fin b) = decide (a ≤ b) := rfl

theorem Flt.lt_fin (a b : ℚ) : Flt.lt (Flt.fin a) (Flt.fin b) = decide (a < b) := rfl

theorem Flt.gt_fin (a b : ℚ) : Flt.gt (Flt.fin a) (Flt.fin b) = decide (b < a) := rfl

theorem Flt.exists_of_isFinite {a : Flt} (h : a.isFinite = true) : ∃ q, a = Flt.fin q := by
  cases a <;> simp_all [Flt.isFinite]

/-- When `a <= b` holds, `b < a` does not (also for the infinities and NaN). -/
theorem Flt.lt_false_of_le {a b : Flt} (h : Flt.le a b = true) : Flt.lt b a = false := by
  cases a <;> cases b <;> simp_all [Flt.le, Flt.lt]

/-- Every rounded value is at most `+INFINITY`. -/
theorem Flt.le_pinf_round32 (q : ℚ) : Flt.le (round32 q) .pinf = true := by
  rcases round32_cases q with ⟨h, _⟩ | ⟨h, _⟩ | ⟨h, _⟩ <;> rw [h] <;> rfl

/-! ## Movement -/

theorem outOfBounds_false_of_inside {p : Vec3} {b : Vec2}
    (hx0 : Flt.le (.fin 0) p.x = true) (hx1 : Flt.le p.x b.x = true)
    (hz0 : Flt.le (.fin 0) p.z = true) (hz1 : Flt.le p.z b.y = true) :
    outOfBounds p b = false := by
  simp [outOfBounds, Flt.gt, Flt.lt_false_of_le hx0, Flt.lt_false_of_le hx1,
    Flt.lt_false_of_le hz0, Flt.lt_false_of_le hz1]

theorem outOfBounds_true_iff (p : Vec3) (b : Vec2) :
    outOfBounds p b = true ↔ (Flt.gt p.x b.x = true ∨ Flt.gt p.z b.y = true ∨
        Flt.lt p.x (.fin 0) = true ∨ Flt.lt p.z (.fin 0) = true) := by
  simp [outOfBounds, or_assoc]

theorem Vec4.toVec4_ofVec4 (v : Vec4) (h : v.w = .fin 1) :
    (Vec3.ofVec4 v).toVec4 (.fin 1) = v := by
  cases v; simp_all [Vec3.ofVec4, Vec3.toVec4]

theorem W_movement_of_out (o : OBJObject) (b : Vec2) (delta : Flt)
    (h : outOfBounds (o.translation + o.currentDirection.scale (RUN_SPEED * delta)) b = true) :
    o.W_movement b delta =
      { o with toWorld := { o.toWorld with c3 := o.translation.toVec4 (.fin 1) } } := by
  unfold OBJObject.translation at h
  simp only [OBJObject.W_movement, h, if_true, OBJObject.translation]

theorem W_movement_of_in (o : OBJObject) (b : Vec2) (delta : Flt)
    (h : outOfBounds (o.translation + o.currentDirection.scale (RUN_SPEED * delta)) b = false) :
    o.W_movement b delta =
      { o with toWorld := { o.toWorld with c3 :=
        (o.translation + o.currentDirection.scale (RUN_SPEED * delta)).toVec4 (.fin 1) } } := by
  unfold OBJObject.translation at h
  simp only [OBJObject.W_movement, h, OBJObject.translation]
  rfl

theorem S_movement_of_out (o : OBJObject) (b : Vec2) (delta : Flt)
    (h : outOfBounds (o.translation - o.currentDirection.scale (RUN_SPEED * delta)) b = true) :
    o.S_movement b delta =
      { o with toWorld := { o.toWorld with c3 := o.translation.toVec4 (.fin 1) } } := by
  unfold OBJObject.translation at h
  simp only [OBJObject.S_movement, h, if_true, OBJObject.translation]

theorem S_movement_of_in (o : OBJObject) (b : Vec2) (delta : Flt)
    (h : outOfBounds (o.translation - o.currentDirection.scale (RUN_SPEED * delta)) b = false) :
    o.S_movement b delta =
      { o with toWorld := { o.toWorld with c3 :=
        (o.translation - o.currentDirection.scale (RUN_SPEED * delta)).toVec4 (.fin 1) } } := by
  unfold OBJObject.translation at h
  simp only [OBJObject.S_movement, h, OBJObject.translation]
  rfl

theorem keep_toWorld (o : OBJObject) (h : o.toWorld.c3.w = .fin 1) :
    ({ o with toWorld := { o.toWorld with c3 := o.translation.toVec4 (.fin 1) } } :
      OBJObject).toWorld = o.toWorld := by
  show ({ o.toWorld with c3 := (Vec3.ofVec4 o.toWorld.c3).toVec4 (.fin 1) } : Mat4) = o.toWorld
  rw [Vec4.toVec4_ofVec4 _ h]

/-- Claim C1: for every object state, boundary pair and `delta`, when the candidate position
`p` (the translation plus, for `W_movement`, or minus, for `S_movement`, the direction times
`500 * delta`) has `p.x > W`, `p.z > H`, `p.x < 0` or `p.z < 0`, the translation
`glm::vec3(toWorld[3])` after the call is the one before the call: the move is rejected, not
clamped to the edge. The fourth component of the column is set to 1, so the whole matrix is
unchanged when that component was 1 (as it is from the constructor on). -/
theorem movement_rejected_outside_bounds (o : OBJObject) (boundaries : Vec2) (delta : Flt) :
    (∀ p : Vec3, p = o.translation + o.currentDirection.scale (Flt.fin 500 * delta) →
      (Flt.gt p.x boundaries.x = true ∨ Flt.gt p.z boundaries.y = true ∨
        Flt.lt p.x (.fin 0) = true ∨ Flt.lt p.z (.fin 0) = true) →
      (o.W_movement boundaries delta).translation = o.translation ∧
      (o.toWorld.c3.w = .fin 1 → (o.W_movement boundaries delta).toWorld = o.toWorld)) ∧
    (∀ p : Vec3, p = o.translation - o.currentDirection.scale (Flt.fin 500 * delta) →
      (Flt.gt p.x boundaries.x = true ∨ Flt.gt p.z boundaries.y = true ∨
        Flt.lt p.x (.fin 0) = true ∨ Flt.lt p.z (.fin 0) = true) →
      (o.S_movement boundaries delta).translation = o.translation ∧
      (o.toWorld.c3.w = .fin 1 → (o.S_movement boundaries delta).toWorld = o.toWorld)) := by
  constructor
  · intro p hp hout
    subst hp
    rw [W_movement_of_out o boundaries delta ((outOfBounds_true_iff _ _).2 hout)]
    exact ⟨rfl, keep_toWorld o⟩
  · intro p hp hout
    subst hp
    rw [S_movement_of_out o boundaries delta ((outOfBounds_true_iff _ _).2 hout)]
    exact ⟨rfl, keep_toWorld o⟩

/-- Witness of C1: the object built from `centredFile` stands at (0, 1, 0) facing +z; with
boundaries (10, 10) and `delta = 1` the forward candidate has z = 500 > 10 and the backward
candidate has z = -500 < 0, and both moves leave the translation and the matrix unchanged. -/
theorem movement_rejected_outside_bounds_witness :
    ((built centredFile).W_movement ⟨.fin 10, .fin 10⟩ (.fin 1)).translation =
        ⟨.fin 0, .fin 1, .fin 0⟩ ∧
      ((built centredFile).W_movement ⟨.fin 10, .fin 10⟩ (.fin 1)).toWorld =
        (built centredFile).toWorld ∧
      ((built centredFile).S_movement ⟨.fin 10, .fin 10⟩ (.fin 1)).translation =
        ⟨.fin 0, .fin 1, .fin 0⟩ ∧
      ((built centredFile).S_movement ⟨.fin 10, .fin 10⟩ (.fin 1)).toWorld =
        (built centredFile).toWorld :=
  ⟨((movement_rejected_outside_bounds (built centredFile) ⟨.fin 10, .fin 10⟩ (.fin 1)).1
      _ rfl (by decide!)).1.trans (by decide!),
   ((movement_rejected_outside_bounds (built centredFile) ⟨.fin 10, .fin 10⟩ (.fin 1)).1
      _ rfl (by decide!)).2 (by decide!),
   ((movement_rejected_outside_bounds (built centredFile) ⟨.fin 10, .fin 10⟩ (.fin 1)).2
      _ rfl (by decide!)).1.trans (by decide!),
   ((movement_rejected_outside_bounds (built centredFile) ⟨.fin 10, .fin 10⟩ (.fin 1)).2
      _ rfl (by decide!)).2 (by decide!)⟩

/-- Claim C2: for every object state, boundary pair and `delta`, when the candidate position
`p` has `0 <= p.x <= W` and `0 <= p.z <= H`, `W_movement` sets the translation to exactly the
old translation plus the direction times `500 * delta`, `S_movement` to exactly the old
translation minus it, and neither changes `currentDirection` or the first three columns (the
rotation part) of `toWorld`. -/
theorem movement_applied_inside_bounds (o : OBJObject) (boundaries : Vec2) (delta : Flt) :
    (∀ p : Vec3, p = o.translation + o.currentDirection.scale (Flt.fin 500 * delta) →
      Flt.le (.fin 0) p.x = true → Flt.le p.x boundaries.x = true →
      Flt.le (.fin 0) p.z = true → Flt.le p.z boundaries.y = true →
      (o.W_movement boundaries delta).translation = p ∧
      (o.W_movement boundaries delta).currentDirection = o.currentDirection ∧
      (o.W_movement boundaries delta).toWorld.c0 = o.toWorld.c0 ∧
      (o.W_movement boundaries delta).toWorld.c1 = o.toWorld.c1 ∧
      (o.W_movement boundaries delta).toWorld.c2 = o.toWorld.c2) ∧
    (∀ p : Vec3, p = o.translation - o.currentDirection.scale (Flt.fin 500 * delta) →
      Flt.le (.fin 0) p.x = true → Flt.le p.x boundaries.x = true →
      Flt.le (.fin 0) p.z = true → Flt.le p.z boundaries.y = true →
      (o.S_movement boundaries delta).translation = p ∧
      (o.S_movement boundaries delta).currentDirection = o.currentDirection ∧
      (o.S_movement boundaries delta).toWorld.c0 = o.toWorld.c0 ∧
      (o.S_movement boundaries delta).toWorld.c1 = o.toWorld.c1 ∧
      (o.S_movement boundaries delta).toWorld.c2 = o.toWorld.c2) := by
  constructor
  · intro p hp h1 h2 h3 h4
    subst hp
    rw [W_movement_of_in o boundaries delta (outOfBounds_false_of_inside h1 h2 h3 h4)]
    exact ⟨rfl, rfl, rfl, rfl, rfl⟩
  · intro p hp h1 h2 h3 h4
    subst hp
    rw [S_movement_of_in o boundaries delta (outOfBounds_false_of_inside h1 h2 h3 h4)]
    exact ⟨rfl, rfl, rfl, rfl, rfl⟩

/-- Witness of C2: with boundaries (100, 100) and `delta = 1/64` the object built from
`centredFile` moves forward from (0, 1, 0) to (0, 1, 7.8125); from there (`movedCentred`) it
moves backward to (0, 1, 0). -/
theorem movement_applied_inside_bounds_witness :
    ((built centredFile).W_movement ⟨.fin 100, .fin 100⟩ (.fin (1 / 64))).translation =
        ⟨.fin 0, .fin 1, .fin (125 / 16)⟩ ∧
      (movedCentred.S_movement ⟨.fin 100, .fin 100⟩ (.fin (1 / 64))).translation =
        ⟨.fin 0, .fin 1, .fin 0⟩ :=
  ⟨((movement_applied_inside_bounds (built centredFile) ⟨.fin 100, .fin 100⟩ (.fin (1 / 64))).1
      _ rfl (by decide!) (by decide!) (by decide!) (by decide!)).1.trans (by decide!),
   ((movement_applied_inside_bounds movedCentred ⟨.fin 100, .fin 100⟩ (.fin (1 / 64))).2
      _ rfl (by decide!) (by decide!) (by decide!) (by decide!)).1.trans (by decide!)⟩
/-! ## Collision -/

/-- Claim C3: for every two objects `a` and `b`, `a.collision(b)` returns the same boolean as
`b.collision(a)`, and each object is left in the same state (in particular with the same
collision flag) by the two calls. -/
theorem collision_symmetric (a b : OBJObject) :
    (a.collision b).1 = (b.collision a).1 ∧
    (a.collision b).2.1 = (b.collision a).2.2 ∧
    (a.collision b).2.2 = (b.collision a).2.1 := by
  have hx : collisionX a b = collisionX b a := by simp [collisionX, Bool.and_comm]
  have hy : collisionY a b = collisionY b a := by simp [collisionY, Bool.and_comm]
  have hz : collisionZ a b = collisionZ b a := by simp [collisionZ, Bool.and_comm]
  refine ⟨?_, ?_, ?_⟩
  · simp only [OBJObject.collision, hx, hy, hz]
  · simp only [OBJObject.collision, hx, hy, hz]
    split <;> rfl
  · simp only [OBJObject.collision, hx, hy, hz]
    split <;> rfl

/-- Claim C6: for every two objects, whatever their flags were, after `a.collision(b)` the
returned boolean is the conjunction of the three per-axis tests, and `a` and `b` are their old
states with `collisionFlag` replaced by the returned boolean. -/
theorem collision_sets_both_flags (a b : OBJObject) :
    (a.collision b).1 = (collisionX a b && collisionY a b && collisionZ a b) ∧
    (a.collision b).2.1 = { a with collisionFlag := (a.collision b).1 } ∧
    (a.collision b).2.2 = { b with collisionFlag := (a.collision b).1 } := by
  refine ⟨rfl, ?_, ?_⟩
  · simp only [OBJObject.collision]
    split <;> simp_all
  · simp only [OBJObject.collision]
    split <;> simp_all

theorem collision_result (a b : OBJObject) :
    (a.collision b).1 = (collisionOn .X a b && collisionOn .Y a b && collisionOn .Z a b) := rfl

/-- The per-axis test of `collision` in terms of the positions and the extents. -/
theorem collisionOn_extent (ax : Axis) (a b : OBJObject) :
    collisionOn ax a b =
      (Flt.ge (a.translation.on ax + a.extent ax) (b.translation.on ax - .fin (1 / 2)) &&
        Flt.ge (b.translation.on ax + b.extent ax) (a.translation.on ax - .fin (1 / 2))) := by
  cases ax <;> rfl

/-- When one axis test fails, `collision` returns false. -/
theorem collision_false_of_axis (ax : Axis) (a b : OBJObject) (h : collisionOn ax a b = false) :
    (a.collision b).1 = false := by
  rw [collision_result]
  cases ax <;> simp [h]

/-- A rounded sum stays below a rounded difference that exceeds it by more than the rounding
errors. -/
theorem round32_lt_of_gap {x y : ℚ} (hx : |x| ≤ pow2 127) (hy : |y| ≤ pow2 127)
    (hgap : (|x| + |y|) * halfUlp + pow2 (-149) < y - x) :
    Flt.ge (round32 x) (round32 y) = false := by
  rw [round32_of_abs_le hx, round32_of_abs_le hy, Flt.ge_fin]
  have ex := rnd_error_abs x
  have ey := rnd_error_abs y
  rw [abs_le] at ex ey
  have e : pow2 (-149) = 2 * pow2 (-150) := by
    have : (-149 : ℤ) = -150 + 1 := by norm_num
    rw [this, pow2_succ]
  unfold halfUlp at hgap
  rw [e] at hgap
  have : ¬ (rnd y ≤ rnd x) := by
    intro h
    linarith [ex.1, ex.2, ey.1, ey.2]
  exact decide_eq_false this

theorem beyondReach_axis {a b : OBJObject} {ax : Axis} (h : beyondReach a b ax) :
    Flt.ge (a.translation.on ax + a.extent ax) (b.translation.on ax - .fin (1 / 2)) = false := by
  obtain ⟨h1, h2, h3, hx, hy, hgap⟩ := h
  unfold OBJObject.pos at hx hy hgap
  obtain ⟨ta, hta⟩ := Flt.exists_of_isFinite h1
  obtain ⟨ea, hea⟩ := Flt.exists_of_isFinite h2
  obtain ⟨tb, htb⟩ := Flt.exists_of_isFinite h3
  simp only [hta, hea, htb, Flt.toRat] at hx hy hgap ⊢
  rw [Flt.add_fin, Flt.sub_fin]
  exact round32_lt_of_gap hx hy hgap

/-- Counterexample to C4: `movedCentred` (built from `centredFile`, 2 vertices, longestDim 1,
at (0, 1, 7.8125)) and the object built from `shiftedFile` (2 vertices, longestDim 1, at
(0, 1, 0)) have half-extent 1 each on z; their distance on z is 7.8125 > 1 + 1 + 0.5; yet
`collision` returns true. -/
theorem collision_far_apart_counterexample :
    OBJObject.new zeroMemory zeroUninit (some centredFile.toList) 1 = some (built centredFile) ∧
    OBJObject.new zeroMemory zeroUninit (some shiftedFile.toList) 1 = some (built shiftedFile) ∧
    movedCentred.vertices.length = 2 ∧ (built shiftedFile).vertices.length = 2 ∧
    movedCentred.longestDim = .fin 1 ∧ (built shiftedFile).longestDim = .fin 1 ∧
    movedCentred.translation = ⟨.fin 0, .fin 1, .fin (125 / 16)⟩ ∧
    (built shiftedFile).translation = ⟨.fin 0, .fin 1, .fin 0⟩ ∧
    movedCentred.halfExtent .Z = 1 ∧ (built shiftedFile).halfExtent .Z = 1 ∧
    movedCentred.pos .Z - (built shiftedFile).pos .Z >
      movedCentred.halfExtent .Z + (built shiftedFile).halfExtent .Z + 1 / 2 ∧
    (movedCentred.collision (built shiftedFile)).1 = true := by
  decide!

/-- Claim C4, amended: for every two objects, if on some single axis one of them stands beyond
the reach of the other, that is, if its position minus the 0.5 margin exceeds the position of
the other plus the extent `((max - min) / 2 - average) / longestDim` that `collision` computes
for the other, by more than the rounding error `2 ^ -24` of each of the two sums plus
`2 ^ -149`, all these values being numbers of magnitude at most `2 ^ 127`, then `collision`
returns false, whichever of the two objects it is called on. -/
theorem collision_false_beyond_reach (ax : Axis) (a b : OBJObject)
    (h : beyondReach a b ax ∨ beyondReach b a ax) :
    (a.collision b).1 = false ∧ (b.collision a).1 = false := by
  have key : collisionOn ax a b = false ∧ collisionOn ax b a = false := by
    rw [collisionOn_extent, collisionOn_extent]
    rcases h with h | h
    · rw [beyondReach_axis h]; simp
    · rw [beyondReach_axis h]; simp
  exact ⟨collision_false_of_axis ax a b key.1, collision_false_of_axis ax b a key.2⟩

/-- Witness of the amended C4: the object built from `centredFile` at z = 0, whose extent on z
is 1, and `movedCentred` at z = 7.8125: 7.3125 exceeds 1 by more than the rounding errors and
`collision` returns false. -/
theorem collision_false_beyond_reach_witness :
    (built centredFile).extent .Z = .fin 1 ∧ (built centredFile).pos .Z = 0 ∧
      movedCentred.pos .Z = 125 / 16 ∧
      ((built centredFile).collision movedCentred).1 = false ∧
      (movedCentred.collision (built centredFile)).1 = false :=
  ⟨by decide!, by decide!, by decide!,
   collision_false_beyond_reach .Z (built centredFile) movedCentred
     (Or.inl ⟨by decide!, by decide!, by decide!, by decide!, by decide!, by decide!⟩)⟩

/-- Counterexample to C5: the objects built from `offsetFile` and `centredFile` (2 vertices and
longestDim 1 each) stand both at (0, 1, 0), yet `collision` returns false and clears both
flags: on x the first has average 11 and half width 1, so that its extent is -10. -/
theorem collision_coincident_counterexample :
    OBJObject.new zeroMemory zeroUninit (some offsetFile.toList) 1 = some (built offsetFile) ∧
    OBJObject.new zeroMemory zeroUninit (some centredFile.toList) 1 = some (built centredFile) ∧
    (built offsetFile).vertices.length = 2 ∧ (built centredFile).vertices.length = 2 ∧
    (built offsetFile).longestDim = .fin 1 ∧ (built centredFile).longestDim = .fin 1 ∧
    (built offsetFile).translation = ⟨.fin 0, .fin 1, .fin 0⟩ ∧
    (built centredFile).translation = ⟨.fin 0, .fin 1, .fin 0⟩ ∧
    (built offsetFile).average = ⟨.fin 11, .fin 0, .fin 11⟩ ∧
    (built offsetFile).extent .X = .fin (-10) ∧
    ((built offsetFile).collision (built centredFile)).1 = false ∧
    ((built offsetFile).collision (built centredFile)).2.1.collisionFlag = false ∧
    ((built offsetFile).collision (built centredFile)).2.2.collisionFlag = false := by
  decide!

theorem coincident_axis {t : ℚ} {e : Flt} (he : Flt.le (.fin (-(1 / 2))) e = true) :
    Flt.ge (Flt.fin t + e) (Flt.fin t - .fin (1 / 2)) = true := by
  rw [Flt.sub_fin]
  cases e with
  | fin q =>
    rw [Flt.add_fin]
    rw [Flt.le_fin, decide_eq_true_eq] at he
    exact round32_mono (by linarith)
  | pinf => exact Flt.le_pinf_round32 _
  | ninf => simp [Flt.le] at he
  | nan => simp [Flt.le] at he

/-- Claim C5, amended: for every two objects whose translations are equal numbers, if on each
of the three axes the extent `((max - min) / 2 - average) / longestDim` that `collision`
computes is at least -0.5 for both objects, then `collision` returns true and afterwards
`collisionFlag` is set on both objects. -/
theorem collision_coincident (a b : OBJObject)
    (heq : a.translation = b.translation)
    (hfin : ∀ ax, (a.translation.on ax).isFinite = true)
    (ha : ∀ ax, Flt.le (.fin (-(1 / 2))) (a.extent ax) = true)
    (hb : ∀ ax, Flt.le (.fin (-(1 / 2))) (b.extent ax) = true) :
    (a.collision b).1 = true ∧
    (a.collision b).2.1.collisionFlag = true ∧
    (a.collision b).2.2.collisionFlag = true := by
  have key : ∀ ax, collisionOn ax a b = true := by
    intro ax
    obtain ⟨t, ht⟩ := Flt.exists_of_isFinite (hfin ax)
    rw [collisionOn_extent, ← heq, ht, coincident_axis (ha ax), coincident_axis (hb ax)]
    rfl
  have h1 : (a.collision b).1 = true := by
    rw [collision_result, key, key, key]; rfl
  have h2 : (collisionX a b && collisionY a b && collisionZ a b) = true := h1
  refine ⟨h1, ?_, ?_⟩
  · simp only [OBJObject.collision, h2]; rfl
  · simp only [OBJObject.collision, h2]; rfl

/-- Witness of the amended C5: two objects built from `centredFile`, both at (0, 1, 0), with
extent 1 on every axis: `collision` returns true and sets both flags. -/
theorem collision_coincident_witness :
    (built centredFile).translation = ⟨.fin 0, .fin 1, .fin 0⟩ ∧
      (built centredFile).extent .X = .fin 1 ∧ (built centredFile).extent .Y = .fin 1 ∧
      (built centredFile).extent .Z = .fin 1 ∧
      ((built centredFile).collision (built centredFile)).1 = true ∧
      ((built centredFile).collision (built centredFile)).2.1.collisionFlag = true ∧
      ((built centredFile).collision (built centredFile)).2.2.collisionFlag = true :=
  ⟨by decide!, by decide!, by decide!, by decide!,
   collision_coincident (built centredFile) (built centredFile) rfl
    (fun ax => by cases ax <;> decide!) (fun ax => by cases ax <;> decide!)
    (fun ax => by cases ax <;> decide!)⟩

/-! ## The scanner consumes its input -/

theorem skipSpace_length_le (s : List Char) : (skipSpace s).length ≤ s.length := by
  induction s with
  | nil => simp [skipSpace]
  | cons c r ih =>
    simp only [skipSpace]
    split
    · exact Nat.le_succ_of_le ih
    · exact Nat.le_refl _

theorem takeToken_length_le (s : List Char) : (takeToken s).2.length ≤ s.length := by
  induction s with
  | nil => simp [takeToken]
  | cons c r ih =>
    simp only [takeToken]
    split
    · exact Nat.le_refl _
    · exact Nat.le_succ_of_le ih

theorem skipSpace_head (s : List Char) (c : Char) (r : List Char) (h : skipSpace s = c :: r) :
    isSpace c = false := by
  induction s with
  | nil => simp [skipSpace] at h
  | cons d t ih =>
    simp only [skipSpace] at h
    split at h
    · exact ih h
    · rename_i hd
      injection h with h1 h2
      subst h1
      simpa using hd

theorem scanString_length_lt (s buf r : List Char) (h : scanString s = some (buf, r)) :
    r.length < s.length := by
  unfold scanString at h
  split at h
  · simp at h
  · rename_i c t hs
    have hc := skipSpace_head s c t hs
    have hlen := skipSpace_length_le s
    rw [hs] at hlen
    simp only [takeToken, hc] at h
    injection h with h
    have h2 : r = (takeToken t).2 := by
      have := congrArg Prod.snd h
      simpa using this.symm
    rw [h2]
    have := takeToken_length_le t
    simp only [List.length_cons] at hlen
    omega

theorem scanSign_length_le (s : List Char) : (scanSign s).2.length ≤ s.length := by
  cases s with
  | nil => simp [scanSign]
  | cons c r =>
    simp only [scanSign]
    split
    · simp
    · split <;> simp

theorem scanDigits_length_le (s : List Char) (acc : Nat) :
    (scanDigits s acc).2.2.length ≤ s.length := by
  induction s generalizing acc with
  | nil => simp [scanDigits]
  | cons c r ih =>
    simp only [scanDigits]
    split
    · exact Nat.le_succ_of_le (ih _)
    · exact Nat.le_refl _

theorem scanExponent_length_le (s : List Char) : (scanExponent s).2.length ≤ s.length := by
  cases s with
  | nil => simp [scanExponent]
  | cons c r =>
    simp only [scanExponent]
    have h1 := scanSign_length_le r
    have h2 := scanDigits_length_le (scanSign r).2 0
    split
    · split <;> simp only [List.length_cons] <;> omega
    · exact Nat.le_refl _

theorem scanFraction_length_le (s : List Char) (acc : Nat) :
    (scanFraction s acc).2.2.length ≤ s.length := by
  cases s with
  | nil => simp [scanFraction]
  | cons c r =>
    simp only [scanFraction]
    split
    · exact Nat.le_succ_of_le (scanDigits_length_le r acc)
    · exact Nat.le_refl _

theorem scanDecimal_length_le (isNeg : Bool) (s : List Char) :
    (scanDecimal isNeg s).2.length ≤ s.length := by
  have h3 := scanDigits_length_le s 0
  have h4 := scanFraction_length_le (scanDigits s 0).2.2 (scanDigits s 0).1
  have h5 := scanExponent_length_le (scanFraction (scanDigits s 0).2.2 (scanDigits s 0).1).2.2
  unfold scanDecimal
  simp only
  split
  · show (scanFraction _ _).2.2.length ≤ _
    omega
  · split
    · show (scanExponent _).2.length ≤ _
      omega
    · show (scanExponent _).2.length ≤ _
      omega

theorem scanHexDigits_length_le (s : List Char) (acc : Nat) :
    (scanHexDigits s acc).2.2.length ≤ s.length := by
  induction s generalizing acc with
  | nil => simp [scanHexDigits]
  | cons c r ih =>
    simp only [scanHexDigits]
    split
    · exact Nat.le_succ_of_le (ih _)
    · exact Nat.le_refl _

theorem scanHexFraction_length_le (s : List Char) (acc : Nat) :
    (scanHexFraction s acc).2.2.length ≤ s.length := by
  cases s with
  | nil => simp [scanHexFraction]
  | cons c r =>
    simp only [scanHexFraction]
    split
    · exact Nat.le_succ_of_le (scanHexDigits_length_le r acc)
    · exact Nat.le_refl _

theorem scanBinaryExponent_length_le (s : List Char) :
    (scanBinaryExponent s).2.length ≤ s.length := by
  cases s with
  | nil => simp [scanBinaryExponent]
  | cons c r =>
    simp only [scanBinaryExponent]
    have h1 := scanSign_length_le r
    have h2 := scanDigits_length_le (scanSign r).2 0
    split
    · split <;> simp only [List.length_cons] <;> omega
    · exact Nat.le_refl _

theorem scanHex_length_le (isNeg : Bool) (s : List Char) :
    (scanHex isNeg s).2.length ≤ s.length := by
  have h3 := scanHexDigits_length_le s 0
  have h4 := scanHexFraction_length_le (scanHexDigits s 0).2.2 (scanHexDigits s 0).1
  have h5 := scanBinaryExponent_length_le
    (scanHexFraction (scanHexDigits s 0).2.2 (scanHexDigits s 0).1).2.2
  unfold scanHex
  simp only
  split
  · show (scanHexFraction _ _).2.2.length ≤ _
    omega
  · split
    · show (scanBinaryExponent _).2.length ≤ _
      omega
    · show (scanBinaryExponent _).2.length ≤ _
      omega

theorem scanWord_length_le (word s : List Char) : (scanWord word s).2.length ≤ s.length := by
  induction word generalizing s with
  | nil => simp [scanWord]
  | cons l ls ih =>
    cases s with
    | nil => simp [scanWord]
    | cons c r =>
      simp only [scanWord]
      split
      · exact Nat.le_succ_of_le (ih r)
      · exact Nat.le_refl _

theorem scanInfinity_length_le (isNeg : Bool) (s : List Char) :
    (scanInfinity isNeg s).2.length ≤ s.length := by
  have h1 := scanWord_length_le ['i', 'n', 'f'] s
  have h2 := scanWord_length_le ['i', 'n', 'i', 't', 'y'] (scanWord ['i', 'n', 'f'] s).2
  unfold scanInfinity
  simp only
  split
  · exact h1
  · split <;> exact Nat.le_trans h2 h1

theorem skipNChars_length_le (s : List Char) : (skipNChars s).length ≤ s.length := by
  induction s with
  | nil => simp [skipNChars]
  | cons c r ih =>
    simp only [skipNChars]
    split
    · exact Nat.le_succ_of_le ih
    · exact Nat.le_refl _

theorem scanNanTail_length_le (s : List Char) : (scanNanTail s).2.length ≤ s.length := by
  cases s with
  | nil => simp [scanNanTail]
  | cons c r =>
    simp only [scanNanTail]
    have h := skipNChars_length_le r
    split
    · split
      · simp
      · rename_i d r2 hs
        rw [hs] at h
        simp only [List.length_cons] at h ⊢
        split <;> simp only [List.length_cons] <;> omega
    · exact Nat.le_refl _

theorem scanNan_length_le (s : List Char) : (scanNan s).2.length ≤ s.length := by
  have h1 := scanWord_length_le ['n', 'a', 'n'] s
  have h2 := scanNanTail_length_le (scanWord ['n', 'a', 'n'] s).2
  unfold scanNan
  simp only
  split
  · exact h1
  · split <;> exact Nat.le_trans h2 h1

theorem scanNumber_length_le (isNeg : Bool) (s : List Char) :
    (scanNumber isNeg s).2.length ≤ s.length := by
  cases s with
  | nil => simp [scanNumber]
  | cons c r =>
    simp only [scanNumber]
    split
    · exact scanInfinity_length_le _ _
    · split
      · exact scanNan_length_le _
      · split
        · cases r with
          | nil => exact scanDecimal_length_le _ _
          | cons x r2 =>
            simp only
            split
            · have := scanHex_length_le isNeg r2
              simp only [List.length_cons]
              omega
            · exact scanDecimal_length_le _ _
        · exact scanDecimal_length_le _ _

theorem scanFloat_length_le (s : List Char) : (scanFloat s).2.length ≤ s.length := by
  have h1 := skipSpace_length_le s
  have h2 := scanSign_length_le (skipSpace s)
  have h3 := scanNumber_length_le (scanSign (skipSpace s)).1 (scanSign (skipSpace s)).2
  unfold scanFloat
  omega

theorem scanInt_length_le (s : List Char) : (scanInt s).2.length ≤ s.length := by
  have h1 := skipSpace_length_le s
  have h2 := scanSign_length_le (skipSpace s)
  have h3 := scanDigits_length_le (scanSign (skipSpace s)).2 0
  unfold scanInt
  simp only
  split <;> simp only <;> omega

theorem fscanf_length_le (ds : List Directive) (s : List Char) (fs : List Flt) (ns : List Int) :
    (fscanf ds s fs ns).2.2.length ≤ s.length := by
  induction ds generalizing s fs ns with
  | nil => simp [fscanf]
  | cons dir ds ih =>
    cases dir with
    | ws =>
      simp only [fscanf]
      exact Nat.le_trans (ih _ _ _) (skipSpace_length_le s)
    | lit c =>
      cases s with
      | nil => simp [fscanf]
      | cons c1 r =>
        simp only [fscanf]
        split
        · exact Nat.le_succ_of_le (ih _ _ _)
        · exact Nat.le_refl _
    | f =>
      simp only [fscanf]
      have h := scanFloat_length_le s
      split
      · exact Nat.le_trans (ih _ _ _) h
      · exact h
    | d =>
      simp only [fscanf]
      have h := scanInt_length_le s
      split
      · exact Nat.le_trans (ih _ _ _) h
      · exact h

/-- The reading loop never runs out of fuel: any two amounts above the length of the stream
give the same records. -/
theorem scanRecords_fuel (fuel1 fuel2 : Nat) (s : List Char)
    (h1 : s.length < fuel1) (h2 : s.length < fuel2) :
    scanRecords fuel1 s = scanRecords fuel2 s := by
  induction fuel1 generalizing fuel2 s with
  | zero => omega
  | succ n ih =>
    cases fuel2 with
    | zero => omega
    | succ m =>
      simp only [scanRecords]
      cases hs : scanString s with
      | none => rfl
      | some p =>
        obtain ⟨buf, r⟩ := p
        have hr := scanString_length_lt s buf r hs
        simp only
        have hv := fscanf_length_le vertexFormat r [] []
        have hf := fscanf_length_le faceFormat r [] []
        split
        · rw [ih m _ (by omega) (by omega)]
        · split
          · rw [ih m _ (by omega) (by omega)]
          · split
            · rw [ih m _ (by omega) (by omega)]
            · exact ih m _ (by omega) (by omega)

/-! ## The reading loop -/

/-! ### The reading loop: vertices and indices -/

theorem updateBounds_vertices (o : OBJObject) (v : Vec3) :
    (o.updateBounds v).vertices = o.vertices := by
  rfl

theorem updateBounds_indices (o : OBJObject) (v : Vec3) :
    (o.updateBounds v).indices = o.indices := by
  rfl

theorem updateBounds_normals (o : OBJObject) (v : Vec3) :
    (o.updateBounds v).normals = o.normals := by
  rfl

theorem updateBounds_containers (o : OBJObject) (v : Vec3) :
    (o.updateBounds v).containers = o.containers := by
  rfl

theorem addRecords_vertices_length (u : Uninit) (n : Nat) (o : OBJObject) (rs : List Record) :
    (OBJObject.addRecords u n o rs).vertices.length = o.vertices.length + vertexCount rs := by
  induction rs generalizing n o with
  | nil => simp [OBJObject.addRecords, vertexCount]
  | cons r rs ih =>
    simp only [OBJObject.addRecords]
    rw [ih]
    cases r <;>
      simp [OBJObject.addRecord, updateBounds_vertices, vertexCount, Record.isVertex,
        List.countP_cons]
    omega

theorem addRecords_normals_length (u : Uninit) (n : Nat) (o : OBJObject) (rs : List Record) :
    (OBJObject.addRecords u n o rs).normals.length = o.normals.length + normalCount rs := by
  induction rs generalizing n o with
  | nil => simp [OBJObject.addRecords, normalCount]
  | cons r rs ih =>
    simp only [OBJObject.addRecords]
    rw [ih]
    cases r <;>
      simp [OBJObject.addRecord, updateBounds_normals, normalCount, Record.isNormal,
        List.countP_cons]
    omega

theorem addRecords_indices (u : Uninit) (n : Nat) (o : OBJObject) (rs : List Record) :
    ∃ app, (OBJObject.addRecords u n o rs).indices = o.indices ++ app ∧
      ∀ i ∈ app, ∃ fields k j, Record.f fields ∈ rs ∧ j < 3 ∧
        i = faceIndex (u.faces_v k) fields j := by
  induction rs generalizing n o with
  | nil => exact ⟨[], by simp [OBJObject.addRecords], by simp⟩
  | cons r rs ih =>
    simp only [OBJObject.addRecords]
    obtain ⟨app, happ, hall⟩ := ih (n + 1) (OBJObject.addRecord u n o r)
    have hlift : ∀ i ∈ app, ∃ fields k j, Record.f fields ∈ r :: rs ∧ j < 3 ∧
        i = faceIndex (u.faces_v k) fields j := by
      intro i hi
      obtain ⟨fields, k, j, hm, hj, he⟩ := hall i hi
      exact ⟨fields, k, j, List.mem_cons_of_mem _ hm, hj, he⟩
    cases r with
    | v fields =>
      refine ⟨app, ?_, hlift⟩
      rw [happ]; simp [OBJObject.addRecord, updateBounds_indices]
    | vn fields =>
      refine ⟨app, ?_, hlift⟩
      rw [happ]; simp [OBJObject.addRecord]
    | f fields =>
      refine ⟨[faceIndex (u.faces_v n) fields 0, faceIndex (u.faces_v n) fields 1,
        faceIndex (u.faces_v n) fields 2] ++ app, ?_, ?_⟩
      · rw [happ]; simp [OBJObject.addRecord]
      · intro i hi
        simp only [List.mem_append, List.mem_cons, List.mem_singleton, List.not_mem_nil,
          or_false] at hi
        rcases hi with (h | h | h) | h
        · exact ⟨fields, n, 0, List.mem_cons_self _ _, by omega, h⟩
        · exact ⟨fields, n, 1, List.mem_cons_self _ _, by omega, h⟩
        · exact ⟨fields, n, 2, List.mem_cons_self _ _, by omega, h⟩
        · exact hlift i h

theorem faceIndex_lt (count : Nat) (init : Nat → Nat) (fields : List Int) (j : Nat)
    (hj : j < 3) (h : (Record.f fields).facesWithin count = true) :
    faceIndex init fields j < count := by
  simp only [Record.facesWithin, List.all_eq_true, List.mem_range] at h
  have hj2 := h j hj
  unfold faceIndex faceVertex
  cases hget : fields.get? (2 * j) with
  | none => rw [hget] at hj2; simp at hj2
  | some m =>
    rw [hget] at hj2
    simp only [Bool.and_eq_true, decide_eq_true_eq] at hj2
    simp only [toUnsigned]
    omega

/-! ### The normalising loop -/

theorem normalizeLoop_some (o : OBJObject) (vs ns : List Vec3) (h : vs.length ≤ ns.length) :
    OBJObject.normalizeLoop o vs ns =
      some (vs.map o.normalizeVertex,
        (vs.zip ns).map fun p => ⟨o.normalizeVertex p.1, p.2, ⟨.fin 0, .fin 0⟩⟩) := by
  induction vs generalizing ns with
  | nil => cases ns <;> simp [OBJObject.normalizeLoop]
  | cons v vs ih =>
    cases ns with
    | nil => simp at h
    | cons n ns =>
      simp only [List.length_cons, Nat.add_le_add_iff_right] at h
      simp [OBJObject.normalizeLoop, ih ns h]

theorem normalizeLoop_none (o : OBJObject) (vs ns : List Vec3) (h : ns.length < vs.length) :
    OBJObject.normalizeLoop o vs ns = none := by
  induction vs generalizing ns with
  | nil => simp at h
  | cons v vs ih =>
    cases ns with
    | nil => simp [OBJObject.normalizeLoop]
    | cons n ns =>
      simp only [List.length_cons, Nat.add_lt_add_iff_right] at h
      simp [OBJObject.normalizeLoop, ih ns h]

theorem normalize_some (o : OBJObject) (h : o.vertices.length ≤ o.normals.length) :
    o.normalize = some { o.computeScale with
      vertices := o.vertices.map o.computeScale.normalizeVertex,
      containers := o.containers ++ (o.vertices.zip o.normals).map fun p =>
        ⟨o.computeScale.normalizeVertex p.1, p.2, ⟨.fin 0, .fin 0⟩⟩,
      average := ⟨o.computeScale.avgX, o.computeScale.avgY, o.computeScale.avgZ⟩,
      longestDim := o.computeScale.scale_v } := by
  have h1 : o.computeScale.vertices = o.vertices := rfl
  have h2 : o.computeScale.normals = o.normals := rfl
  have h3 : o.computeScale.containers = o.containers := rfl
  unfold OBJObject.normalize
  simp only [h1, h2, h3, normalizeLoop_some _ _ _ h]

theorem normalize_indices (o o1 : OBJObject) (h : o.normalize = some o1) :
    o1.indices = o.indices ∧ o1.vertices.length = o.vertices.length := by
  rcases Nat.lt_or_ge o.normals.length o.vertices.length with hlt | hge
  · have h1 : o.computeScale.vertices = o.vertices := rfl
    have h2 : o.computeScale.normals = o.normals := rfl
    unfold OBJObject.normalize at h
    simp only [h1, h2, normalizeLoop_none _ _ _ hlt] at h
    exact absurd h (by simp)
  · rw [normalize_some o hge] at h
    injection h with h
    subst h
    exact ⟨rfl, by simp⟩

/-! ### The bounds -/

theorem updateBounds_minOn (o : OBJObject) (v : Vec3) (ax : Axis) :
    (o.updateBounds v).minOn ax =
      if Flt.lt (v.on ax) (o.minOn ax) then v.on ax else o.minOn ax := by
  cases ax <;> rfl

theorem updateBounds_maxOn (o : OBJObject) (v : Vec3) (ax : Axis) :
    (o.updateBounds v).maxOn ax =
      if Flt.gt (v.on ax) (o.maxOn ax) then v.on ax else o.maxOn ax := by
  cases ax <;> rfl

theorem boundsOK_push (o : OBJObject) (ax : Axis) (v : Vec3) (q : ℚ) (hq : v.on ax = .fin q)
    (h : o.boundsOK ax) :
    (OBJObject.updateBounds { o with vertices := o.vertices ++ [v] } v).boundsOK ax := by
  right
  have hmin := updateBounds_minOn { o with vertices := o.vertices ++ [v] } v ax
  have hmax := updateBounds_maxOn { o with vertices := o.vertices ++ [v] } v ax
  have hvs : (OBJObject.updateBounds { o with vertices := o.vertices ++ [v] } v).vertices =
      o.vertices ++ [v] := rfl
  have hmin0 : ({ o with vertices := o.vertices ++ [v] } : OBJObject).minOn ax = o.minOn ax := by
    cases ax <;> rfl
  have hmax0 : ({ o with vertices := o.vertices ++ [v] } : OBJObject).maxOn ax = o.maxOn ax := by
    cases ax <;> rfl
  rw [hmin0] at hmin
  rw [hmax0] at hmax
  rw [hvs]
  rcases h with ⟨hnil, hlo, hhi⟩ | ⟨lo, hi, hlo, hhi, ⟨vl, hvl, evl⟩, ⟨vh, hvh, evh⟩, hall⟩
  · refine ⟨q, q, ?_, ?_, ⟨v, by simp, hq⟩, ⟨v, by simp, hq⟩, ?_⟩
    · rw [hmin, hlo, hq]; rfl
    · rw [hmax, hhi, hq]; rfl
    · intro w hw
      rw [hnil] at hw
      simp only [List.nil_append, List.mem_singleton] at hw
      subst hw
      exact ⟨q, hq, le_refl _, le_refl _⟩
  · refine ⟨min lo q, max hi q, ?_, ?_, ?_, ?_, ?_⟩
    · rw [hmin, hlo, hq]
      simp only [Flt.lt]
      by_cases hlt : q < lo
      · simp [hlt, min_eq_right (le_of_lt hlt)]
      · simp [hlt, min_eq_left (not_lt.1 hlt)]
    · rw [hmax, hhi, hq]
      simp only [Flt.gt, Flt.lt]
      by_cases hlt : hi < q
      · simp [hlt, max_eq_right (le_of_lt hlt)]
      · simp [hlt, max_eq_left (not_lt.1 hlt)]
    · by_cases hlt : q < lo
      · exact ⟨v, by simp, by rw [hq, min_eq_right (le_of_lt hlt)]⟩
      · exact ⟨vl, by simp [hvl], by rw [evl, min_eq_left (not_lt.1 hlt)]⟩
    · by_cases hlt : hi < q
      · exact ⟨v, by simp, by rw [hq, max_eq_right (le_of_lt hlt)]⟩
      · exact ⟨vh, by simp [hvh], by rw [evh, max_eq_left (not_lt.1 hlt)]⟩
    · intro w hw
      rcases List.mem_append.1 hw with hw | hw
      · obtain ⟨p, hp, h1, h2⟩ := hall w hw
        exact ⟨p, hp, le_trans (min_le_left _ _) h1, le_trans h2 (le_max_left _ _)⟩
      · rw [List.mem_singleton.1 hw]
        exact ⟨q, hq, min_le_right _ _, le_max_right _ _⟩

theorem vertexOf_fillVec (init : Vec3) (fields : List Flt) (v : Vec3)
    (h : (Record.v fields).vertexOf = some v) : fillVec init fields = v := by
  match fields, h with
  | [a, b, c], h =>
    simp only [Record.vertexOf, Option.some.injEq] at h
    rw [← h]
    rfl

theorem boundsOK_addRecord (u : Uninit) (n : Nat) (o : OBJObject) (r : Record) (ax : Axis)
    (hr : ∀ fields, r = .v fields →
      ∃ v, (Record.v fields).vertexOf = some v ∧ (v.on ax).isFinite = true)
    (h : o.boundsOK ax) : (OBJObject.addRecord u n o r).boundsOK ax := by
  cases r with
  | v fields =>
    obtain ⟨v, hv, hfin⟩ := hr fields rfl
    obtain ⟨q, hq⟩ := Flt.exists_of_isFinite hfin
    have e : fillVec (u.vec n) fields = v := vertexOf_fillVec _ _ _ hv
    show (OBJObject.updateBounds { o with vertices := o.vertices ++ [fillVec (u.vec n) fields] }
      (fillVec (u.vec n) fields)).boundsOK ax
    rw [e]
    exact boundsOK_push o ax _ q hq h
  | vn fields =>
    have e1 : (OBJObject.addRecord u n o (.vn fields)).vertices = o.vertices := rfl
    have e2 : (OBJObject.addRecord u n o (.vn fields)).minOn ax = o.minOn ax := by
      cases ax <;> rfl
    have e3 : (OBJObject.addRecord u n o (.vn fields)).maxOn ax = o.maxOn ax := by
      cases ax <;> rfl
    unfold OBJObject.boundsOK
    rw [e1, e2, e3]
    exact h
  | f fields =>
    have e1 : (OBJObject.addRecord u n o (.f fields)).vertices = o.vertices := rfl
    have e2 : (OBJObject.addRecord u n o (.f fields)).minOn ax = o.minOn ax := by
      cases ax <;> rfl
    have e3 : (OBJObject.addRecord u n o (.f fields)).maxOn ax = o.maxOn ax := by
      cases ax <;> rfl
    unfold OBJObject.boundsOK
    rw [e1, e2, e3]
    exact h

theorem boundsOK_addRecords (u : Uninit) (n : Nat) (o : OBJObject) (rs : List Record) (ax : Axis)
    (hr : ∀ fields, Record.v fields ∈ rs →
      ∃ v, (Record.v fields).vertexOf = some v ∧ (v.on ax).isFinite = true)
    (h : o.boundsOK ax) : (OBJObject.addRecords u n o rs).boundsOK ax := by
  induction rs generalizing n o with
  | nil => exact h
  | cons r rs ih =>
    simp only [OBJObject.addRecords]
    apply ih
    · intro fields hm
      exact hr fields (List.mem_cons_of_mem _ hm)
    · apply boundsOK_addRecord _ _ _ _ _ _ h
      intro fields hf
      exact hr fields (by rw [hf]; exact List.mem_cons_self _ _)

theorem fillVec_wellFormed (init : Vec3) (fields : List Flt)
    (h : (Record.v fields).wellFormedVertex = true) :
    (Record.v fields).vertexOf = some (fillVec init fields) := by
  simp only [Record.wellFormedVertex, beq_iff_eq] at h
  match fields, h with
  | [a, b, c], _ => rfl

/-- After the reading loop on a file whose vertex lines are well formed, with numbers on the
axis, the bounds of the axis are the least and the greatest coordinate read. -/
theorem boundsOK_readFile (u : Uninit) (o : OBJObject) (s : List Char) (ax : Axis)
    (hv : o.vertices = [])
    (hwf : ∀ r ∈ fileRecords s, r.wellFormedVertex = true)
    (hfin : ∀ v ∈ (fileRecords s).filterMap Record.vertexOf, (v.on ax).isFinite = true) :
    (OBJObject.readFile u o.resetBounds s).boundsOK ax := by
  unfold OBJObject.readFile
  apply boundsOK_addRecords
  · intro fields hm
    have h1 := fillVec_wellFormed ⟨.fin 0, .fin 0, .fin 0⟩ fields (hwf _ hm)
    exact ⟨_, h1, hfin _ (List.mem_filterMap.2 ⟨_, hm, h1⟩)⟩
  · left
    refine ⟨hv, ?_, ?_⟩ <;> cases ax <;> rfl

theorem addRecords_containers (u : Uninit) (n : Nat) (o : OBJObject) (rs : List Record) :
    (OBJObject.addRecords u n o rs).containers = o.containers := by
  induction rs generalizing n o with
  | nil => rfl
  | cons r rs ih =>
    simp only [OBJObject.addRecords]
    rw [ih]
    cases r <;> rfl

theorem round32_one_add : round32 (1 + 1 / 16777216) = .fin 1 := by decide!

theorem round32_neg_one_sub : round32 (-(1 + 1 / 16777216)) = .fin (-1) := by decide!

/-- The rounded reciprocal of a scale between `2 ^ -126` and `2 ^ 126`: a positive number whose
product with the scale exceeds 1 by at most `2 ^ -24`. -/
theorem recip_bound {L : ℚ} (h1 : pow2 (-126) ≤ L) (h2 : L ≤ pow2 126) :
    ∃ r, round32 (1 / L) = .fin r ∧ 0 < r ∧ L * r ≤ 1 + 1 / 16777216 := by
  have hL : 0 < L := lt_of_lt_of_le (pow2_pos _) h1
  have hone : pow2 (-126) * pow2 126 = 1 := by
    rw [← pow2_add]; exact pow2_zero
  have hx1 : pow2 (-126) ≤ 1 / L := by
    rw [le_div_iff₀ hL, ← hone]
    exact mul_le_mul_of_nonneg_left h2 (pow2_pos _).le
  have hx2 : 1 / L ≤ pow2 126 := by
    rw [div_le_iff₀ hL, ← hone, mul_comm]
    exact mul_le_mul_of_nonneg_left h1 (pow2_pos _).le
  have hpos : 0 < 1 / L := by positivity
  have habs : |1 / L| = 1 / L := abs_of_pos hpos
  have e := rnd_error_rel (q := 1 / L) (by rw [habs]; exact hx1)
  rw [habs, abs_le] at e
  refine ⟨rnd (1 / L), round32_of_abs_le (by rw [habs]; exact le_trans hx2 (pow2_le (by norm_num))),
    ?_, ?_⟩
  · have : 1 / L / 16777216 < 1 / L := by
      rw [div_lt_iff₀ (by norm_num)]; linarith
    linarith [e.1]
  · have h3 : rnd (1 / L) ≤ 1 / L + 1 / L / 16777216 := by linarith [e.2]
    calc L * rnd (1 / L) ≤ L * (1 / L + 1 / L / 16777216) :=
          mul_le_mul_of_nonneg_left h3 hL.le
      _ = 1 + 1 / 16777216 := by field_simp; ring

/-- A coordinate that is at most the upper bound is normalized to at most 1. -/
theorem normalized_le_one {q hi A L : ℚ} (hq : q ≤ hi) (hL : round32 (hi - A) = .fin L)
    (h1 : pow2 (-126) ≤ L) (h2 : L ≤ pow2 126) :
    Flt.le ((Flt.fin q - Flt.fin A) * (Flt.fin 1 / Flt.fin L)) (.fin 1) = true := by
  obtain ⟨r, hr, hr0, hr1⟩ := recip_bound h1 h2
  have hLpos : 0 < L := lt_of_lt_of_le (pow2_pos _) h1
  rw [Flt.sub_fin, Flt.div_fin _ _ hLpos.ne', hr]
  have hm := round32_mono (show q - A ≤ hi - A by linarith)
  rw [hL] at hm
  rcases round32_cases (q - A) with ⟨e, _⟩ | ⟨e, _⟩ | ⟨e, _⟩
  · rw [e] at hm; simp [Flt.le] at hm
  · rw [e]
    show Flt.le (Flt.mul .ninf (.fin r)) _ = true
    have : ¬ (0 < -r) := by linarith
    simp [Flt.mul, Flt.signedInf, hr0, this, Flt.le]
  · rw [e] at hm ⊢
    rw [Flt.le_fin, decide_eq_true_eq] at hm
    rw [Flt.mul_fin]
    have h3 : rnd (q - A) * r ≤ 1 + 1 / 16777216 :=
      le_trans (mul_le_mul_of_nonneg_right hm hr0.le) hr1
    have h4 := round32_mono h3
    rwa [round32_one_add] at h4

/-- When the average is the exact midpoint of the bounds, a coordinate that is at least the
lower bound is normalized to at least -1. -/
theorem neg_one_le_normalized {q lo hi A L : ℚ} (hq : lo ≤ q) (hmid : A * 2 = lo + hi)
    (hL : round32 (hi - A) = .fin L) (h1 : pow2 (-126) ≤ L) (h2 : L ≤ pow2 126) :
    Flt.le (.fin (-1)) ((Flt.fin q - Flt.fin A) * (Flt.fin 1 / Flt.fin L)) = true := by
  obtain ⟨r, hr, hr0, hr1⟩ := recip_bound h1 h2
  have hLpos : 0 < L := lt_of_lt_of_le (pow2_pos _) h1
  rw [Flt.sub_fin, Flt.div_fin _ _ hLpos.ne', hr]
  have hm := round32_mono (show -(hi - A) ≤ q - A by linarith)
  rw [round32_neg, hL] at hm
  rcases round32_cases (q - A) with ⟨e, _⟩ | ⟨e, _⟩ | ⟨e, _⟩
  · rw [e]
    show Flt.le _ (Flt.mul .pinf (.fin r)) = true
    simp [Flt.mul, Flt.signedInf, hr0, Flt.le]
  · rw [e] at hm; simp [Flt.le, Flt.neg] at hm
  · rw [e] at hm ⊢
    have hm' : -L ≤ rnd (q - A) := by
      simpa [Flt.neg, Flt.le] using hm
    rw [Flt.mul_fin]
    have h3 : -(1 + 1 / 16777216) ≤ rnd (q - A) * r := by
      have := mul_le_mul_of_nonneg_right hm' hr0.le
      linarith
    have h4 := round32_mono h3
    rwa [round32_neg_one_sub] at h4

theorem Flt.fin_of_sub_eq_fin {a L : ℚ} {x : Flt} (h : Flt.fin a - x = .fin L) :
    ∃ A, x = .fin A := by
  cases x with
  | fin A => exact ⟨A, rfl⟩
  | pinf =>
    have h' : Flt.add (.fin a) (Flt.neg .pinf) = .fin L := h
    simp [Flt.add, Flt.neg] at h'
  | ninf =>
    have h' : Flt.add (.fin a) (Flt.neg .ninf) = .fin L := h
    simp [Flt.add, Flt.neg] at h'
  | nan =>
    have h' : Flt.add (.fin a) (Flt.neg .nan) = .fin L := h
    simp [Flt.add, Flt.neg] at h'

theorem Flt.range_fin {x : Flt} {a b : ℚ} (h1 : Flt.le (.fin a) x = true)
    (h2 : Flt.le x (.fin b) = true) : ∃ L, x = .fin L ∧ a ≤ L ∧ L ≤ b := by
  cases x with
  | fin L => exact ⟨L, rfl, by simpa [Flt.le] using h1, by simpa [Flt.le] using h2⟩
  | pinf => simp [Flt.le] at h2
  | ninf => simp [Flt.le] at h1
  | nan => simp [Flt.le] at h1

theorem addRecords_vertices (u : Uninit) (n : Nat) (o : OBJObject) (rs : List Record)
    (h : ∀ r ∈ rs, r.wellFormedVertex = true) :
    (OBJObject.addRecords u n o rs).vertices = o.vertices ++ rs.filterMap Record.vertexOf := by
  induction rs generalizing n o with
  | nil => simp [OBJObject.addRecords]
  | cons r rs ih =>
    simp only [OBJObject.addRecords]
    rw [ih _ _ (fun r hr => h r (List.mem_cons_of_mem _ hr))]
    cases r with
    | v fields =>
      have hv := fillVec_wellFormed (u.vec n) fields (h _ (List.mem_cons_self _ _))
      simp only [List.filterMap_cons, hv]
      show (o.vertices ++ [fillVec (u.vec n) fields]) ++ _ = _
      simp
    | vn fields => rfl
    | f fields => rfl

theorem addRecords_scale_v (u : Uninit) (n : Nat) (o : OBJObject) (rs : List Record) :
    (OBJObject.addRecords u n o rs).scale_v = o.scale_v := by
  induction rs generalizing n o with
  | nil => rfl
  | cons r rs ih =>
    simp only [OBJObject.addRecords]
    rw [ih]
    cases r <;> rfl

theorem cubeCorners_on (v : Vec3) (hv : v ∈ cubeCorners) (ax : Axis) :
    v.on ax = .fin (-1) ∨ v.on ax = .fin 1 := by
  simp only [cubeCorners, List.mem_cons, List.mem_singleton, List.not_mem_nil, or_false] at hv
  rcases hv with rfl | rfl | rfl | rfl | rfl | rfl | rfl | rfl <;> cases ax <;> simp [Vec3.on]

theorem cube_bounds (o : OBJObject) (ax : Axis) (h : o.boundsOK ax)
    (hperm : o.vertices.Perm cubeCorners) :
    o.minOn ax = .fin (-1) ∧ o.maxOn ax = .fin 1 := by
  have hmem : ∀ v, v ∈ o.vertices ↔ v ∈ cubeCorners := fun v => hperm.mem_iff
  rcases h with ⟨hnil, -, -⟩ | ⟨lo, hi, hlo, hhi, ⟨vl, hvl, evl⟩, ⟨vh, hvh, evh⟩, hall⟩
  · rw [hnil] at hperm
    exact absurd hperm.length_eq (by simp [cubeCorners])
  · have hneg : (⟨.fin (-1), .fin (-1), .fin (-1)⟩ : Vec3) ∈ o.vertices :=
      (hmem _).2 (by simp [cubeCorners])
    have hpos : (⟨.fin 1, .fin 1, .fin 1⟩ : Vec3) ∈ o.vertices :=
      (hmem _).2 (by simp [cubeCorners])
    obtain ⟨q1, e1, l1, -⟩ := hall _ hneg
    obtain ⟨q2, e2, -, l2⟩ := hall _ hpos
    have e1' : q1 = -1 := by
      cases ax <;> simp only [Vec3.on, Flt.fin.injEq] at e1 <;> exact e1.symm
    have e2' : q2 = 1 := by
      cases ax <;> simp only [Vec3.on, Flt.fin.injEq] at e2 <;> exact e2.symm
    subst e1' e2'
    have clo := cubeCorners_on vl ((hmem _).1 hvl) ax
    have chi := cubeCorners_on vh ((hmem _).1 hvh) ax
    rw [evl] at clo
    rw [evh] at chi
    simp only [Flt.fin.injEq] at clo chi
    obtain ⟨q3, e3, l3, l4⟩ := hall _ hvl
    rw [evl] at e3
    simp only [Flt.fin.injEq] at e3
    refine ⟨?_, ?_⟩
    · rw [hlo]
      rcases clo with h | h
      · rw [h]
      · exfalso; linarith
    · rw [hhi]
      rcases chi with h | h
      · exfalso; linarith
      · rw [h]

theorem computeScale_cube (o : OBJObject) (hs : o.scale_v = .ninf)
    (hx : o.minX = .fin (-1) ∧ o.maxX = .fin 1) (hy : o.minY = .fin (-1) ∧ o.maxY = .fin 1)
    (hz : o.minZ = .fin (-1) ∧ o.maxZ = .fin 1) :
    o.computeScale.avgX = .fin 0 ∧ o.computeScale.avgY = .fin 0 ∧ o.computeScale.avgZ = .fin 0 ∧
      o.computeScale.scale_v = .fin 1 := by
  simp only [OBJObject.computeScale, hs, hx.1, hx.2, hy.1, hy.2, hz.1, hz.2]
  decide!

theorem normalizeVertex_cube (o : OBJObject) (v : Vec3) (hv : v ∈ cubeCorners)
    (hx : o.avgX = .fin 0) (hy : o.avgY = .fin 0) (hz : o.avgZ = .fin 0)
    (hs : o.scale_v = .fin 1) : o.normalizeVertex v = v := by
  simp only [cubeCorners, List.mem_cons, List.mem_singleton, List.not_mem_nil, or_false] at hv
  simp only [OBJObject.normalizeVertex, hx, hy, hz, hs]
  rcases hv with rfl | rfl | rfl | rfl | rfl | rfl | rfl | rfl <;> decide!

/-! ## Normalisation -/

/-- Counterexample to C7. `pointFile` has one vertex and one normal; `parse` finds the scale
`longestDim = 0` on the x axis (`maxX - avgX = 0`) and divides by it: the normalized x
coordinate of the vertex is NaN, which is not at least -1. `roundedFile` has two vertices, at
x = 3 and x = 16777216; the sum of the bounds is rounded to 16777220, `parse` finds the average
8388610 and the positive scale `longestDim = 8388606` on the x axis, and the normalized x
coordinate of the first vertex is -8388609/8388608, which is less than -1. -/
theorem normalized_point_counterexample :
    (fileRecords pointFile.toList =
        [.v [.fin 1, .fin 1, .fin 1], .vn [.fin 0, .fin 0, .fin 1]] ∧
      OBJObject.parse zeroUninit zeroMemory (some pointFile.toList) = some (parsed pointFile) ∧
      (parsed pointFile).longestDim = .fin 0 ∧
      (parsed pointFile).maxX - (parsed pointFile).average.x = .fin 0 ∧
      (parsed pointFile).containers.map (fun c => c.vertex.x) = [.nan] ∧
      Flt.le (.fin (-1)) .nan = false) ∧
    (fileRecords roundedFile.toList =
        [.v [.fin 3, .fin 0, .fin 0], .v [.fin 16777216, .fin 0, .fin 0],
         .vn [.fin 0, .fin 0, .fin 1], .vn [.fin 0, .fin 0, .fin 1]] ∧
      OBJObject.parse zeroUninit zeroMemory (some roundedFile.toList) =
        some (parsed roundedFile) ∧
      (parsed roundedFile).longestDim = .fin 8388606 ∧
      (parsed roundedFile).maxX - (parsed roundedFile).average.x = .fin 8388606 ∧
      (parsed roundedFile).containers.map (fun c => c.vertex.x) =
        [.fin (-8388609 / 8388608), .fin 1] ∧
      Flt.le (.fin (-1)) (.fin (-8388609 / 8388608)) = false) := by
  decide!

/-- Claim C7, amended: for every file whose vertex lines are all well formed, with numbers on
the axis, with at least one vertex line and at least as many normal lines as vertex lines,
`parse` returns; and when `longestDim` lies between `2 ^ -126` and `2 ^ 126` and is the
centered half-extent `max - average` of the x or of the y axis, every normalized vertex
coordinate on that axis is at most 1, and it is at least -1 when moreover the average of that
axis is the exact midpoint of the two bounds (their sum was not rounded). -/
theorem normalized_within_unit (u : Uninit) (o : OBJObject) (s : List Char) (ax : Axis)
    (hfresh : o.fresh)
    (hwf : ∀ r ∈ fileRecords s, r.wellFormedVertex = true)
    (hfin : ∀ v ∈ (fileRecords s).filterMap Record.vertexOf, (v.on ax).isFinite = true)
    (hcount : 1 ≤ vertexCount (fileRecords s))
    (hnormals : vertexCount (fileRecords s) ≤ normalCount (fileRecords s))
    (hax : ax = .X ∨ ax = .Y) :
    (∃ o1, OBJObject.parse u o (some s) = some o1) ∧
    ∀ o1, OBJObject.parse u o (some s) = some o1 →
      Flt.le (.fin (pow2 (-126))) o1.longestDim = true →
      Flt.le o1.longestDim (.fin (pow2 126)) = true →
      o1.longestDim = o1.maxOn ax - o1.average.on ax →
      (∀ c ∈ o1.containers, Flt.le (c.vertex.on ax) (.fin 1) = true) ∧
      ((o1.average.on ax).toRat * 2 = (o1.minOn ax).toRat + (o1.maxOn ax).toRat →
        ∀ c ∈ o1.containers, Flt.le (.fin (-1)) (c.vertex.on ax) = true) := by
  obtain ⟨hc, hv, hn, -⟩ := hfresh
  have hvl : (OBJObject.readFile u o.resetBounds s).vertices.length =
      vertexCount (fileRecords s) := by
    unfold OBJObject.readFile
    rw [addRecords_vertices_length]
    show o.vertices.length + _ = _
    rw [hv]; simp
  have hnl : (OBJObject.readFile u o.resetBounds s).normals.length =
      normalCount (fileRecords s) := by
    unfold OBJObject.readFile
    rw [addRecords_normals_length]
    show o.normals.length + _ = _
    rw [hn]; simp
  have hcl : (OBJObject.readFile u o.resetBounds s).containers = [] := by
    unfold OBJObject.readFile
    rw [addRecords_containers]
    exact hc
  have hsome : OBJObject.parse u o (some s) = _ :=
    normalize_some (OBJObject.readFile u o.resetBounds s) (by rw [hvl, hnl]; exact hnormals)
  refine ⟨⟨_, hsome⟩, ?_⟩
  intro o1 hparse hlow hhigh hchosen
  rw [hsome] at hparse
  injection hparse with hparse
  subst hparse
  obtain ⟨L, hL, hL1, hL2⟩ := Flt.range_fin hlow hhigh
  have hinv := boundsOK_readFile u o s ax hv hwf hfin
  rcases hinv with ⟨hnil, -, -⟩ | ⟨lo, hi, hlo, hhi, -, -, hall⟩
  · rw [hnil] at hvl
    simp only [List.length_nil] at hvl
    omega
  · have key : ∀ avg : Flt, ∀ scale : Flt, scale = .fin L → scale = Flt.fin hi - avg →
        (∀ q : ℚ, lo ≤ q → q ≤ hi →
          Flt.le ((Flt.fin q - avg) * (Flt.fin 1 / scale)) (.fin 1) = true) ∧
        (avg.toRat * 2 = lo + hi → ∀ q : ℚ, lo ≤ q → q ≤ hi →
          Flt.le (.fin (-1)) ((Flt.fin q - avg) * (Flt.fin 1 / scale)) = true) := by
      intro avg scale hs hch
      rw [hs] at hch ⊢
      obtain ⟨A, rfl⟩ := Flt.fin_of_sub_eq_fin hch.symm
      rw [Flt.sub_fin] at hch
      refine ⟨fun q _ h2 => normalized_le_one h2 hch.symm hL1 hL2, ?_⟩
      intro hmid q h1 _
      exact neg_one_le_normalized h1 hmid hch.symm hL1 hL2
    rcases hax with rfl | rfl
    · have hlo1 : (OBJObject.readFile u o.resetBounds s).minX = .fin lo := hlo
      have hhi1 : (OBJObject.readFile u o.resetBounds s).maxX = .fin hi := hhi
      have hch : (OBJObject.readFile u o.resetBounds s).computeScale.scale_v =
          (OBJObject.readFile u o.resetBounds s).maxX -
            (OBJObject.readFile u o.resetBounds s).computeScale.avgX := hchosen
      rw [hhi1] at hch
      obtain ⟨k1, k2⟩ := key _ _ hL hch
      constructor
      · intro c hmem
        simp only [hcl, List.nil_append, List.mem_map] at hmem
        obtain ⟨p, hp, rfl⟩ := hmem
        obtain ⟨q, hq, h1, h2⟩ := hall p.1 (List.of_mem_zip hp).1
        have hq1 : p.1.x = .fin q := hq
        show Flt.le ((p.1.x - (OBJObject.readFile u o.resetBounds s).computeScale.avgX) *
          (Flt.fin 1 / (OBJObject.readFile u o.resetBounds s).computeScale.scale_v)) (.fin 1) = true
        rw [hq1]
        exact k1 q h1 h2
      · intro hmid c hmem
        have hmid1 : ((OBJObject.readFile u o.resetBounds s).computeScale.avgX).toRat * 2 =
            ((OBJObject.readFile u o.resetBounds s).minX).toRat +
              ((OBJObject.readFile u o.resetBounds s).maxX).toRat := hmid
        rw [hlo1, hhi1] at hmid1
        simp only [hcl, List.nil_append, List.mem_map] at hmem
        obtain ⟨p, hp, rfl⟩ := hmem
        obtain ⟨q, hq, h1, h2⟩ := hall p.1 (List.of_mem_zip hp).1
        have hq1 : p.1.x = .fin q := hq
        show Flt.le (.fin (-1)) ((p.1.x - (OBJObject.readFile u o.resetBounds s).computeScale.avgX) *
          (Flt.fin 1 / (OBJObject.readFile u o.resetBounds s).computeScale.scale_v)) = true
        rw [hq1]
        exact k2 hmid1 q h1 h2
    · have hlo1 : (OBJObject.readFile u o.resetBounds s).minY = .fin lo := hlo
      have hhi1 : (OBJObject.readFile u o.resetBounds s).maxY = .fin hi := hhi
      have hch : (OBJObject.readFile u o.resetBounds s).computeScale.scale_v =
          (OBJObject.readFile u o.resetBounds s).maxY -
            (OBJObject.readFile u o.resetBounds s).computeScale.avgY := hchosen
      rw [hhi1] at hch
      obtain ⟨k1, k2⟩ := key _ _ hL hch
      constructor
      · intro c hmem
        simp only [hcl, List.nil_append, List.mem_map] at hmem
        obtain ⟨p, hp, rfl⟩ := hmem
        obtain ⟨q, hq, h1, h2⟩ := hall p.1 (List.of_mem_zip hp).1
        have hq1 : p.1.y = .fin q := hq
        show Flt.le ((p.1.y - (OBJObject.readFile u o.resetBounds s).computeScale.avgY) *
          (Flt.fin 1 / (OBJObject.readFile u o.resetBounds s).computeScale.scale_v)) (.fin 1) = true
        rw [hq1]
        exact k1 q h1 h2
      · intro hmid c hmem
        have hmid1 : ((OBJObject.readFile u o.resetBounds s).computeScale.avgY).toRat * 2 =
            ((OBJObject.readFile u o.resetBounds s).minY).toRat +
              ((OBJObject.readFile u o.resetBounds s).maxY).toRat := hmid
        rw [hlo1, hhi1] at hmid1
        simp only [hcl, List.nil_append, List.mem_map] at hmem
        obtain ⟨p, hp, rfl⟩ := hmem
        obtain ⟨q, hq, h1, h2⟩ := hall p.1 (List.of_mem_zip hp).1
        have hq1 : p.1.y = .fin q := hq
        show Flt.le (.fin (-1)) ((p.1.y - (OBJObject.readFile u o.resetBounds s).computeScale.avgY) *
          (Flt.fin 1 / (OBJObject.readFile u o.resetBounds s).computeScale.scale_v)) = true
        rw [hq1]
        exact k2 hmid1 q h1 h2

/-- Witness of the amended C7: `wideFile` has two vertices, x from -3 to 5; `parse` returns with
`longestDim = 4`, the centered half-extent of x, the average 1 of x is the midpoint of -3 and 5,
and the normalized x coordinates are -1 and 1. -/
theorem normalized_within_unit_witness :
    OBJObject.parse zeroUninit zeroMemory (some wideFile.toList) = some (parsed wideFile) ∧
      (parsed wideFile).longestDim = .fin 4 ∧ (parsed wideFile).average.x = .fin 1 ∧
      (parsed wideFile).containers.map (fun c => c.vertex.x) = [.fin (-1), .fin 1] ∧
      ((parsed wideFile).containers.all fun c =>
        Flt.le (.fin (-1)) (c.vertex.on .X) && Flt.le (c.vertex.on .X) (.fin 1)) = true :=
  ⟨by decide!, by decide!, by decide!, by decide!,
   List.all_eq_true.2 fun c hc => by
    have h := (normalized_within_unit zeroUninit zeroMemory wideFile.toList .X
      ⟨rfl, rfl, rfl, rfl⟩ (by decide!) (by decide!) (by decide!) (by decide!) (Or.inl rfl)).2
      (parsed wideFile) (by decide!) (by decide!) (by decide!) (by decide!)
    rw [h.1 c hc, h.2 (by decide!) c hc]
    rfl⟩

/-- Claim C8 fails on the code at `needleFile` (vertices (0, 0, -10) and (0, 0, 1)): the raw z
bounds are -10 and 1, with midpoint -9/2, but `parse` computes `avgZ` from `minX` and `maxZ`
and stores the average (0, 0, 1/2); the normalized z coordinates are -21 and 1, whose midpoint
is -10 and not 0. -/
theorem average_z_uses_minX :
    fileRecords needleFile.toList =
        [.v [.fin 0, .fin 0, .fin (-10)], .v [.fin 0, .fin 0, .fin 1],
         .vn [.fin 0, .fin 0, .fin 1], .vn [.fin 0, .fin 0, .fin 1]] ∧
      OBJObject.parse zeroUninit zeroMemory (some needleFile.toList) = some (parsed needleFile) ∧
      (parsed needleFile).minX = .fin 0 ∧
      (parsed needleFile).minZ = .fin (-10) ∧ (parsed needleFile).maxZ = .fin 1 ∧
      (parsed needleFile).average = ⟨.fin 0, .fin 0, .fin (1 / 2)⟩ ∧
      ((parsed needleFile).minZ + (parsed needleFile).maxZ) / Flt.fin 2 = .fin (-9 / 2) ∧
      (parsed needleFile).longestDim = .fin (1 / 2) ∧
      (parsed needleFile).containers.map (fun c => c.vertex.z) = [.fin (-21), .fin 1] := by
  decide!

/-- Claim C9: for every file whose vertex lines are well formed and give the 8 corners of the
cube with coordinates +1 and -1 (in any order), with at least 8 normal lines and whatever face
lines, `parse` returns with `longestDim = 1`, `average = (0, 0, 0)` and 8 vertex records whose
positions are the coordinates of the file, in the order of the file. -/
theorem unit_cube_parse (u : Uninit) (o : OBJObject) (s : List Char)
    (hfresh : o.fresh)
    (hwf : ∀ r ∈ fileRecords s, r.wellFormedVertex = true)
    (hperm : ((fileRecords s).filterMap Record.vertexOf).Perm cubeCorners)
    (hnormals : 8 ≤ normalCount (fileRecords s)) :
    ∃ o1, OBJObject.parse u o (some s) = some o1 ∧
      o1.longestDim = .fin 1 ∧ o1.average = ⟨.fin 0, .fin 0, .fin 0⟩ ∧
      o1.containers.length = 8 ∧
      o1.containers.map (fun c => c.vertex) = (fileRecords s).filterMap Record.vertexOf := by
  obtain ⟨hc, hv, hn, -⟩ := hfresh
  have hvs : (OBJObject.readFile u o.resetBounds s).vertices =
      (fileRecords s).filterMap Record.vertexOf := by
    unfold OBJObject.readFile
    rw [addRecords_vertices _ _ _ _ hwf]
    show o.vertices ++ _ = _
    rw [hv]; rfl
  have hlen : (OBJObject.readFile u o.resetBounds s).vertices.length = 8 := by
    rw [hvs, hperm.length_eq]; rfl
  have hnl : (OBJObject.readFile u o.resetBounds s).normals.length =
      normalCount (fileRecords s) := by
    unfold OBJObject.readFile
    rw [addRecords_normals_length]
    show o.normals.length + _ = _
    rw [hn]; simp
  have hcl : (OBJObject.readFile u o.resetBounds s).containers = [] := by
    unfold OBJObject.readFile
    rw [addRecords_containers]
    exact hc
  have hsc : (OBJObject.readFile u o.resetBounds s).scale_v = .ninf := by
    unfold OBJObject.readFile
    rw [addRecords_scale_v]
    rfl
  have hle : (OBJObject.readFile u o.resetBounds s).vertices.length ≤
      (OBJObject.readFile u o.resetBounds s).normals.length := by
    rw [hlen, hnl]; exact hnormals
  have hperm1 : (OBJObject.readFile u o.resetBounds s).vertices.Perm cubeCorners := by
    rw [hvs]; exact hperm
  have hfin : ∀ ax, ∀ v ∈ (fileRecords s).filterMap Record.vertexOf,
      (v.on ax).isFinite = true := by
    intro ax v hmem
    rcases cubeCorners_on v (hperm.mem_iff.1 hmem) ax with h | h <;> rw [h] <;> rfl
  have hb := fun ax => cube_bounds _ ax (boundsOK_readFile u o s ax hv hwf (hfin ax)) hperm1
  obtain ⟨ex, ey, ez, es⟩ :=
    computeScale_cube (OBJObject.readFile u o.resetBounds s) hsc (hb .X) (hb .Y) (hb .Z)
  have hnorm : (OBJObject.readFile u o.resetBounds s).vertices.map
      (OBJObject.readFile u o.resetBounds s).computeScale.normalizeVertex =
      (OBJObject.readFile u o.resetBounds s).vertices := by
    conv_rhs => rw [← List.map_id (OBJObject.readFile u o.resetBounds s).vertices]
    apply List.map_congr_left
    intro v hmem
    exact normalizeVertex_cube _ v (hperm1.mem_iff.1 hmem) ex ey ez es
  have hsome : OBJObject.parse u o (some s) = _ :=
    normalize_some (OBJObject.readFile u o.resetBounds s) hle
  refine ⟨_, hsome, es, ?_, ?_, ?_⟩
  · show (⟨_, _, _⟩ : Vec3) = _
    rw [ex, ey, ez]
  · simp only [hcl, List.nil_append, List.length_map, List.length_zip]
    omega
  · simp only [hcl, List.nil_append, List.map_map]
    rw [← hvs]
    conv_rhs => rw [← hnorm, ← List.map_fst_zip _ _ hle, List.map_map]
    rfl

/-- Witness of C9: `cubeFile` gives the 8 corners in the order `cubeFileVertices`, 8 normals
and 12 faces; `parse` returns `longestDim = 1`, `average = (0, 0, 0)` and the 8 positions of
the file in order. -/
theorem unit_cube_parse_witness :
    (fileRecords cubeFile.toList).filterMap Record.vertexOf = cubeFileVertices ∧
      ∃ o1, OBJObject.parse zeroUninit zeroMemory (some cubeFile.toList) = some o1 ∧
        o1.longestDim = .fin 1 ∧ o1.average = ⟨.fin 0, .fin 0, .fin 0⟩ ∧
        o1.containers.length = 8 ∧
        o1.containers.map (fun c => c.vertex) =
          (fileRecords cubeFile.toList).filterMap Record.vertexOf :=
  ⟨by decide!,
   unit_cube_parse zeroUninit zeroMemory cubeFile.toList ⟨rfl, rfl, rfl, rfl⟩
     (by decide!) (by decide!) (by decide!)⟩

/-! ## Indices -/

/-- Counterexample to C10: `danglingFile` has one vertex line and the face line
`f 1//1 2//1 3//1`; `parse` returns with 1 vertex and the indices 0, 1, 2, two of which are not
less than 1. -/
theorem indices_dangling_counterexample :
    fileRecords danglingFile.toList =
        [.v [.fin 0, .fin 0, .fin 0], .vn [.fin 0, .fin 0, .fin 1], .f [1, 1, 2, 1, 3, 1]] ∧
      OBJObject.parse zeroUninit zeroMemory (some danglingFile.toList) =
        some (parsed danglingFile) ∧
      (parsed danglingFile).vertices.length = 1 ∧
      (parsed danglingFile).indices = [0, 1, 2] := by
  decide!

/-- Claim C10, amended: for every file in which every face line has its three position indices
assigned, each from 1 to the number of vertex lines of the file, every index that `parse`
appends is strictly less than the number of parsed vertices (in the reading loop, and in the
object `parse` returns). -/
theorem indices_within_vertex_count (u : Uninit) (o : OBJObject) (s : List Char)
    (hfresh : o.fresh)
    (h : ∀ r ∈ fileRecords s, r.facesWithin (vertexCount (fileRecords s)) = true) :
    (∀ i ∈ (OBJObject.readFile u o s).indices, i < (OBJObject.readFile u o s).vertices.length) ∧
    (∀ o1, OBJObject.parse u o (some s) = some o1 → ∀ i ∈ o1.indices, i < o1.vertices.length) := by
  obtain ⟨-, hv, -, hi⟩ := hfresh
  have key : ∀ o0 : OBJObject, o0.vertices = [] → o0.indices = [] →
      ∀ i ∈ (OBJObject.readFile u o0 s).indices,
        i < (OBJObject.readFile u o0 s).vertices.length := by
    intro o0 hv0 hi0 i hmem
    unfold OBJObject.readFile at hmem ⊢
    rw [addRecords_vertices_length, hv0]
    obtain ⟨app, happ, hall⟩ := addRecords_indices u 0 o0 (fileRecords s)
    rw [happ, hi0, List.nil_append] at hmem
    obtain ⟨fields, k, j, hm, hj, he⟩ := hall i hmem
    rw [he]
    simpa using faceIndex_lt _ (u.faces_v k) fields j hj (h _ hm)
  refine ⟨key o hv hi, ?_⟩
  intro o1 hp i hmem
  have hp2 : (OBJObject.readFile u o.resetBounds s).normalize = some o1 := hp
  obtain ⟨e1, e2⟩ := normalize_indices _ _ hp2
  rw [e1] at hmem
  rw [e2]
  exact key o.resetBounds hv hi i hmem

/-- Witness of the amended C10: the 12 face lines of `cubeFile` name vertices 1 to 8, and the 36
indices are less than 8. -/
theorem indices_within_vertex_count_witness :
    vertexCount (fileRecords cubeFile.toList) = 8 ∧
      (OBJObject.readFile zeroUninit zeroMemory cubeFile.toList).indices.length = 36 ∧
      ((OBJObject.readFile zeroUninit zeroMemory cubeFile.toList).indices.all fun i =>
        decide (i < (OBJObject.readFile zeroUninit zeroMemory cubeFile.toList).vertices.length))
        = true :=
  ⟨by decide!, by decide!,
   List.all_eq_true.2 fun i hi => decide_eq_true
    ((indices_within_vertex_count zeroUninit zeroMemory cubeFile.toList ⟨rfl, rfl, rfl, rfl⟩
      (by decide!)).1 i hi)⟩

/-! ## The vertex records -/

theorem fillVec_wellFormedNormal (init : Vec3) (fields : List Flt)
    (h : (Record.vn fields).wellFormedNormal = true) :
    (Record.vn fields).normalOf = some (fillVec init fields) := by
  simp only [Record.wellFormedNormal, beq_iff_eq] at h
  match fields, h with
  | [a, b, c], _ => rfl

theorem addRecords_normals (u : Uninit) (n : Nat) (o : OBJObject) (rs : List Record)
    (h : ∀ r ∈ rs, r.wellFormedNormal = true) :
    (OBJObject.addRecords u n o rs).normals = o.normals ++ rs.filterMap Record.normalOf := by
  induction rs generalizing n o with
  | nil => simp [OBJObject.addRecords]
  | cons r rs ih =>
    simp only [OBJObject.addRecords]
    rw [ih _ _ (fun r hr => h r (List.mem_cons_of_mem _ hr))]
    cases r with
    | v fields =>
      show o.normals ++ _ = _
      rfl
    | vn fields =>
      have hv := fillVec_wellFormedNormal (u.vec n) fields (h _ (List.mem_cons_self _ _))
      simp only [List.filterMap_cons, hv]
      show (o.normals ++ [fillVec (u.vec n) fields]) ++ _ = _
      simp
    | f fields => rfl

/-- Counterexample to C11: `brokenFile` has exactly one well-formed vertex record (the vertex
line `v 3 4 5`; the line `v 1 2` lacks its third number), two normal records and the positive
`longestDim = 2`; yet `parse` produces 2 vertex records, not 1, and the first of them is no
vertex of the file: it is made of 1, 2 and the value the local `vertex.z` happened to hold. -/
theorem containers_count_counterexample :
    fileRecords brokenFile.toList =
        [.v [.fin 1, .fin 2], .v [.fin 3, .fin 4, .fin 5],
         .vn [.fin 0, .fin 0, .fin 1], .vn [.fin 0, .fin 0, .fin 1]] ∧
      (fileRecords brokenFile.toList).filterMap Record.vertexOf = [⟨.fin 3, .fin 4, .fin 5⟩] ∧
      normalCount (fileRecords brokenFile.toList) = 2 ∧
      OBJObject.parse zeroUninit zeroMemory (some brokenFile.toList) =
        some (parsed brokenFile) ∧
      (parsed brokenFile).longestDim = .fin 2 ∧
      Flt.gt (parsed brokenFile).longestDim (.fin 0) = true ∧
      (parsed brokenFile).containers.length = 2 ∧
      (parsed brokenFile).average = ⟨.fin 2, .fin 3, .fin 3⟩ ∧
      (parsed brokenFile).containers.map (fun c => c.vertex) =
        [⟨.fin (-1 / 2), .fin (-1 / 2), .fin (-3 / 2)⟩, ⟨.fin (1 / 2), .fin (1 / 2), .fin 1⟩] := by
  decide!

/-- Claim C11, amended: for every file whose vertex lines are all well formed, `n` of them, with
at least `n` normal lines, `parse` returns with exactly `n` vertex records, and for every
`i < n` record `i` has position `(v_i - average) * (1 / longestDim)` (one scalar for the three
axes, `v_i` the `i`-th vertex line), normal the `i`-th entry of `normals` and texture
coordinate (0, 0); when the normal lines are well formed, `normals` holds their values in
order. The equations hold whatever the sign of `longestDim`. -/
theorem containers_normalized (u : Uninit) (o : OBJObject) (s : List Char)
    (hfresh : o.fresh)
    (hwf : ∀ r ∈ fileRecords s, r.wellFormedVertex = true)
    (hnormals : vertexCount (fileRecords s) ≤ normalCount (fileRecords s)) :
    ∃ o1, OBJObject.parse u o (some s) = some o1 ∧
      o1.containers.length = vertexCount (fileRecords s) ∧
      ((fileRecords s).filterMap Record.vertexOf).length = vertexCount (fileRecords s) ∧
      (∀ i, i < vertexCount (fileRecords s) →
        ∃ c v nrm, o1.containers.get? i = some c ∧
          ((fileRecords s).filterMap Record.vertexOf).get? i = some v ∧
          o1.normals.get? i = some nrm ∧
          c.vertex = (v - o1.average).scale (Flt.fin 1 / o1.longestDim) ∧
          c.normal = nrm ∧ c.texCoord = ⟨.fin 0, .fin 0⟩) ∧
      ((∀ r ∈ fileRecords s, r.wellFormedNormal = true) →
        o1.normals = (fileRecords s).filterMap Record.normalOf) := by
  obtain ⟨hc, hv, hn, -⟩ := hfresh
  have hvs : (OBJObject.readFile u o.resetBounds s).vertices =
      (fileRecords s).filterMap Record.vertexOf := by
    unfold OBJObject.readFile
    rw [addRecords_vertices _ _ _ _ hwf]
    show o.vertices ++ _ = _
    rw [hv]; rfl
  have hvl : (OBJObject.readFile u o.resetBounds s).vertices.length =
      vertexCount (fileRecords s) := by
    unfold OBJObject.readFile
    rw [addRecords_vertices_length]
    show o.vertices.length + _ = _
    rw [hv]; simp
  have hnl : (OBJObject.readFile u o.resetBounds s).normals.length =
      normalCount (fileRecords s) := by
    unfold OBJObject.readFile
    rw [addRecords_normals_length]
    show o.normals.length + _ = _
    rw [hn]; simp
  have hcl : (OBJObject.readFile u o.resetBounds s).containers = [] := by
    unfold OBJObject.readFile
    rw [addRecords_containers]
    exact hc
  have hle : (OBJObject.readFile u o.resetBounds s).vertices.length ≤
      (OBJObject.readFile u o.resetBounds s).normals.length := by
    rw [hvl, hnl]; exact hnormals
  have hsome : OBJObject.parse u o (some s) = _ :=
    normalize_some (OBJObject.readFile u o.resetBounds s) hle
  refine ⟨_, hsome, ?_, ?_, ?_, ?_⟩
  · simp only [hcl, List.nil_append, List.length_map, List.length_zip]
    omega
  · rw [← hvs, hvl]
  · intro i hi
    have hiv : i < (OBJObject.readFile u o.resetBounds s).vertices.length := by omega
    have hin : i < (OBJObject.readFile u o.resetBounds s).normals.length := by omega
    refine ⟨⟨(OBJObject.readFile u o.resetBounds s).computeScale.normalizeVertex
        ((OBJObject.readFile u o.resetBounds s).vertices.get ⟨i, hiv⟩),
        (OBJObject.readFile u o.resetBounds s).normals.get ⟨i, hin⟩, ⟨.fin 0, .fin 0⟩⟩,
      (OBJObject.readFile u o.resetBounds s).vertices.get ⟨i, hiv⟩,
      (OBJObject.readFile u o.resetBounds s).normals.get ⟨i, hin⟩, ?_, ?_, ?_, rfl, rfl, rfl⟩
    · simp only [hcl, List.nil_append]
      simp [List.getElem?_map, List.getElem?_zip_eq_some, List.getElem?_eq_getElem, hiv, hin]
    · rw [← hvs]
      simp [List.getElem?_eq_getElem, hiv]
    · show (OBJObject.readFile u o.resetBounds s).normals.get? i = _
      simp [List.getElem?_eq_getElem, hin]
  · intro hwfn
    show (OBJObject.readFile u o.resetBounds s).normals = _
    unfold OBJObject.readFile
    rw [addRecords_normals _ _ _ _ hwfn]
    show o.normals ++ _ = _
    rw [hn]; rfl

/-- Witness of C11: `wideFile` has the vertices (-3, 0, 0) and (5, 1, 1) and two normals
(0, 0, 1); `parse` finds `average = (1, 1/2, -1)` and `longestDim = 4` and stores the positions
(-1, -1/8, 1/4) and (1, 1/8, 1/2). -/
theorem containers_normalized_witness :
    (parsed wideFile).average = ⟨.fin 1, .fin (1 / 2), .fin (-1)⟩ ∧
      (parsed wideFile).longestDim = .fin 4 ∧
      (parsed wideFile).containers =
        [⟨⟨.fin (-1), .fin (-1 / 8), .fin (1 / 4)⟩, ⟨.fin 0, .fin 0, .fin 1⟩, ⟨.fin 0, .fin 0⟩⟩,
         ⟨⟨.fin 1, .fin (1 / 8), .fin (1 / 2)⟩, ⟨.fin 0, .fin 0, .fin 1⟩, ⟨.fin 0, .fin 0⟩⟩] ∧
      ∃ o1, OBJObject.parse zeroUninit zeroMemory (some wideFile.toList) = some o1 ∧
        o1.containers.length = vertexCount (fileRecords wideFile.toList) ∧
        ((fileRecords wideFile.toList).filterMap Record.vertexOf).length =
          vertexCount (fileRecords wideFile.toList) ∧
        (∀ i, i < vertexCount (fileRecords wideFile.toList) →
          ∃ c v nrm, o1.containers.get? i = some c ∧
            ((fileRecords wideFile.toList).filterMap Record.vertexOf).get? i = some v ∧
            o1.normals.get? i = some nrm ∧
            c.vertex = (v - o1.average).scale (Flt.fin 1 / o1.longestDim) ∧
            c.normal = nrm ∧ c.texCoord = ⟨.fin 0, .fin 0⟩) ∧
        ((∀ r ∈ fileRecords wideFile.toList, r.wellFormedNormal = true) →
          o1.normals = (fileRecords wideFile.toList).filterMap Record.normalOf) :=
  ⟨by decide!, by decide!, by decide!,
   containers_normalized zeroUninit zeroMemory wideFile.toList ⟨rfl, rfl, rfl, rfl⟩
     (by decide!) (by decide!)⟩

/-! ## A file that cannot be opened -/

/-- Claim C12: when the file cannot be opened (`fopen` returns `NULL`), `parse` returns, and
from the state in which the constructor calls it the mesh is empty: no vertex, no normal, no
index and no vertex record. The constructor as a whole returns as well, with the four vectors
empty. -/
theorem parse_unopened_file (u : Uninit) (o : OBJObject) (hfresh : o.fresh) :
    (∃ o1, OBJObject.parse u o none = some o1 ∧
      o1.vertices = [] ∧ o1.normals = [] ∧ o1.indices = [] ∧ o1.containers = []) ∧
    (∀ mem material, ∃ o1, OBJObject.new mem u none material = some o1 ∧
      o1.vertices = [] ∧ o1.normals = [] ∧ o1.indices = [] ∧ o1.containers = []) := by
  obtain ⟨hc, hv, hn, hi⟩ := hfresh
  exact ⟨⟨o.resetBounds, rfl, hv, hn, hi, hc⟩, fun mem material => ⟨_, rfl, rfl, rfl, rfl, rfl⟩⟩

/-- Witness of C12: `parse` on zeroed memory with no file. -/
theorem parse_unopened_file_witness :
    ∃ o1, OBJObject.parse zeroUninit zeroMemory none = some o1 ∧
      o1.vertices = [] ∧ o1.normals = [] ∧ o1.indices = [] ∧ o1.containers = [] :=
  (parse_unopened_file zeroUninit zeroMemory ⟨rfl, rfl, rfl, rfl⟩).1

/-! ## The bounding box -/

/-- The result of a division is a binary32 value: rounding keeps it. -/
theorem Flt.div_exact (a b : Flt) (q : ℚ) (h : a / b = .fin q) : round32 q = .fin q := by
  have h' : Flt.div a b = .fin q := h
  cases a with
  | fin x =>
    cases b with
    | fin y =>
      simp only [Flt.div] at h'
      split at h'
      · unfold Flt.signedInf at h'
        split at h'
        · simp at h'
        · split at h' <;> simp at h'
      · exact round32_idem h'
    | pinf =>
      simp only [Flt.div] at h'
      injection h' with h'
      subst h'
      decide!
    | ninf =>
      simp only [Flt.div] at h'
      injection h' with h'
      subst h'
      decide!
    | nan => simp [Flt.div] at h'
  | pinf =>
    cases b with
    | fin y => simp only [Flt.div] at h'; split at h' <;> simp at h'
    | pinf => simp [Flt.div] at h'
    | ninf => simp [Flt.div] at h'
    | nan => simp [Flt.div] at h'
  | ninf =>
    cases b with
    | fin y => simp only [Flt.div] at h'; split at h' <;> simp at h'
    | pinf => simp [Flt.div] at h'
    | ninf => simp [Flt.div] at h'
    | nan => simp [Flt.div] at h'
  | nan => cases b <;> simp [Flt.div] at h'

theorem Flt.one_mul_div (a b : Flt) : Flt.fin 1 * (a / b) = a / b := by
  have key := Flt.div_exact a b
  generalize a / b = h at key
  show Flt.mul (Flt.fin 1) h = h
  cases h with
  | fin q => simp only [Flt.mul, one_mul]; exact key q rfl
  | pinf => simp [Flt.mul, Flt.signedInf]
  | ninf => simp [Flt.mul, Flt.signedInf]
  | nan => simp [Flt.mul]

theorem Flt.neg_one_mul_div (a b : Flt) : Flt.fin (-1) * (a / b) = Flt.neg (a / b) := by
  have key := Flt.div_exact a b
  generalize a / b = h at key
  show Flt.mul (Flt.fin (-1)) h = Flt.neg h
  cases h with
  | fin q =>
    simp only [Flt.mul, neg_one_mul, round32_neg, key q rfl]
  | pinf => simp [Flt.mul, Flt.signedInf, Flt.neg]
  | ninf => simp [Flt.mul, Flt.signedInf, Flt.neg]
  | nan => simp [Flt.mul, Flt.neg]

theorem Flt.add_one_mul (a x y : Flt) : a + Flt.fin 1 * (x / y) = a + x / y := by
  rw [Flt.one_mul_div]

theorem Flt.add_neg_one_mul (a x y : Flt) : a + Flt.fin (-1) * (x / y) = a - x / y := by
  rw [Flt.neg_one_mul_div]; rfl

/-- Claim C16: for every object state (whatever `longestDim` and whatever `boxCoords` held
before), `setCube` sets `boxCoords` to 36 points and changes nothing else; each point is one of
the corners `((t + s * h) - average) / longestDim` with `t` the translation, `h` the half
widths of the raw bounds and `s` a choice of three signs; and each of the 8 corners is among
the 36 points. -/
theorem setCube_corners (o : OBJObject) :
    o.setCube.boxCoords.length = 36 ∧
    (∀ p ∈ o.setCube.boxCoords,
      ∃ sx ∈ signs, ∃ sy ∈ signs, ∃ sz ∈ signs, p = o.boxCorner sx sy sz) ∧
    (∀ sx ∈ signs, ∀ sy ∈ signs, ∀ sz ∈ signs, o.boxCorner sx sy sz ∈ o.setCube.boxCoords) ∧
    o.setCube = { o with boxCoords := o.setCube.boxCoords } := by
  refine ⟨rfl, ?_, ?_, rfl⟩
  · intro p hp
    simp only [OBJObject.setCube, List.mem_cons, List.mem_singleton, List.not_mem_nil,
      or_false] at hp
    simp only [signs, List.mem_cons, List.mem_singleton, List.not_mem_nil, or_false,
      exists_eq_or_imp, exists_eq_left, OBJObject.boxCorner, Flt.add_one_mul,
      Flt.add_neg_one_mul]
    aesop
  · intro sx hsx sy hsy sz hsz
    simp only [signs, List.mem_cons, List.mem_singleton, List.not_mem_nil, or_false] at hsx hsy hsz
    simp only [OBJObject.setCube, List.mem_cons, List.mem_singleton, List.not_mem_nil,
      or_false, OBJObject.boxCorner]
    rcases hsx with rfl | rfl <;> rcases hsy with rfl | rfl <;> rcases hsz with rfl | rfl <;>
      simp only [Flt.add_one_mul, Flt.add_neg_one_mul, true_or, or_true]

/-! ## Reading resumes after any text -/

theorem isSpace_toNat {w : Char} (hw : isSpace w = true) : w.toNat ≤ 32 := by
  simp only [isSpace, Bool.or_eq_true, decide_eq_true_eq, Bool.and_eq_true] at hw
  omega

theorem ne_of_isSpace {w c : Char} (hw : isSpace w = true) (hc : isSpace c = false) : w ≠ c := by
  intro h
  rw [h, hc] at hw
  exact absurd hw (by simp)

theorem isDigit_of_isSpace {w : Char} (hw : isSpace w = true) : isDigit w = false := by
  have := isSpace_toNat hw
  simp only [isDigit, Bool.and_eq_false_iff, decide_eq_false_iff_not]
  omega

theorem hexDigit_of_isSpace {w : Char} (hw : isSpace w = true) : hexDigit w = none := by
  have := isSpace_toNat hw
  have h1 := isDigit_of_isSpace hw
  have h2 : ¬ (97 ≤ w.toNat) := by omega
  have h3 : ¬ (65 ≤ w.toNat) := by omega
  simp [hexDigit, h1, h2, h3]

theorem isLetter_of_isSpace {l w : Char} (hw : isSpace w = true) (hl : 65 ≤ l.toNat) :
    isLetter l w = false := by
  have := isSpace_toNat hw
  simp only [isLetter, Bool.or_eq_false_iff, decide_eq_false_iff_not]
  omega

theorem isNChar_of_isSpace {w : Char} (hw : isSpace w = true) : isNChar w = false := by
  have := isSpace_toNat hw
  have h1 := isDigit_of_isSpace hw
  have h2 : ¬ (97 ≤ w.toNat) := by omega
  have h3 : ¬ (65 ≤ w.toNat) := by omega
  have h4 : w ≠ '_' := ne_of_isSpace hw (by decide)
  simp [isNChar, h1, h2, h3, h4]

theorem scanSign_append {w : Char} (hw : isSpace w = true) (y t : List Char) :
    scanSign (y ++ w :: t) = ((scanSign y).1, (scanSign y).2 ++ w :: t) := by
  have w1 : w ≠ '-' := ne_of_isSpace hw (by decide)
  have w2 : w ≠ '+' := ne_of_isSpace hw (by decide)
  cases y with
  | nil => simp [scanSign, w1, w2]
  | cons c r =>
    simp only [List.cons_append, scanSign]
    split
    · rfl
    · split <;> rfl

theorem scanDigits_append {w : Char} (hw : isSpace w = true) (y t : List Char) (acc : Nat) :
    scanDigits (y ++ w :: t) acc =
      ((scanDigits y acc).1, (scanDigits y acc).2.1, (scanDigits y acc).2.2 ++ w :: t) := by
  have w1 := isDigit_of_isSpace hw
  induction y generalizing acc with
  | nil => simp [scanDigits, w1]
  | cons c r ih =>
    simp only [List.cons_append, scanDigits]
    split
    · simp only [List.append_eq]
      rw [ih]
    · rfl

theorem scanFraction_append {w : Char} (hw : isSpace w = true) (y t : List Char) (acc : Nat) :
    scanFraction (y ++ w :: t) acc =
      ((scanFraction y acc).1, (scanFraction y acc).2.1, (scanFraction y acc).2.2 ++ w :: t) := by
  have w1 : w ≠ '.' := ne_of_isSpace hw (by decide)
  cases y with
  | nil => simp [scanFraction, w1]
  | cons c r =>
    simp only [List.cons_append, scanFraction]
    split
    · exact scanDigits_append hw r t acc
    · rfl

theorem scanExponent_append {w : Char} (hw : isSpace w = true) (y t : List Char) :
    scanExponent (y ++ w :: t) = ((scanExponent y).1, (scanExponent y).2 ++ w :: t) := by
  have w1 : w ≠ 'e' := ne_of_isSpace hw (by decide)
  have w2 : w ≠ 'E' := ne_of_isSpace hw (by decide)
  cases y with
  | nil => simp [scanExponent, w1, w2]
  | cons c r =>
    simp only [List.cons_append, scanExponent]
    rw [scanSign_append hw, scanDigits_append hw]
    split
    · split <;> rfl
    · rfl

theorem scanDecimal_append {w : Char} (hw : isSpace w = true) (isNeg : Bool)
    (y t : List Char) :
    scanDecimal isNeg (y ++ w :: t) =
      ((scanDecimal isNeg y).1, (scanDecimal isNeg y).2 ++ w :: t) := by
  unfold scanDecimal
  simp only
  rw [scanDigits_append hw, scanFraction_append hw]
  simp only
  split
  · rfl
  · rw [scanExponent_append hw]
    simp only
    split <;> rfl

theorem scanHexDigits_append {w : Char} (hw : isSpace w = true) (y t : List Char) (acc : Nat) :
    scanHexDigits (y ++ w :: t) acc =
      ((scanHexDigits y acc).1, (scanHexDigits y acc).2.1,
        (scanHexDigits y acc).2.2 ++ w :: t) := by
  have w1 := hexDigit_of_isSpace hw
  induction y generalizing acc with
  | nil => simp [scanHexDigits, w1]
  | cons c r ih =>
    simp only [List.cons_append, scanHexDigits]
    split
    · simp only [List.append_eq]
      rw [ih]
    · rfl

theorem scanHexFraction_append {w : Char} (hw : isSpace w = true) (y t : List Char)
    (acc : Nat) :
    scanHexFraction (y ++ w :: t) acc =
      ((scanHexFraction y acc).1, (scanHexFraction y acc).2.1,
        (scanHexFraction y acc).2.2 ++ w :: t) := by
  have w1 : w ≠ '.' := ne_of_isSpace hw (by decide)
  cases y with
  | nil => simp [scanHexFraction, w1]
  | cons c r =>
    simp only [List.cons_append, scanHexFraction]
    split
    · exact scanHexDigits_append hw r t acc
    · rfl

theorem scanBinaryExponent_append {w : Char} (hw : isSpace w = true) (y t : List Char) :
    scanBinaryExponent (y ++ w :: t) =
      ((scanBinaryExponent y).1, (scanBinaryExponent y).2 ++ w :: t) := by
  have w1 : w ≠ 'p' := ne_of_isSpace hw (by decide)
  have w2 : w ≠ 'P' := ne_of_isSpace hw (by decide)
  cases y with
  | nil => simp [scanBinaryExponent, w1, w2]
  | cons c r =>
    simp only [List.cons_append, scanBinaryExponent]
    rw [scanSign_append hw, scanDigits_append hw]
    split
    · split <;> rfl
    · rfl

theorem scanHex_append {w : Char} (hw : isSpace w = true) (isNeg : Bool) (y t : List Char) :
    scanHex isNeg (y ++ w :: t) = ((scanHex isNeg y).1, (scanHex isNeg y).2 ++ w :: t) := by
  unfold scanHex
  simp only
  rw [scanHexDigits_append hw, scanHexFraction_append hw]
  simp only
  split
  · rfl
  · rw [scanBinaryExponent_append hw]
    simp only
    split <;> rfl

theorem scanWord_append {w : Char} (hw : isSpace w = true) (word : List Char)
    (hword : ∀ l ∈ word, 65 ≤ l.toNat) (y t : List Char) :
    scanWord word (y ++ w :: t) = ((scanWord word y).1, (scanWord word y).2 ++ w :: t) := by
  induction word generalizing y with
  | nil => simp [scanWord]
  | cons l ls ih =>
    have hl := isLetter_of_isSpace hw (hword l (List.mem_cons_self _ _))
    cases y with
    | nil => simp [scanWord, hl]
    | cons c r =>
      simp only [List.cons_append, scanWord]
      split
      · simp only [List.append_eq]
        rw [ih (fun l hl => hword l (List.mem_cons_of_mem _ hl))]
      · rfl

theorem scanInfinity_append {w : Char} (hw : isSpace w = true) (isNeg : Bool)
    (y t : List Char) :
    scanInfinity isNeg (y ++ w :: t) =
      ((scanInfinity isNeg y).1, (scanInfinity isNeg y).2 ++ w :: t) := by
  unfold scanInfinity
  simp only
  rw [scanWord_append hw _ (by decide)]
  simp only
  split
  · rfl
  · rw [scanWord_append hw _ (by decide)]
    simp only
    split <;> rfl

theorem skipNChars_append {w : Char} (hw : isSpace w = true) (y t : List Char) :
    skipNChars (y ++ w :: t) = skipNChars y ++ w :: t := by
  have w1 := isNChar_of_isSpace hw
  induction y with
  | nil => simp [skipNChars, w1]
  | cons c r ih =>
    simp only [List.cons_append, skipNChars]
    split
    · exact ih
    · rfl

theorem scanNanTail_append {w : Char} (hw : isSpace w = true) (y t : List Char) :
    scanNanTail (y ++ w :: t) = ((scanNanTail y).1, (scanNanTail y).2 ++ w :: t) := by
  have w1 : w ≠ '(' := ne_of_isSpace hw (by decide)
  have w2 : w ≠ ')' := ne_of_isSpace hw (by decide)
  cases y with
  | nil => simp [scanNanTail, w1]
  | cons c r =>
    simp only [List.cons_append, scanNanTail]
    split
    · rw [skipNChars_append hw]
      cases hs : skipNChars r with
      | nil => simp [w2]
      | cons d r2 =>
        simp only [List.cons_append]
        split <;> rfl
    · rfl

theorem scanNan_append {w : Char} (hw : isSpace w = true) (y t : List Char) :
    scanNan (y ++ w :: t) = ((scanNan y).1, (scanNan y).2 ++ w :: t) := by
  unfold scanNan
  simp only
  rw [scanWord_append hw _ (by decide)]
  simp only
  split
  · rfl
  · rw [scanNanTail_append hw]
    simp only
    split <;> rfl

theorem scanDecimal_nil (isNeg : Bool) : scanDecimal isNeg [] = (none, []) := by
  simp [scanDecimal, scanDigits, scanFraction]

theorem scanNumber_append {w : Char} (hw : isSpace w = true) (isNeg : Bool) (y t : List Char) :
    scanNumber isNeg (y ++ w :: t) =
      ((scanNumber isNeg y).1, (scanNumber isNeg y).2 ++ w :: t) := by
  have wi := isLetter_of_isSpace (l := 'i') hw (by decide)
  have wn := isLetter_of_isSpace (l := 'n') hw (by decide)
  have wx := isLetter_of_isSpace (l := 'x') hw (by decide)
  have w0 : w ≠ '0' := ne_of_isSpace hw (by decide)
  cases y with
  | nil =>
    have h := scanDecimal_append hw isNeg [] t
    rw [scanDecimal_nil] at h
    simp only [List.nil_append] at h
    simp [scanNumber, wi, wn, w0, h]
  | cons c r =>
    simp only [List.cons_append, scanNumber]
    split
    · exact scanInfinity_append hw isNeg (c :: r) t
    · split
      · exact scanNan_append hw (c :: r) t
      · split
        · cases r with
          | nil =>
            simp only [List.nil_append, wx]
            exact scanDecimal_append hw isNeg [c] t
          | cons x r2 =>
            simp only [List.cons_append]
            split
            · exact scanHex_append hw isNeg r2 t
            · exact scanDecimal_append hw isNeg (c :: x :: r2) t
        · exact scanDecimal_append hw isNeg (c :: r) t

theorem numericFree_iff {c : Char} (h : numericFree c = true) :
    isDigit c = false ∧ c ≠ '-' ∧ c ≠ '+' ∧ c ≠ '.' ∧ c ≠ '/' ∧ isLetter 'i' c = false ∧
      isLetter 'n' c = false := by
  simp only [numericFree, Bool.and_eq_true, Bool.not_eq_true', bne_iff_ne] at h
  obtain ⟨⟨⟨⟨⟨⟨h1, h2⟩, h3⟩, h4⟩, h5⟩, h6⟩, h7⟩ := h
  exact ⟨h1, h2, h3, h4, h5, h6, h7⟩

theorem inert_iff {c : Char} (h : inert c = true) : isSpace c = false ∧ numericFree c = true := by
  simpa [inert] using h

theorem skipSpace_resumes {w k : Char} {rest : List Char} (hw : isSpace w = true) (hk : inert k = true) {x y : List Char}
    (h : Resumes w k rest x y) : Resumes w k rest (skipSpace x) (skipSpace y) := by
  have hks := (inert_iff hk).1
  rcases h with h | ⟨hy, hx⟩
  · subst h
    induction y with
    | nil =>
      right
      simp [skipSpace, hw, hks]
    | cons c r ih =>
      simp only [List.cons_append, skipSpace]
      split
      · exact ih
      · left; rfl
  · subst hy hx
    right
    simp [skipSpace, hks]

theorem scanSign_inert {k : Char} (hk : inert k = true) (rest : List Char) :
    scanSign (k :: rest) = (false, k :: rest) := by
  obtain ⟨-, k1, k2, -⟩ := numericFree_iff (inert_iff hk).2
  simp [scanSign, k1, k2]

theorem scanDigits_inert {k : Char} (hk : inert k = true) (rest : List Char) (acc : Nat) :
    scanDigits (k :: rest) acc = (acc, 0, k :: rest) := by
  obtain ⟨k1, -⟩ := numericFree_iff (inert_iff hk).2
  simp [scanDigits, k1]

/-- An inert character starts no number: the conversion fails and reads nothing. -/
theorem scanNumber_inert {k : Char} (hk : inert k = true) (isNeg : Bool) (rest : List Char) :
    scanNumber isNeg (k :: rest) = (none, k :: rest) := by
  obtain ⟨k1, -, -, k4, -, k6, k7⟩ := numericFree_iff (inert_iff hk).2
  have k0 : k ≠ '0' := by
    intro h
    rw [h] at k1
    exact absurd k1 (by decide)
  simp [scanNumber, k6, k7, k0, scanDecimal, scanDigits, k1, scanFraction, k4]

theorem scanFloat_resumes {w k : Char} {rest : List Char} (hw : isSpace w = true)
    (hk : inert k = true) {x y : List Char} (h : Resumes w k rest x y) :
    (scanFloat x).1 = (scanFloat y).1 ∧ Resumes w k rest (scanFloat x).2 (scanFloat y).2 := by
  have hs := skipSpace_resumes hw hk h
  unfold scanFloat
  rcases hs with hs | ⟨hy, hx⟩
  · rw [hs, scanSign_append hw]
    simp only
    rw [scanNumber_append hw]
    exact ⟨rfl, Or.inl rfl⟩
  · rw [hy, hx, scanSign_inert hk]
    simp only [scanNumber_inert hk]
    exact ⟨rfl, Or.inr ⟨rfl, rfl⟩⟩

theorem scanInt_resumes {w k : Char} {rest : List Char} (hw : isSpace w = true)
    (hk : inert k = true) {x y : List Char} (h : Resumes w k rest x y) :
    (scanInt x).1 = (scanInt y).1 ∧ Resumes w k rest (scanInt x).2 (scanInt y).2 := by
  have hs := skipSpace_resumes hw hk h
  unfold scanInt
  rcases hs with hs | ⟨hy, hx⟩
  · rw [hs, scanSign_append hw]
    simp only
    rw [scanDigits_append hw]
    simp only
    split
    · exact ⟨rfl, Or.inl rfl⟩
    · exact ⟨rfl, Or.inl rfl⟩
  · rw [hy, hx, scanSign_inert hk]
    simp only [scanDigits_inert hk]
    exact ⟨rfl, Or.inr ⟨rfl, rfl⟩⟩

/-- A run of `fscanf` over a format whose literals are slashes assigns the same values in the
longer file and leaves related streams. -/
theorem fscanf_resumes {w k : Char} {rest : List Char} (hw : isSpace w = true) (hk : inert k = true) (ds : List Directive)
    (hds : ∀ c, Directive.lit c ∈ ds → c = '/') {x y : List Char} (fs : List Flt)
    (ns : List Int) (h : Resumes w k rest x y) :
    (fscanf ds x fs ns).1 = (fscanf ds y fs ns).1 ∧
      (fscanf ds x fs ns).2.1 = (fscanf ds y fs ns).2.1 ∧
      Resumes w k rest (fscanf ds x fs ns).2.2 (fscanf ds y fs ns).2.2 := by
  induction ds generalizing x y fs ns with
  | nil => exact ⟨rfl, rfl, h⟩
  | cons dir ds ih =>
    have hds1 : ∀ c, Directive.lit c ∈ ds → c = '/' :=
      fun c hc => hds c (List.mem_cons_of_mem _ hc)
    cases dir with
    | ws =>
      simp only [fscanf]
      exact ih hds1 fs ns (skipSpace_resumes hw hk h)
    | lit c =>
      have hc : c = '/' := hds c (List.mem_cons_self _ _)
      subst hc
      have w1 : w ≠ '/' := ne_of_isSpace hw (by decide)
      obtain ⟨-, -, -, -, k1, -⟩ := numericFree_iff (inert_iff hk).2
      rcases h with h | ⟨hy, hx⟩
      · subst h
        cases y with
        | nil => simp [fscanf, w1, Resumes]
        | cons c1 r =>
          simp only [List.cons_append, fscanf]
          split
          · exact ih hds1 fs ns (Or.inl rfl)
          · exact ⟨rfl, rfl, Or.inl rfl⟩
      · subst hy hx
        simp [fscanf, k1, Resumes]
    | f =>
      obtain ⟨v1, v2⟩ := scanFloat_resumes hw hk h
      simp only [fscanf]
      rw [v1]
      split
      · exact ih hds1 _ ns v2
      · exact ⟨rfl, rfl, v2⟩
    | d =>
      obtain ⟨v1, v2⟩ := scanInt_resumes hw hk h
      simp only [fscanf]
      rw [v1]
      split
      · exact ih hds1 fs _ v2
      · exact ⟨rfl, rfl, v2⟩

theorem takeToken_append {w : Char} (hw : isSpace w = true) (y t : List Char) :
    takeToken (y ++ w :: t) = ((takeToken y).1, (takeToken y).2 ++ w :: t) := by
  induction y with
  | nil => simp [takeToken, hw]
  | cons c r ih =>
    simp only [List.cons_append, takeToken]
    split
    · rfl
    · have ih1 : takeToken (r.append (w :: t)) = _ := ih
      rw [ih1]

theorem scanString_skipSpace (s : List Char) : scanString (skipSpace s) = scanString s := by
  have h : skipSpace (skipSpace s) = skipSpace s := by
    induction s with
    | nil => rfl
    | cons c r ih =>
      simp only [skipSpace]
      split
      · exact ih
      · rename_i hc
        simp only [skipSpace, hc]
        rfl
  unfold scanString
  rw [h]

theorem scanString_resumes {w k : Char} {rest : List Char} (hw : isSpace w = true) (hk : inert k = true) {x y : List Char}
    (h : Resumes w k rest x y) :
    (scanString y = none ∧ skipSpace x = k :: rest) ∨
    (∃ buf r, scanString y = some (buf, r) ∧ scanString x = some (buf, r ++ w :: k :: rest)) := by
  have hs := skipSpace_resumes hw hk h
  rcases hs with hs | ⟨hy, hx⟩
  · cases hy : skipSpace y with
    | nil =>
      rw [hy] at hs
      have := skipSpace_head x w (k :: rest) hs
      rw [hw] at this
      exact absurd this (by simp)
    | cons c r =>
      right
      rw [hy] at hs
      refine ⟨(takeToken (c :: r)).1, (takeToken (c :: r)).2, ?_, ?_⟩
      · unfold scanString; rw [hy]
      · unfold scanString
        rw [hs]
        simp only [List.cons_append]
        have := takeToken_append hw (c :: r) (k :: rest)
        simp only [List.cons_append] at this
        rw [this]
  · left
    refine ⟨?_, hx⟩
    unfold scanString; rw [hy]

theorem scanRecords_skipSpace (fuel : Nat) (s : List Char) :
    scanRecords fuel (skipSpace s) = scanRecords fuel s := by
  cases fuel with
  | zero => rfl
  | succ n => simp only [scanRecords, scanString_skipSpace]

theorem formats_slash :
    (∀ c, Directive.lit c ∈ vertexFormat → c = '/') ∧
      (∀ c, Directive.lit c ∈ faceFormat → c = '/') := by
  constructor
  · intro c hc
    simp [vertexFormat] at hc
  · intro c hc
    simp [faceFormat] at hc
    exact hc

theorem scanRecords_resumes {w k : Char} {rest : List Char} (hw : isSpace w = true) (hk : inert k = true) (n : Nat) :
    ∀ (f1 f3 : Nat) (x y : List Char), y.length < n → x.length < f1 →
      (w :: k :: rest).length < f3 → Resumes w k rest x y →
      scanRecords f1 x = scanRecords n y ++ scanRecords f3 (w :: k :: rest) := by
  induction n with
  | zero => intro f1 f3 x y hy; omega
  | succ n ih =>
    intro f1 f3 x y hy hx hp h
    cases f1 with
    | zero => omega
    | succ m =>
      rcases scanString_resumes hw hk h with ⟨ey, ex⟩ | ⟨buf, r, ey, ex⟩
      · have e1 : scanRecords (n + 1) y = [] := by simp only [scanRecords, ey]
        have e2 : skipSpace (w :: k :: rest) = k :: rest := by
          simp [skipSpace, hw, (inert_iff hk).1]
        rw [e1, List.nil_append, ← scanRecords_skipSpace (m + 1) x, ex,
          ← scanRecords_skipSpace f3 (w :: k :: rest), e2]
        apply scanRecords_fuel
        · have := skipSpace_length_le x
          rw [ex] at this
          omega
        · simp only [List.length_cons] at hp ⊢
          omega
      · have ly := scanString_length_lt y buf r ey
        have lx := scanString_length_lt x buf _ ex
        have hr : Resumes w k rest (r ++ w :: k :: rest) r := Or.inl rfl
        have hv := fscanf_resumes hw hk vertexFormat formats_slash.1 [] [] hr
        have hf := fscanf_resumes hw hk faceFormat formats_slash.2 [] [] hr
        have lv1 := fscanf_length_le vertexFormat r [] []
        have lv2 := fscanf_length_le vertexFormat (r ++ w :: k :: rest) [] []
        have lf1 := fscanf_length_le faceFormat r [] []
        have lf2 := fscanf_length_le faceFormat (r ++ w :: k :: rest) [] []
        simp only [scanRecords, ey, ex]
        split
        · rw [hv.1, ih m f3 _ _ (by omega) (by omega) hp hv.2.2]
          rfl
        · split
          · rw [hv.1, ih m f3 _ _ (by omega) (by omega) hp hv.2.2]
            rfl
          · split
            · rw [hf.2.1, ih m f3 _ _ (by omega) (by omega) hp hf.2.2]
              rfl
            · exact ih m f3 _ _ (by omega) (by omega) hp (Or.inl rfl)

/-- Whatever precedes it, the text from a white-space character followed by an inert character
on is read as if the file started there: the records of the whole file are the records of the
part before followed by the records of that text. -/
theorem fileRecords_append {w k : Char} {rest : List Char} (hw : isSpace w = true) (hk : inert k = true) (pre : List Char) :
    fileRecords (pre ++ w :: k :: rest) = fileRecords pre ++ fileRecords (w :: k :: rest) :=
  scanRecords_resumes hw hk (pre.length + 1) _ _ _ _ (Nat.lt_succ_self _) (Nat.lt_succ_self _)
    (Nat.lt_succ_self _) (Or.inl rfl)

theorem addRecords_append (u : Uninit) (n : Nat) (o : OBJObject) (rs1 rs2 : List Record) :
    OBJObject.addRecords u n o (rs1 ++ rs2) =
      OBJObject.addRecords u (n + rs1.length) (OBJObject.addRecords u n o rs1) rs2 := by
  induction rs1 generalizing n o with
  | nil => rfl
  | cons r rs ih =>
    simp only [List.cons_append, OBJObject.addRecords, List.length_cons]
    have ih1 := ih (n + 1) (OBJObject.addRecord u n o r)
    rw [show n + (rs.length + 1) = n + 1 + rs.length by omega]
    exact ih1

theorem addRecords_indices_length (u : Uninit) (n : Nat) (o : OBJObject) (rs : List Record) :
    (OBJObject.addRecords u n o rs).indices.length = o.indices.length + 3 * faceCount rs := by
  induction rs generalizing n o with
  | nil => simp [OBJObject.addRecords, faceCount]
  | cons r rs ih =>
    simp only [OBJObject.addRecords]
    rw [ih]
    cases r <;>
      simp [OBJObject.addRecord, updateBounds_indices, faceCount, Record.isFace,
        List.countP_cons]
    omega

/-- A line that starts no record and is inserted before the start of a line leaves the records
unchanged, when it begins with an inert character (such as `#`) and holds no token `v`, `vn` or
`f`. -/
theorem fileRecords_insert_line {w1 k1 w k : Char} {line rest : List Char}
    (hw1 : isSpace w1 = true) (hk1 : inert k1 = true) (hw : isSpace w = true)
    (hk : inert k = true) (hline : fileRecords (w1 :: k1 :: line) = []) (pre : List Char) :
    fileRecords (pre ++ (w1 :: k1 :: line) ++ w :: k :: rest) =
      fileRecords (pre ++ w :: k :: rest) := by
  rw [fileRecords_append hw hk, fileRecords_append hw hk pre, fileRecords_append hw1 hk1 pre,
    hline, List.append_nil]

/-! ## Lines that are not records -/

/-- Claim C13 fails on the code at `commentedFile`, which is `plainFile` with the comment line
`# v 4 5 6` inserted at the top: the tokens after `#` are read as a vertex line, so the file
gives two vertices instead of one and the upper x bound 4 instead of 1. -/
theorem comment_line_with_keyword :
    commentedFile.toList = "# v 4 5 6\n".toList ++ plainFile.toList ∧
      fileRecords plainFile.toList =
        [.v [.fin 1, .fin 2, .fin 3], .vn [.fin 0, .fin 0, .fin 1],
         .vn [.fin 0, .fin 0, .fin 1]] ∧
      fileRecords commentedFile.toList =
        [.v [.fin 4, .fin 5, .fin 6], .v [.fin 1, .fin 2, .fin 3],
         .vn [.fin 0, .fin 0, .fin 1], .vn [.fin 0, .fin 0, .fin 1]] ∧
      OBJObject.parse zeroUninit zeroMemory (some plainFile.toList) = some (parsed plainFile) ∧
      OBJObject.parse zeroUninit zeroMemory (some commentedFile.toList) =
        some (parsed commentedFile) ∧
      (parsed plainFile).vertices.length = 1 ∧ (parsed commentedFile).vertices.length = 2 ∧
      (parsed plainFile).maxX = .fin 1 ∧ (parsed commentedFile).maxX = .fin 4 := by
  decide!

/-! ## Records that do not match -/

theorem fillVec_keeps (init : Vec3) (fields : List Flt) : keepsFields fields (fillVec init fields) := by
  match fields with
  | [] => simp [keepsFields]
  | [a] => simp [keepsFields, fillVec]
  | [a, b] => simp [keepsFields, fillVec]
  | a :: b :: c :: r => simp [keepsFields, fillVec]

theorem faceIndex_assigned (init : Nat → Nat) (fields : List Int) (j : Nat) (m : Int)
    (h : fields.get? (2 * j) = some m) : faceIndex init fields j = assignedIndex m := by
  simp only [faceIndex, faceVertex, h, assignedIndex]

theorem faceIndex_keeps (init : Nat → Nat) (fields : List Int) :
    keepsIndices fields
      (faceIndex init fields 0, faceIndex init fields 1, faceIndex init fields 2) :=
  ⟨fun m h => faceIndex_assigned init fields 0 m h,
   fun m h => faceIndex_assigned init fields 1 m h,
   fun m h => faceIndex_assigned init fields 2 m h⟩

/-- Every record leaves what `fscanf` assigned in the vectors: one vertex per vertex line, one
normal per normal line and three indices per face line, in the order of the file. -/
theorem addRecords_keeps (u : Uninit) (n : Nat) (o : OBJObject) (rs : List Record) :
    (∃ vs, (OBJObject.addRecords u n o rs).vertices = o.vertices ++ vs ∧
      List.Forall₂ keepsFields (rs.filterMap Record.vertexFields) vs) ∧
    (∃ ns, (OBJObject.addRecords u n o rs).normals = o.normals ++ ns ∧
      List.Forall₂ keepsFields (rs.filterMap Record.normalFields) ns) ∧
    (∃ ts : List (Nat × Nat × Nat),
      (OBJObject.addRecords u n o rs).indices =
        o.indices ++ ts.flatMap (fun t => [t.1, t.2.1, t.2.2]) ∧
      List.Forall₂ keepsIndices (rs.filterMap Record.faceFields) ts) := by
  induction rs generalizing n o with
  | nil =>
    exact ⟨⟨[], by simp [OBJObject.addRecords], List.Forall₂.nil⟩,
      ⟨[], by simp [OBJObject.addRecords], List.Forall₂.nil⟩,
      ⟨[], by simp [OBJObject.addRecords], List.Forall₂.nil⟩⟩
  | cons r rs ih =>
    obtain ⟨⟨vs, hv, fv⟩, ⟨ns, hn, fn⟩, ⟨ts, ht, ft⟩⟩ := ih (n + 1) (OBJObject.addRecord u n o r)
    simp only [OBJObject.addRecords]
    cases r with
    | v fields =>
      have e1 : (OBJObject.addRecord u n o (.v fields)).vertices =
          o.vertices ++ [fillVec (u.vec n) fields] := rfl
      have e2 : (OBJObject.addRecord u n o (.v fields)).normals = o.normals := rfl
      have e3 : (OBJObject.addRecord u n o (.v fields)).indices = o.indices := rfl
      rw [e1] at hv
      rw [e2] at hn
      rw [e3] at ht
      refine ⟨⟨fillVec (u.vec n) fields :: vs, by rw [hv]; simp, ?_⟩, ⟨ns, hn, ?_⟩,
        ⟨ts, ht, ?_⟩⟩
      · simp only [List.filterMap_cons, Record.vertexFields]
        exact List.Forall₂.cons (fillVec_keeps _ _) fv
      · simpa [List.filterMap_cons, Record.normalFields] using fn
      · simpa [List.filterMap_cons, Record.faceFields] using ft
    | vn fields =>
      have e1 : (OBJObject.addRecord u n o (.vn fields)).vertices = o.vertices := rfl
      have e2 : (OBJObject.addRecord u n o (.vn fields)).normals =
          o.normals ++ [fillVec (u.vec n) fields] := rfl
      have e3 : (OBJObject.addRecord u n o (.vn fields)).indices = o.indices := rfl
      rw [e1] at hv
      rw [e2] at hn
      rw [e3] at ht
      refine ⟨⟨vs, hv, ?_⟩, ⟨fillVec (u.vec n) fields :: ns, by rw [hn]; simp, ?_⟩,
        ⟨ts, ht, ?_⟩⟩
      · simpa [List.filterMap_cons, Record.vertexFields] using fv
      · simp only [List.filterMap_cons, Record.normalFields]
        exact List.Forall₂.cons (fillVec_keeps _ _) fn
      · simpa [List.filterMap_cons, Record.faceFields] using ft
    | f fields =>
      have e1 : (OBJObject.addRecord u n o (.f fields)).vertices = o.vertices := rfl
      have e2 : (OBJObject.addRecord u n o (.f fields)).normals = o.normals := rfl
      have e3 : (OBJObject.addRecord u n o (.f fields)).indices =
          o.indices ++ [faceIndex (u.faces_v n) fields 0, faceIndex (u.faces_v n) fields 1,
            faceIndex (u.faces_v n) fields 2] := rfl
      rw [e1] at hv
      rw [e2] at hn
      rw [e3] at ht
      refine ⟨⟨vs, hv, ?_⟩, ⟨ns, hn, ?_⟩,
        ⟨(faceIndex (u.faces_v n) fields 0, faceIndex (u.faces_v n) fields 1,
            faceIndex (u.faces_v n) fields 2) :: ts, by rw [ht]; simp, ?_⟩⟩
      · simpa [List.filterMap_cons, Record.vertexFields] using fv
      · simpa [List.filterMap_cons, Record.normalFields] using fn
      · simp only [List.filterMap_cons, Record.faceFields]
        exact List.Forall₂.cons (faceIndex_keeps _ _) ft

theorem Flt.lt_trans {a b c : Flt} (h1 : Flt.lt a b = true) (h2 : Flt.lt b c = true) :
    Flt.lt a c = true := by
  cases a <;> cases b <;> cases c <;> simp_all [Flt.lt]
  exact h1.trans h2

theorem Flt.lt_irrefl (a : Flt) : Flt.lt a a = false := by
  cases a <;> simp [Flt.lt]

theorem Flt.lt_false_of_lt {w v m : Flt} (h1 : Flt.lt w m = false) (h2 : Flt.lt v m = true) :
    Flt.lt w v = false := by
  by_contra h
  have h3 : Flt.lt w v = true := by simpa using h
  rw [Flt.lt_trans h3 h2] at h1
  exact absurd h1 (by simp)

theorem Flt.lt_false_of_gt {w v m : Flt} (h1 : Flt.lt m w = false) (h2 : Flt.lt m v = true) :
    Flt.lt v w = false := by
  by_contra h
  have h3 : Flt.lt v w = true := by simpa using h
  rw [Flt.lt_trans h2 h3] at h1
  exact absurd h1 (by simp)

theorem boundsTakeIn_push (o : OBJObject) (ax : Axis) (v : Vec3) (h : o.boundsTakeIn ax) :
    (OBJObject.updateBounds { o with vertices := o.vertices ++ [v] } v).boundsTakeIn ax := by
  have hmin := updateBounds_minOn { o with vertices := o.vertices ++ [v] } v ax
  have hmax := updateBounds_maxOn { o with vertices := o.vertices ++ [v] } v ax
  have hvs : (OBJObject.updateBounds { o with vertices := o.vertices ++ [v] } v).vertices =
      o.vertices ++ [v] := rfl
  have hmin0 : ({ o with vertices := o.vertices ++ [v] } : OBJObject).minOn ax = o.minOn ax := by
    cases ax <;> rfl
  have hmax0 : ({ o with vertices := o.vertices ++ [v] } : OBJObject).maxOn ax = o.maxOn ax := by
    cases ax <;> rfl
  rw [hmin0] at hmin
  rw [hmax0] at hmax
  obtain ⟨hall, hlo, hhi⟩ := h
  unfold OBJObject.boundsTakeIn
  rw [hvs, hmin, hmax]
  refine ⟨?_, ?_, ?_⟩
  · intro w hw
    rcases List.mem_append.1 hw with hw | hw
    · obtain ⟨h1, h2⟩ := hall w hw
      constructor
      · split
        · rename_i hlt
          exact Flt.lt_false_of_lt h1 hlt
        · exact h1
      · split
        · rename_i hgt
          exact Flt.lt_false_of_gt h2 hgt
        · exact h2
    · rw [List.mem_singleton.1 hw]
      constructor
      · split
        · exact Flt.lt_irrefl _
        · rename_i hlt
          simpa using hlt
      · split
        · exact Flt.lt_irrefl _
        · rename_i hgt
          simpa [Flt.gt] using hgt
  · split
    · exact Or.inr ⟨v, by simp, rfl⟩
    · rcases hlo with h | ⟨w, hw, e⟩
      · exact Or.inl h
      · exact Or.inr ⟨w, by simp [hw], e⟩
  · split
    · exact Or.inr ⟨v, by simp, rfl⟩
    · rcases hhi with h | ⟨w, hw, e⟩
      · exact Or.inl h
      · exact Or.inr ⟨w, by simp [hw], e⟩

theorem boundsTakeIn_addRecord (u : Uninit) (n : Nat) (o : OBJObject) (r : Record) (ax : Axis)
    (h : o.boundsTakeIn ax) : (OBJObject.addRecord u n o r).boundsTakeIn ax := by
  cases r with
  | v fields => exact boundsTakeIn_push o ax _ h
  | vn fields =>
    have e1 : (OBJObject.addRecord u n o (.vn fields)).vertices = o.vertices := rfl
    have e2 : (OBJObject.addRecord u n o (.vn fields)).minOn ax = o.minOn ax := by
      cases ax <;> rfl
    have e3 : (OBJObject.addRecord u n o (.vn fields)).maxOn ax = o.maxOn ax := by
      cases ax <;> rfl
    unfold OBJObject.boundsTakeIn
    rw [e1, e2, e3]
    exact h
  | f fields =>
    have e1 : (OBJObject.addRecord u n o (.f fields)).vertices = o.vertices := rfl
    have e2 : (OBJObject.addRecord u n o (.f fields)).minOn ax = o.minOn ax := by
      cases ax <;> rfl
    have e3 : (OBJObject.addRecord u n o (.f fields)).maxOn ax = o.maxOn ax := by
      cases ax <;> rfl
    unfold OBJObject.boundsTakeIn
    rw [e1, e2, e3]
    exact h

theorem boundsTakeIn_addRecords (u : Uninit) (n : Nat) (o : OBJObject) (rs : List Record)
    (ax : Axis) (h : o.boundsTakeIn ax) : (OBJObject.addRecords u n o rs).boundsTakeIn ax := by
  induction rs generalizing n o with
  | nil => exact h
  | cons r rs ih =>
    simp only [OBJObject.addRecords]
    exact ih _ _ (boundsTakeIn_addRecord u n o r ax h)

/-- The bounds that the reading loop leaves take every vertex in, whether its line matched or
not. -/
theorem boundsTakeIn_readFile (u : Uninit) (o : OBJObject) (s : List Char) (ax : Axis)
    (hv : o.vertices = []) : (OBJObject.readFile u o.resetBounds s).boundsTakeIn ax := by
  unfold OBJObject.readFile
  apply boundsTakeIn_addRecords
  refine ⟨?_, Or.inl ?_, Or.inl ?_⟩
  · intro v hmem
    have : o.resetBounds.vertices = [] := hv
    rw [this] at hmem
    simp at hmem
  · cases ax <;> rfl
  · cases ax <;> rfl

/-- Counterexample to C14: the first line `v 1 2` of `brokenFile` lacks its third number;
`parse` still appends a vertex for it (2 vertices, against 1 for `soundFile`, the same file
without that line) and takes it into the bounds (lower x bound 1, against 3). -/
theorem malformed_record_counterexample :
    fileRecords brokenFile.toList =
        [.v [.fin 1, .fin 2], .v [.fin 3, .fin 4, .fin 5], .vn [.fin 0, .fin 0, .fin 1],
         .vn [.fin 0, .fin 0, .fin 1]] ∧
      OBJObject.parse zeroUninit zeroMemory (some brokenFile.toList) = some (parsed brokenFile) ∧
      OBJObject.parse zeroUninit zeroMemory (some soundFile.toList) = some (parsed soundFile) ∧
      (parsed brokenFile).vertices.length = 2 ∧ (parsed soundFile).vertices.length = 1 ∧
      (parsed brokenFile).containers.length = 2 ∧ (parsed soundFile).containers.length = 1 ∧
      (parsed brokenFile).minX = .fin 1 ∧ (parsed soundFile).minX = .fin 3 := by
  decide!

/-- Claim C14, amended: a vertex, normal or face line whose fields do not match is not skipped.
For every file, every vertex line appends one vertex, every normal line one normal and every
face line three indices, whether its fields matched or not; the appended vertex or normal keeps
the components that `fscanf` assigned before the mismatch and the appended indices keep the
position indices that it assigned, each minus one; the bounds that `parse` starts at the
infinities take every appended vertex in; and whatever text `pre` precedes it, the text from a
white-space character followed by an inert character (one that starts no number and is no
slash, such as the `v` or `f` of the next record) on is read as if the file started there: the
reading loop continues with its records from the state that `pre` left. -/
theorem malformed_record_kept (u : Uninit) (o : OBJObject) (pre rest : List Char) (w k : Char)
    (hfresh : o.fresh) (hw : isSpace w = true) (hk : inert k = true) :
    (∀ s, (OBJObject.readFile u o s).vertices.length = vertexCount (fileRecords s) ∧
      (OBJObject.readFile u o s).normals.length = normalCount (fileRecords s) ∧
      (OBJObject.readFile u o s).indices.length = 3 * faceCount (fileRecords s)) ∧
    (∀ s, List.Forall₂ keepsFields ((fileRecords s).filterMap Record.vertexFields)
        (OBJObject.readFile u o s).vertices ∧
      List.Forall₂ keepsFields ((fileRecords s).filterMap Record.normalFields)
        (OBJObject.readFile u o s).normals ∧
      ∃ ts : List (Nat × Nat × Nat),
        (OBJObject.readFile u o s).indices = ts.flatMap (fun t => [t.1, t.2.1, t.2.2]) ∧
        List.Forall₂ keepsIndices ((fileRecords s).filterMap Record.faceFields) ts) ∧
    (∀ s ax, (OBJObject.readFile u o.resetBounds s).boundsTakeIn ax) ∧
    fileRecords (pre ++ w :: k :: rest) = fileRecords pre ++ fileRecords (w :: k :: rest) ∧
    OBJObject.readFile u o (pre ++ w :: k :: rest) =
      OBJObject.addRecords u (fileRecords pre).length (OBJObject.readFile u o pre)
        (fileRecords (w :: k :: rest)) := by
  obtain ⟨-, hv, hn, hi⟩ := hfresh
  refine ⟨?_, ?_, fun s ax => boundsTakeIn_readFile u o s ax hv, fileRecords_append hw hk pre, ?_⟩
  · intro s
    unfold OBJObject.readFile
    rw [addRecords_vertices_length, addRecords_normals_length, addRecords_indices_length, hv, hn,
      hi]
    simp
  · intro s
    obtain ⟨⟨vs, e1, f1⟩, ⟨ns, e2, f2⟩, ⟨ts, e3, f3⟩⟩ := addRecords_keeps u 0 o (fileRecords s)
    rw [hv, List.nil_append] at e1
    rw [hn, List.nil_append] at e2
    rw [hi, List.nil_append] at e3
    unfold OBJObject.readFile
    rw [e1, e2, e3]
    exact ⟨f1, f2, ts, rfl, f3⟩
  · unfold OBJObject.readFile
    rw [fileRecords_append hw hk pre, addRecords_append, Nat.zero_add]

/-- Witness of the amended C14: `brokenFile` is `v 1 2` followed by a line feed and
`v 3 4 5 ...`; its records are the malformed record of the first line followed by the three
records of the rest, and the reading loop appends 2 vertices and 2 normals; the first vertex
keeps the assigned components 1 and 2, and the lower bound of x is 1, the x of that vertex. -/
theorem malformed_record_kept_witness :
    brokenFile.toList = "v 1 2".toList ++ '\n' :: 'v' :: " 3 4 5\nvn 0 0 1\nvn 0 0 1\n".toList ∧
      fileRecords "v 1 2".toList = [.v [.fin 1, .fin 2]] ∧
      fileRecords brokenFile.toList =
        fileRecords "v 1 2".toList ++ fileRecords ("\n".toList ++ soundFile.toList) ∧
      (OBJObject.readFile zeroUninit zeroMemory brokenFile.toList).vertices.length = 2 ∧
      (OBJObject.readFile zeroUninit zeroMemory brokenFile.toList).normals.length = 2 ∧
      (OBJObject.readFile zeroUninit zeroMemory brokenFile.toList).vertices =
        [⟨.fin 1, .fin 2, .fin 0⟩, ⟨.fin 3, .fin 4, .fin 5⟩] ∧
      (OBJObject.readFile zeroUninit zeroMemory.resetBounds brokenFile.toList).minX = .fin 1 ∧
      (OBJObject.readFile zeroUninit zeroMemory.resetBounds brokenFile.toList).boundsTakeIn .X :=
  have h := malformed_record_kept zeroUninit zeroMemory "v 1 2".toList
    " 3 4 5\nvn 0 0 1\nvn 0 0 1\n".toList '\n' 'v' ⟨rfl, rfl, rfl, rfl⟩ (by decide) (by decide)
  ⟨by decide, by decide!, h.2.2.2.1, (h.1 brokenFile.toList).1.trans (by decide!),
    (h.1 brokenFile.toList).2.1.trans (by decide!), by decide!, by decide!,
    h.2.2.1 brokenFile.toList .X⟩

/-! ## Turning -/

theorem Flt.mul_nan (a : Flt) : a * Flt.nan = Flt.nan := by
  show Flt.mul a .nan = .nan
  cases a <;> rfl

theorem Flt.nan_mul (a : Flt) : Flt.nan * a = Flt.nan := by
  show Flt.mul .nan a = .nan
  cases a <;> rfl

theorem Flt.nan_add (a : Flt) : Flt.nan + a = Flt.nan := by
  show Flt.add .nan a = .nan
  cases a <;> rfl

theorem Flt.add_nan (a : Flt) : a + Flt.nan = Flt.nan := by
  show Flt.add a .nan = .nan
  cases a <;> rfl

theorem Flt.nan_div (a : Flt) : Flt.nan / a = Flt.nan := by
  show Flt.div .nan a = .nan
  cases a <;> rfl

/-- The angle of a turn with a NaN frame time is NaN, whatever `glm::pi` is. -/
theorem turnAngle_nan (g : Glm) : g.turnAngle (.A .nan) = .nan := by
  show (TURN_SPEED * Flt.nan) / Flt.fin 180 * g.pi = .nan
  rw [Flt.mul_nan, Flt.nan_div, Flt.nan_mul]

/-- Each turning method stores what `glm::normalize` returns for the turned direction. -/
theorem turn_direction (g : Glm) (boundaries : Vec2) (o : OBJObject) (t : Turn) :
    (o.turn g boundaries t).currentDirection =
      g.normalize (g.rotated (g.turnAngle t) o.currentDirection) := by
  cases t <;> rfl

theorem turns_cons (g : Glm) (boundaries : Vec2) (o : OBJObject) (t : Turn) (ts : List Turn) :
    o.turns g boundaries (t :: ts) = (o.turn g boundaries t).turns g boundaries ts := rfl

theorem turns_nearUnit (g : Glm) (eps : ℚ) (boundaries : Vec2) (hn : g.NormalizeWithin eps)
    (hr : g.RotateWithin eps) (ts : List Turn) :
    ∀ o : OBJObject, o.currentDirection.nearUnit eps →
      (∀ t ∈ ts, (g.turnAngle t).isFinite = true) →
      (o.turns g boundaries ts).currentDirection.nearUnit eps := by
  induction ts with
  | nil => intro o ho _; exact ho
  | cons t ts ih =>
    intro o ho hfin
    rw [turns_cons]
    apply ih
    · rw [turn_direction]
      obtain ⟨h1, h2, h3⟩ := hr (g.turnAngle t) o.currentDirection
        (hfin t (List.mem_cons_self _ _)) ho
      exact hn _ h1 h2 h3
    · intro t1 ht1
      exact hfin t1 (List.mem_cons_of_mem _ ht1)

theorem nearUnit_start {eps : ℚ} (heps : 0 ≤ eps) :
    (⟨.fin 0, .fin 0, .fin 1⟩ : Vec3).nearUnit eps := by
  refine ⟨rfl, ?_⟩
  have : (⟨.fin 0, .fin 0, .fin 1⟩ : Vec3).normSq = 1 := by
    simp [Vec3.normSq, Flt.toRat]
  rw [this]
  simpa using heps

theorem propagatesNaN_direction (g : Glm) (hg : g.PropagatesNaN) (boundaries : Vec2)
    (o : OBJObject) :
    (o.turns g boundaries [.A .nan]).currentDirection.x = .nan := by
  obtain ⟨h1, h2, h3⟩ := hg
  show (o.turn g boundaries (.A .nan)).currentDirection.x = .nan
  rw [turn_direction, turnAngle_nan]
  apply h3
  show (g.mulVec _ _).x = .nan
  apply h2
  apply h1

theorem not_unitLength_of_nan (v : Vec3) (h : v.x = .nan) : ¬ v.unitLength := by
  rintro ⟨hf, -⟩
  simp [Vec3.isFinite, h, Flt.isFinite] at hf

theorem quarterGlm_propagatesNaN : quarterGlm.PropagatesNaN := by
  refine ⟨?_, ?_, ?_⟩
  · intro m axis
    show ((m.c0.x * Flt.nan + m.c1.x * Flt.fin 0) +
      (m.c2.x * Flt.neg Flt.nan + m.c3.x * Flt.fin 0)) = Flt.nan
    rw [Flt.mul_nan, Flt.nan_add, Flt.nan_add]
  · intro m v h
    show ((m.c0.x * v.x + m.c1.x * v.y) + (m.c2.x * v.z + m.c3.x * v.w)) = Flt.nan
    rw [h, Flt.nan_mul, Flt.nan_add, Flt.nan_add]
  · intro v h
    show v.x * (Flt.fin 1 / sqrtRef (dotRef v v)) = Flt.nan
    rw [h, Flt.nan_mul]

/-! ### Rounded squares -/

theorem round32_zero : round32 0 = .fin 0 := by decide!

theorem pow2_neg126_grid : pow2 (-126) = ((8388608 : ℤ) : ℚ) * pow2 (-126 - 23) := by
  rw [pow2_23 (-126)]; push_cast; ring

theorem rnd_pow2_neg126 : rnd (pow2 (-126)) = pow2 (-126) := by
  rw [pow2_neg126_grid]
  exact rnd_grid 8388608 (-126) (by norm_num) (by norm_num)

theorem pow2_neg252 : pow2 (-252) = pow2 (-126) * pow2 (-126) := by
  rw [← pow2_add]; norm_num

/-- The square of a rounded value is at most the square of the value, up to the relative error
and, in the subnormal range, `2 ^ -252`. -/
theorem rnd_sq_le (t : ℚ) : rnd t ^ 2 ≤ t ^ 2 * (1 + halfUlp) ^ 2 + pow2 (-252) := by
  have hp := pow2_pos (-252)
  have hu : (0 : ℚ) < halfUlp := by unfold halfUlp; norm_num
  rcases le_or_lt (pow2 (-126)) |t| with h | h
  · have e := rnd_error_rel h
    have h1 : |rnd t| ≤ |t| * (1 + halfUlp) := by
      have := abs_sub_abs_le_abs_sub (rnd t) t
      unfold halfUlp
      linarith
    have h2 : rnd t ^ 2 ≤ (|t| * (1 + halfUlp)) ^ 2 := by
      rw [← sq_abs (rnd t)]
      exact pow_le_pow_left₀ (abs_nonneg _) h1 2
    rw [mul_pow, sq_abs] at h2
    linarith
  · have h1 : |rnd t| ≤ pow2 (-126) := by
      rw [abs_lt] at h
      rw [abs_le]
      constructor
      · have := rnd_mono h.1.le
        rwa [rnd_neg, rnd_pow2_neg126] at this
      · have := rnd_mono h.2.le
        rwa [rnd_pow2_neg126] at this
    have h2 : rnd t ^ 2 ≤ pow2 (-126) ^ 2 := by
      rw [← sq_abs (rnd t)]
      exact pow_le_pow_left₀ (abs_nonneg _) h1 2
    rw [pow2_neg252]
    have : 0 ≤ t ^ 2 * (1 + halfUlp) ^ 2 := by positivity
    nlinarith

theorem rnd_sq_ge (t : ℚ) : t ^ 2 * (1 - halfUlp) ^ 2 - pow2 (-252) ≤ rnd t ^ 2 := by
  have hp := pow2_pos (-252)
  have hu : (0 : ℚ) < halfUlp := by unfold halfUlp; norm_num
  have hu1 : halfUlp < 1 := by unfold halfUlp; norm_num
  rcases le_or_lt (pow2 (-126)) |t| with h | h
  · have e := rnd_error_rel h
    have h1 : |t| * (1 - halfUlp) ≤ |rnd t| := by
      have := abs_sub_abs_le_abs_sub t (rnd t)
      rw [abs_sub_comm] at this
      unfold halfUlp
      linarith
    have h0 : 0 ≤ |t| * (1 - halfUlp) := mul_nonneg (abs_nonneg _) (by linarith)
    have h2 : (|t| * (1 - halfUlp)) ^ 2 ≤ rnd t ^ 2 := by
      rw [← sq_abs (rnd t)]
      exact pow_le_pow_left₀ h0 h1 2
    rw [mul_pow, sq_abs] at h2
    linarith
  · have h1 : t ^ 2 < pow2 (-126) ^ 2 := by
      rw [← sq_abs t]
      exact pow_lt_pow_left₀ h (abs_nonneg _) (by norm_num)
    have h2 : (1 - halfUlp) ^ 2 ≤ 1 := by
      have : 0 ≤ 1 - halfUlp := by linarith
      nlinarith
    have h3 : t ^ 2 * (1 - halfUlp) ^ 2 ≤ t ^ 2 := by
      have : 0 ≤ t ^ 2 := by positivity
      nlinarith
    rw [pow2_neg252]
    have : 0 ≤ rnd t ^ 2 := by positivity
    nlinarith

theorem pow2_neg252_le : pow2 (-252) ≤ 1 / 1000 := by
  have h1 : pow2 (-252) ≤ pow2 (-10) := pow2_le (by norm_num)
  have h2 : pow2 (-10) = 1 / 1024 := by rw [pow2_eq]; norm_num [zpow_neg]
  rw [h2] at h1
  linarith

theorem abs_le_of_sq_le_four {t : ℚ} (h : t ^ 2 ≤ 4) : |t| ≤ pow2 127 := by
  have h1 : |t| ≤ 2 := by
    rw [← abs_of_nonneg (show (0 : ℚ) ≤ 2 by norm_num)]
    exact sq_le_sq.1 (by linarith)
  have h2 : (pow2 1 : ℚ) ≤ pow2 127 := pow2_le (by norm_num)
  have h3 : pow2 1 = 2 := by rw [pow2_eq]; norm_num
  linarith

/-! ### The products of the example glm -/

theorem Flt.zero_mul_fin (a : ℚ) : Flt.fin 0 * Flt.fin a = Flt.fin 0 := by
  rw [Flt.mul_fin, zero_mul, round32_zero]

theorem Flt.one_mul_fin {a : ℚ} (h : |a| ≤ pow2 127) : Flt.fin 1 * Flt.fin a = Flt.fin (rnd a) := by
  rw [Flt.mul_fin, one_mul, round32_of_abs_le h]

theorem Flt.neg_one_mul_fin {a : ℚ} (h : |a| ≤ pow2 127) :
    Flt.fin (-1) * Flt.fin a = Flt.fin (-rnd a) := by
  rw [Flt.mul_fin, neg_one_mul, round32_neg, round32_of_abs_le h]
  rfl

theorem round32_rnd {a : ℚ} (h : |a| ≤ pow2 127) : round32 (rnd a) = .fin (rnd a) :=
  round32_idem (round32_of_abs_le h)

theorem round32_neg_rnd {a : ℚ} (h : |a| ≤ pow2 127) : round32 (-rnd a) = .fin (-rnd a) := by
  rw [round32_neg, round32_rnd h]; rfl

theorem Flt.zero_add_zero : Flt.fin 0 + Flt.fin 0 = Flt.fin 0 := by decide!

theorem Flt.rnd_add_zero {a : ℚ} (h : |a| ≤ pow2 127) :
    Flt.fin (rnd a) + Flt.fin 0 = Flt.fin (rnd a) := by
  rw [Flt.add_fin, add_zero, round32_rnd h]

theorem Flt.zero_add_rnd {a : ℚ} (h : |a| ≤ pow2 127) :
    Flt.fin 0 + Flt.fin (rnd a) = Flt.fin (rnd a) := by
  rw [Flt.add_fin, zero_add, round32_rnd h]

theorem Flt.neg_rnd_add_zero {a : ℚ} (h : |a| ≤ pow2 127) :
    Flt.fin (-rnd a) + Flt.fin 0 = Flt.fin (-rnd a) := by
  rw [Flt.add_fin, add_zero, round32_neg_rnd h]

theorem Flt.zero_add_neg_rnd {a : ℚ} (h : |a| ≤ pow2 127) :
    Flt.fin 0 + Flt.fin (-rnd a) = Flt.fin (-rnd a) := by
  rw [Flt.add_fin, zero_add, round32_neg_rnd h]

theorem mulMatRef_identity_left : mulMatRef Mat4.identity (rotationY (.fin 0) (.fin 1)) =
    rotationY (.fin 0) (.fin 1) := by decide!

theorem mulMatRef_identity_right : mulMatRef Mat4.identity (rotationY (.fin 0) (.fin (-1))) =
    rotationY (.fin 0) (.fin (-1)) := by decide!

/-- What the example glm hands to `glm::normalize` for a direction of numbers: the rounded
components, exchanged and signed by the quarter turn. -/
theorem quarterGlm_rotated (q a b c : ℚ) (ha : |a| ≤ pow2 127) (hb : |b| ≤ pow2 127)
    (hc : |c| ≤ pow2 127) :
    quarterGlm.rotated (.fin q) ⟨.fin a, .fin b, .fin c⟩ =
      if 0 < q then ⟨.fin (rnd c), .fin (rnd b), .fin (-rnd a)⟩
      else if q < 0 then ⟨.fin (-rnd c), .fin (rnd b), .fin (rnd a)⟩
      else ⟨.fin (rnd a), .fin (rnd b), .fin (rnd c)⟩ := by
  have e1 : Flt.neg (Flt.fin 1) = Flt.fin (-1) := rfl
  have e2 : Flt.neg (Flt.fin (-1)) = Flt.fin 1 := by
    show Flt.fin (- -1) = Flt.fin 1
    norm_num
  have e3 : Flt.fin 0 * Flt.fin 1 = Flt.fin 0 := Flt.zero_mul_fin 1
  unfold Glm.rotated
  show Vec3.ofVec4 (mulVecRef (quarterRotate Mat4.identity (.fin q)
    ⟨.fin 0, .fin 1, .fin 0⟩) ((⟨.fin a, .fin b, .fin c⟩ : Vec3).toVec4 (.fin 1))) = _
  unfold quarterRotate
  simp only
  split
  · rw [mulMatRef_identity_left]
    simp only [mulVecRef, rotationY, Vec3.toVec4, Vec3.ofVec4, e1, Flt.zero_mul_fin,
      Flt.one_mul_fin ha, Flt.one_mul_fin hb, Flt.one_mul_fin hc, Flt.neg_one_mul_fin ha,
      Flt.zero_add_zero, Flt.rnd_add_zero hb, Flt.rnd_add_zero hc, Flt.zero_add_rnd hb,
      Flt.zero_add_rnd hc, Flt.neg_rnd_add_zero ha]
  · split
    · rw [mulMatRef_identity_right]
      simp only [mulVecRef, rotationY, Vec3.toVec4, Vec3.ofVec4, e2, Flt.zero_mul_fin,
        Flt.one_mul_fin ha, Flt.one_mul_fin hb, Flt.neg_one_mul_fin hc,
        Flt.zero_add_zero, Flt.rnd_add_zero ha, Flt.rnd_add_zero hb, Flt.zero_add_rnd hb,
        Flt.neg_rnd_add_zero hc, Flt.zero_add_neg_rnd hc]
    · simp only [mulVecRef, Mat4.identity, Vec3.toVec4, Vec3.ofVec4, Flt.zero_mul_fin,
        Flt.one_mul_fin ha, Flt.one_mul_fin hb, Flt.one_mul_fin hc,
        Flt.zero_add_zero, Flt.rnd_add_zero ha, Flt.rnd_add_zero hb, Flt.rnd_add_zero hc,
        Flt.zero_add_rnd hb, Flt.zero_add_rnd hc]

theorem Vec3.exists_fin_of_isFinite {v : Vec3} (h : v.isFinite = true) :
    ∃ a b c : ℚ, v = ⟨.fin a, .fin b, .fin c⟩ := by
  obtain ⟨x, y, z⟩ := v
  simp only [Vec3.isFinite, Bool.and_eq_true] at h
  obtain ⟨⟨hx, hy⟩, hz⟩ := h
  obtain ⟨a, rfl⟩ := Flt.exists_of_isFinite hx
  obtain ⟨b, rfl⟩ := Flt.exists_of_isFinite hy
  obtain ⟨c, rfl⟩ := Flt.exists_of_isFinite hz
  exact ⟨a, b, c, rfl⟩

/-- The example glm turns a vector whose squared magnitude is within 1/2 of 1 into a vector of
numbers whose squared magnitude lies between 1/4 and 4. -/
theorem quarterGlm_rotateWithin {eps : ℚ} (heps : eps ≤ 1 / 2) : quarterGlm.RotateWithin eps := by
  intro angle v hangle hv
  obtain ⟨q, rfl⟩ := Flt.exists_of_isFinite hangle
  obtain ⟨hvf, hvn⟩ := hv
  obtain ⟨a, b, c, rfl⟩ := Vec3.exists_fin_of_isFinite hvf
  have hN : a ^ 2 + b ^ 2 + c ^ 2 = (⟨.fin a, .fin b, .fin c⟩ : Vec3).normSq := rfl
  rw [← hN] at hvn
  rw [abs_le] at hvn
  have ha2 : 0 ≤ a ^ 2 := by positivity
  have hb2 : 0 ≤ b ^ 2 := by positivity
  have hc2 : 0 ≤ c ^ 2 := by positivity
  have ha := abs_le_of_sq_le_four (t := a) (by linarith)
  have hb := abs_le_of_sq_le_four (t := b) (by linarith)
  have hc := abs_le_of_sq_le_four (t := c) (by linarith)
  have key : 1 / 4 ≤ rnd a ^ 2 + rnd b ^ 2 + rnd c ^ 2 ∧
      rnd a ^ 2 + rnd b ^ 2 + rnd c ^ 2 ≤ 4 := by
    have la := rnd_sq_le a
    have lb := rnd_sq_le b
    have lc := rnd_sq_le c
    have ga := rnd_sq_ge a
    have gb := rnd_sq_ge b
    have gc := rnd_sq_ge c
    have hp := pow2_neg252_le
    have k1 : (1 + halfUlp) ^ 2 ≤ 101 / 100 := by unfold halfUlp; norm_num
    have k2 : (99 : ℚ) / 100 ≤ (1 - halfUlp) ^ 2 := by unfold halfUlp; norm_num
    constructor <;> nlinarith
  rw [quarterGlm_rotated q a b c ha hb hc]
  split
  · refine ⟨rfl, ?_, ?_⟩
    · show 1 / 4 ≤ rnd c ^ 2 + rnd b ^ 2 + (-rnd a) ^ 2
      rw [neg_sq]; linarith [key.1]
    · show rnd c ^ 2 + rnd b ^ 2 + (-rnd a) ^ 2 ≤ 4
      rw [neg_sq]; linarith [key.2]
  · split
    · refine ⟨rfl, ?_, ?_⟩
      · show 1 / 4 ≤ (-rnd c) ^ 2 + rnd b ^ 2 + rnd a ^ 2
        rw [neg_sq]; linarith [key.1]
      · show (-rnd c) ^ 2 + rnd b ^ 2 + rnd a ^ 2 ≤ 4
        rw [neg_sq]; linarith [key.2]
    · exact ⟨rfl, key.1, key.2⟩

/-! ### The square root of the example glm -/

theorem isqrtBits_spec : ∀ (bits acc n : Nat), acc ^ 2 ≤ n → n < (acc + 2 ^ bits) ^ 2 →
    isqrtBits bits acc n ^ 2 ≤ n ∧ n < (isqrtBits bits acc n + 1) ^ 2
  | 0, acc, n, h1, h2 => by
    simp only [isqrtBits]
    exact ⟨h1, by simpa using h2⟩
  | bits + 1, acc, n, h1, h2 => by
    simp only [isqrtBits]
    split
    · rename_i h
      apply isqrtBits_spec bits _ _ h
      have e : acc + 2 ^ bits + 2 ^ bits = acc + 2 ^ (bits + 1) := by ring
      rw [e]
      exact h2
    · rename_i h
      exact isqrtBits_spec bits _ _ h1 (not_le.1 h)

theorem sqrtRef_within : SqrtWithin sqrtRef := by
  intro s hs1 hs2
  show ∃ q : ℚ, (if s < 0 then Flt.nan
      else round32 (((isqrtBits 64 0 ⌊s * 18446744073709551616⌋.toNat : ℕ) : ℚ) / 4294967296)) =
        .fin q ∧ 0 < q ∧ s * (1 - 3 * halfUlp) ≤ q ^ 2 ∧ q ^ 2 ≤ s * (1 + 3 * halfUlp)
  have hs0 : ¬ s < 0 := by linarith
  have hK : (0 : ℚ) < 18446744073709551616 := by norm_num
  have hfl0 : 0 ≤ ⌊s * 18446744073709551616⌋ := Int.floor_nonneg.2 (by positivity)
  have hn1 : ((⌊s * 18446744073709551616⌋.toNat : ℕ) : ℚ) ≤ s * 18446744073709551616 := by
    have h := Int.floor_le (s * 18446744073709551616)
    have e : ((⌊s * 18446744073709551616⌋.toNat : ℕ) : ℤ) = ⌊s * 18446744073709551616⌋ :=
      Int.toNat_of_nonneg hfl0
    have e2 : ((⌊s * 18446744073709551616⌋.toNat : ℕ) : ℚ) =
        ((⌊s * 18446744073709551616⌋ : ℤ) : ℚ) := by exact_mod_cast congrArg (Int.cast (R := ℚ)) e
    rw [e2]
    exact h
  have hn2 : s * 18446744073709551616 < ((⌊s * 18446744073709551616⌋.toNat : ℕ) : ℚ) + 1 := by
    have h := Int.lt_floor_add_one (s * 18446744073709551616)
    have e : ((⌊s * 18446744073709551616⌋.toNat : ℕ) : ℤ) = ⌊s * 18446744073709551616⌋ :=
      Int.toNat_of_nonneg hfl0
    have e2 : ((⌊s * 18446744073709551616⌋.toNat : ℕ) : ℚ) =
        ((⌊s * 18446744073709551616⌋ : ℤ) : ℚ) := by exact_mod_cast congrArg (Int.cast (R := ℚ)) e
    rw [e2]
    exact h
  generalize ⌊s * 18446744073709551616⌋.toNat = n at hn1 hn2 ⊢
  have hnlt : n < (0 + 2 ^ 64) ^ 2 := by
    have h1 : (n : ℚ) < 340282366920938463463374607431768211456 := by linarith
    have h2 : n < 340282366920938463463374607431768211456 := by exact_mod_cast h1
    norm_num
    exact h2
  obtain ⟨m1, m2⟩ := isqrtBits_spec 64 0 n (by simp) hnlt
  have hm1 : ((isqrtBits 64 0 n : ℕ) : ℚ) ^ 2 ≤ n := by exact_mod_cast m1
  have hm2 : (n : ℚ) + 1 ≤ (((isqrtBits 64 0 n : ℕ) : ℚ) + 1) ^ 2 := by
    have : n + 1 ≤ (isqrtBits 64 0 n + 1) ^ 2 := m2
    exact_mod_cast this
  have hm0 : (0 : ℚ) ≤ ((isqrtBits 64 0 n : ℕ) : ℚ) := Nat.cast_nonneg _
  generalize ((isqrtBits 64 0 n : ℕ) : ℚ) = M at hm1 hm2 hm0 ⊢
  have hA0 : 0 ≤ M / 4294967296 := by positivity
  have hA2 : (M / 4294967296) ^ 2 ≤ s := by
    rw [div_pow, div_le_iff₀ (by norm_num)]
    norm_num
    linarith
  have hA3 : s < (M / 4294967296 + 1 / 4294967296) ^ 2 := by
    have e : M / 4294967296 + 1 / 4294967296 = (M + 1) / 4294967296 := by ring
    rw [e, div_pow, lt_div_iff₀ (by norm_num)]
    norm_num
    linarith
  generalize M / 4294967296 = A at hA0 hA2 hA3 ⊢
  have hA4 : 1 / 4 ≤ A := by
    by_contra h
    have h1 : A < 1 / 4 := not_le.1 h
    nlinarith
  have hA5 : A ≤ 3 := by
    by_contra h
    have h1 : 3 < A := not_le.1 h
    nlinarith
  have habs : |A| = A := abs_of_nonneg hA0
  have hA6 : |A| ≤ pow2 127 := by
    rw [habs]
    have h2 : (pow2 2 : ℚ) ≤ pow2 127 := pow2_le (by norm_num)
    have h3 : pow2 2 = 4 := by rw [pow2_eq]; norm_num
    linarith
  have hA7 : pow2 (-126) ≤ |A| := by
    rw [habs]
    have h2 : (pow2 (-126) : ℚ) ≤ pow2 (-2) := pow2_le (by norm_num)
    have h3 : pow2 (-2) = 1 / 4 := by rw [pow2_eq]; norm_num [zpow_neg]
    linarith
  have e := rnd_error_rel hA7
  rw [habs, abs_le] at e
  have hq1 : A * (1 - halfUlp) ≤ rnd A := by unfold halfUlp; linarith [e.1]
  have hq2 : rnd A ≤ A * (1 + halfUlp) := by unfold halfUlp; linarith [e.2]
  have hu : halfUlp = 1 / 16777216 := rfl
  have hu1 : (0 : ℚ) < 1 - halfUlp := by rw [hu]; norm_num
  have hlow : 0 < A * (1 - halfUlp) := mul_pos (by linarith) hu1
  have hq0 : 0 < rnd A := lt_of_lt_of_le hlow hq1
  generalize hq : rnd A = q at hq1 hq2 hq0 e
  refine ⟨q, ?_, hq0, ?_, ?_⟩
  · rw [if_neg hs0, ← hq]
    exact round32_of_abs_le hA6
  · have h1 : (A * (1 - halfUlp)) ^ 2 ≤ q ^ 2 :=
      pow_le_pow_left₀ hlow.le hq1 2
    have h2 : s ≤ A ^ 2 * (1 + 4 / 4294967296) ^ 2 := by
      have h3 : A + 1 / 4294967296 ≤ A * (1 + 4 / 4294967296) := by nlinarith
      have h4 : (A + 1 / 4294967296) ^ 2 ≤ (A * (1 + 4 / 4294967296)) ^ 2 :=
        pow_le_pow_left₀ (by positivity) h3 2
      rw [mul_pow] at h4
      linarith
    have h5 : (1 - 3 * halfUlp) * (1 + 4 / 4294967296) ^ 2 ≤ (1 - halfUlp) ^ 2 := by
      rw [hu]; norm_num
    have h6 : (0 : ℚ) ≤ 1 - 3 * halfUlp := by rw [hu]; norm_num
    have h7 : 0 ≤ A ^ 2 := by positivity
    calc s * (1 - 3 * halfUlp) ≤ A ^ 2 * (1 + 4 / 4294967296) ^ 2 * (1 - 3 * halfUlp) :=
          mul_le_mul_of_nonneg_right h2 h6
      _ = A ^ 2 * ((1 - 3 * halfUlp) * (1 + 4 / 4294967296) ^ 2) := by ring
      _ ≤ A ^ 2 * (1 - halfUlp) ^ 2 := mul_le_mul_of_nonneg_left h5 h7
      _ = (A * (1 - halfUlp)) ^ 2 := by ring
      _ ≤ q ^ 2 := h1
  · have h1 : q ^ 2 ≤ (A * (1 + halfUlp)) ^ 2 := pow_le_pow_left₀ hq0.le hq2 2
    have h5 : (1 + halfUlp) ^ 2 ≤ 1 + 3 * halfUlp := by rw [hu]; norm_num
    have h7 : 0 ≤ A ^ 2 := by positivity
    calc q ^ 2 ≤ (A * (1 + halfUlp)) ^ 2 := h1
      _ = A ^ 2 * (1 + halfUlp) ^ 2 := by ring
      _ ≤ s * (1 + halfUlp) ^ 2 := mul_le_mul_of_nonneg_right hA2 (by positivity)
      _ ≤ s * (1 + 3 * halfUlp) := mul_le_mul_of_nonneg_left h5 (by linarith)

/-! ### The accuracy of `glm::normalize` in binary32 -/

theorem pow2_neg150_le : pow2 (-150) ≤ 1 / 1099511627776 := by
  have h1 : pow2 (-150) ≤ pow2 (-40) := pow2_le (by norm_num)
  have h2 : pow2 (-40) = 1 / 1099511627776 := by rw [pow2_eq]; norm_num [zpow_neg]
  rw [h2] at h1
  exact h1

theorem pow2_neg252_le_small : pow2 (-252) ≤ 1 / 1099511627776 := by
  have h1 : pow2 (-252) ≤ pow2 (-40) := pow2_le (by norm_num)
  have h2 : pow2 (-40) = 1 / 1099511627776 := by rw [pow2_eq]; norm_num [zpow_neg]
  rw [h2] at h1
  exact h1

theorem le_pow2_127 {t : ℚ} (h : t ≤ 16) : t ≤ pow2 127 := by
  have h2 : (pow2 4 : ℚ) ≤ pow2 127 := pow2_le (by norm_num)
  have h3 : pow2 4 = 16 := by rw [pow2_eq]; norm_num
  linarith

theorem pow2_neg126_le {t : ℚ} (h : 1 / 4 ≤ t) : pow2 (-126) ≤ t := by
  have h2 : (pow2 (-126) : ℚ) ≤ pow2 (-2) := pow2_le (by norm_num)
  have h3 : pow2 (-2) = 1 / 4 := by rw [pow2_eq]; norm_num [zpow_neg]
  linarith

/-- The rounding of a number from 0 to 16: a number of the same sign, within the relative error
`2 ^ -24` and `2 ^ -40`. -/
theorem round32_near {t : ℚ} (h0 : 0 ≤ t) (h1 : t ≤ 16) :
    ∃ r : ℚ, round32 t = .fin r ∧ 0 ≤ r ∧ t * (1 - 1 / 16777216) - 1 / 1099511627776 ≤ r ∧
      r ≤ t * (1 + 1 / 16777216) + 1 / 1099511627776 := by
  have habs : |t| = t := abs_of_nonneg h0
  have e := rnd_error_abs t
  have ht := pow2_neg150_le
  rw [habs, abs_le] at e
  refine ⟨rnd t, round32_of_abs_le (by rw [habs]; exact le_pow2_127 h1), rnd_nonneg h0, ?_, ?_⟩
  · linarith [e.1]
  · linarith [e.2]

/-- The rounding of a number from 1/4 to 16: within the relative error `2 ^ -24`. -/
theorem round32_rel {t : ℚ} (h0 : 1 / 4 ≤ t) (h1 : t ≤ 16) :
    ∃ r : ℚ, round32 t = .fin r ∧ t * (1 - 1 / 16777216) ≤ r ∧ r ≤ t * (1 + 1 / 16777216) := by
  have habs : |t| = t := abs_of_nonneg (by linarith)
  have e := rnd_error_rel (q := t) (by rw [habs]; exact pow2_neg126_le h0)
  rw [habs, abs_le] at e
  refine ⟨rnd t, round32_of_abs_le (by rw [habs]; exact le_pow2_127 h1), ?_, ?_⟩
  · linarith [e.1]
  · linarith [e.2]

/-- The square of the rounding of a number of magnitude at most 16. -/
theorem round32_sq {t : ℚ} (h : t ^ 2 ≤ 256) :
    ∃ r : ℚ, round32 t = .fin r ∧
      t ^ 2 * (1 - 1 / 16777216) ^ 2 - 1 / 1099511627776 ≤ r ^ 2 ∧
      r ^ 2 ≤ t ^ 2 * (1 + 1 / 16777216) ^ 2 + 1 / 1099511627776 := by
  have h1 : |t| ≤ 16 := by
    rw [← abs_of_nonneg (show (0 : ℚ) ≤ 16 by norm_num)]
    exact sq_le_sq.1 (by linarith)
  have hu : halfUlp = 1 / 16777216 := rfl
  have ht := pow2_neg252_le_small
  have e1 := rnd_sq_ge t
  have e2 := rnd_sq_le t
  rw [hu] at e1 e2
  exact ⟨rnd t, round32_of_abs_le (le_pow2_127 h1), by linarith, by linarith⟩

set_option maxHeartbeats 1000000 in
/-- The function `glm::normalize` as glm defines it, evaluated in binary32 over a square root
that is accurate to `3 * 2 ^ -24`, returns a vector whose squared magnitude is within `2 ^ -20`
of 1, for every vector of numbers whose squared magnitude lies between 1/4 and 4. -/
theorem normalizeRef_within (sqrt : Flt → Flt) (hs : SqrtWithin sqrt) (v : Vec3)
    (hv : v.isFinite = true) (h1 : 1 / 4 ≤ v.normSq) (h2 : v.normSq ≤ 4) :
    (normalizeRef sqrt v).nearUnit (1 / 1048576) := by
  obtain ⟨a, b, c, rfl⟩ := Vec3.exists_fin_of_isFinite hv
  have hN : (⟨.fin a, .fin b, .fin c⟩ : Vec3).normSq = a ^ 2 + b ^ 2 + c ^ 2 := rfl
  rw [hN] at h1 h2
  have hu : halfUlp = 1 / 16777216 := rfl
  have ha2 : 0 ≤ a ^ 2 := by positivity
  have hb2 : 0 ≤ b ^ 2 := by positivity
  have hc2 : 0 ≤ c ^ 2 := by positivity
  -- the scalar product
  obtain ⟨pa, epa, pa0, pa1, pa2⟩ := round32_near (t := a * a) (mul_self_nonneg a)
    (by rw [← sq]; linarith)
  obtain ⟨pb, epb, pb0, pb1, pb2⟩ := round32_near (t := b * b) (mul_self_nonneg b)
    (by rw [← sq]; linarith)
  obtain ⟨pc, epc, pc0, pc1, pc2⟩ := round32_near (t := c * c) (mul_self_nonneg c)
    (by rw [← sq]; linarith)
  obtain ⟨s1, es1, s10, s11, s12⟩ := round32_near (t := pa + pb) (by linarith) (by linarith)
  obtain ⟨s, es, s0, s3, s4⟩ := round32_near (t := s1 + pc) (by linarith) (by linarith)
  have hdot : dotRef ⟨.fin a, .fin b, .fin c⟩ ⟨.fin a, .fin b, .fin c⟩ = .fin s := by
    show (Flt.fin a * Flt.fin a + Flt.fin b * Flt.fin b) + Flt.fin c * Flt.fin c = .fin s
    rw [Flt.mul_fin, Flt.mul_fin, Flt.mul_fin, epa, epb, epc, Flt.add_fin, es1, Flt.add_fin, es]
  have hs_lo : (a ^ 2 + b ^ 2 + c ^ 2) * (1 - 4 / 16777216) ≤ s := by linarith
  have hs_hi : s ≤ (a ^ 2 + b ^ 2 + c ^ 2) * (1 + 4 / 16777216) := by linarith
  -- the square root and its reciprocal
  obtain ⟨q, eq, q0, q1, q2⟩ := hs s (by linarith) (by linarith)
  rw [hu] at q1 q2
  have hq_lo : 1 / 3 ≤ q := by
    by_contra h
    have h' : q < 1 / 3 := not_le.1 h
    have h3 : q ^ 2 < (1 / 3) ^ 2 := pow_lt_pow_left₀ h' q0.le two_ne_zero
    linarith
  have hq_hi : q ≤ 3 := by
    by_contra h
    have h' : 3 < q := not_le.1 h
    have h3 : (3 : ℚ) ^ 2 < q ^ 2 := pow_lt_pow_left₀ h' (by norm_num) two_ne_zero
    linarith
  have hrq1 : 1 / 4 ≤ 1 / q := by
    rw [le_div_iff₀ q0]; linarith
  have hrq2 : 1 / q ≤ 16 := by
    rw [div_le_iff₀ q0]; linarith
  obtain ⟨r, er, r1, r2⟩ := round32_rel hrq1 hrq2
  have hdiv : Flt.fin 1 / sqrt (dotRef ⟨.fin a, .fin b, .fin c⟩ ⟨.fin a, .fin b, .fin c⟩) =
      .fin r := by
    rw [hdot, eq, Flt.div_fin _ _ q0.ne', er]
  have hrq_lo : 1 - 1 / 16777216 ≤ r * q := by
    have := mul_le_mul_of_nonneg_right r1 q0.le
    have e : 1 / q * (1 - 1 / 16777216) * q = 1 - 1 / 16777216 := by
      rw [mul_right_comm, one_div_mul_cancel q0.ne', one_mul]
    linarith
  have hrq_hi : r * q ≤ 1 + 1 / 16777216 := by
    have := mul_le_mul_of_nonneg_right r2 q0.le
    have e : 1 / q * (1 + 1 / 16777216) * q = 1 + 1 / 16777216 := by
      rw [mul_right_comm, one_div_mul_cancel q0.ne', one_mul]
    linarith
  have hr0 : 0 < r := by
    have : 0 < 1 / q * (1 - 1 / 16777216) := by positivity
    linarith
  have hr_hi : r ≤ 4 := by
    have h3 : 1 / q ≤ 3 := by rw [div_le_iff₀ q0]; linarith
    have h4 := mul_le_mul_of_nonneg_right h3 (show (0 : ℚ) ≤ 1 + 1 / 16777216 by norm_num)
    linarith
  have hrq2_hi : (r * q) ^ 2 ≤ (1 + 1 / 16777216) ^ 2 :=
    pow_le_pow_left₀ (by positivity) hrq_hi 2
  have hrq2_lo : (1 - 1 / 16777216) ^ 2 ≤ (r * q) ^ 2 :=
    pow_le_pow_left₀ (by norm_num) hrq_lo 2
  have hr2 : 0 ≤ r ^ 2 := by positivity
  -- the squared magnitude times r ^ 2
  have hP_hi : (a ^ 2 + b ^ 2 + c ^ 2) * r ^ 2 ≤
      (1 + 1 / 16777216) ^ 2 / ((1 - 4 / 16777216) * (1 - 3 / 16777216)) := by
    rw [le_div_iff₀ (by norm_num)]
    have h3 : (a ^ 2 + b ^ 2 + c ^ 2) * (1 - 4 / 16777216) * (1 - 3 / 16777216) ≤ q ^ 2 := by
      have := mul_le_mul_of_nonneg_right hs_lo (show (0 : ℚ) ≤ 1 - 3 * (1 / 16777216) by norm_num)
      linarith
    have h4 := mul_le_mul_of_nonneg_right h3 hr2
    have e : q ^ 2 * r ^ 2 = (r * q) ^ 2 := by ring
    rw [e] at h4
    linarith
  have hP_lo : (1 - 1 / 16777216) ^ 2 / ((1 + 4 / 16777216) * (1 + 3 / 16777216)) ≤
      (a ^ 2 + b ^ 2 + c ^ 2) * r ^ 2 := by
    rw [div_le_iff₀ (by norm_num)]
    have h3 : q ^ 2 ≤ (a ^ 2 + b ^ 2 + c ^ 2) * (1 + 4 / 16777216) * (1 + 3 / 16777216) := by
      have := mul_le_mul_of_nonneg_right hs_hi (show (0 : ℚ) ≤ 1 + 3 * (1 / 16777216) by norm_num)
      linarith
    have h4 := mul_le_mul_of_nonneg_right h3 hr2
    have e : q ^ 2 * r ^ 2 = (r * q) ^ 2 := by ring
    rw [e] at h4
    linarith
  -- the components
  have hbound : ∀ t : ℚ, t ^ 2 ≤ 4 → (t * r) ^ 2 ≤ 256 := by
    intro t ht
    have : (t * r) ^ 2 = t ^ 2 * r ^ 2 := by ring
    rw [this]
    have hr16 : r ^ 2 ≤ 4 ^ 2 := pow_le_pow_left₀ hr0.le hr_hi 2
    have h5 := mul_le_mul ht hr16 hr2 (by norm_num)
    linarith
  obtain ⟨oa, eoa, oa1, oa2⟩ := round32_sq (hbound a (by linarith))
  obtain ⟨ob, eob, ob1, ob2⟩ := round32_sq (hbound b (by linarith))
  obtain ⟨oc, eoc, oc1, oc2⟩ := round32_sq (hbound c (by linarith))
  have hres : normalizeRef sqrt ⟨.fin a, .fin b, .fin c⟩ = ⟨.fin oa, .fin ob, .fin oc⟩ := by
    unfold normalizeRef
    rw [hdiv]
    show (⟨Flt.fin a * Flt.fin r, Flt.fin b * Flt.fin r, Flt.fin c * Flt.fin r⟩ : Vec3) = _
    rw [Flt.mul_fin, Flt.mul_fin, Flt.mul_fin, eoa, eob, eoc]
  rw [hres]
  refine ⟨rfl, ?_⟩
  show |oa ^ 2 + ob ^ 2 + oc ^ 2 - 1| ≤ 1 / 1048576
  have e1 : (a * r) ^ 2 + (b * r) ^ 2 + (c * r) ^ 2 = (a ^ 2 + b ^ 2 + c ^ 2) * r ^ 2 := by ring
  generalize (a ^ 2 + b ^ 2 + c ^ 2) * r ^ 2 = P at hP_hi hP_lo e1
  have hsum_hi : oa ^ 2 + ob ^ 2 + oc ^ 2 ≤ P * (1 + 1 / 16777216) ^ 2 + 3 * (1 / 1099511627776) := by
    rw [← e1]; linarith
  have hsum_lo : P * (1 - 1 / 16777216) ^ 2 - 3 * (1 / 1099511627776) ≤ oa ^ 2 + ob ^ 2 + oc ^ 2 := by
    rw [← e1]; linarith
  have c1 : (1 + 1 / 16777216 : ℚ) ^ 2 / ((1 - 4 / 16777216) * (1 - 3 / 16777216)) *
      (1 + 1 / 16777216) ^ 2 + 3 * (1 / 1099511627776) ≤ 1 + 1 / 1048576 := by norm_num
  have c2 : (1 : ℚ) - 1 / 1048576 ≤ (1 - 1 / 16777216) ^ 2 /
      ((1 + 4 / 16777216) * (1 + 3 / 16777216)) * (1 - 1 / 16777216) ^ 2 -
      3 * (1 / 1099511627776) := by norm_num
  have k1 : (0 : ℚ) ≤ (1 + 1 / 16777216) ^ 2 := by positivity
  have k2 : (0 : ℚ) ≤ (1 - 1 / 16777216) ^ 2 := by positivity
  have m1 := mul_le_mul_of_nonneg_right hP_hi k1
  have m2 := mul_le_mul_of_nonneg_right hP_lo k2
  rw [abs_le]
  constructor <;> linarith

/-! ### The direction the constructor stores, and the claim on turning -/

theorem addRecord_currentDirection (u : Uninit) (n : Nat) (o : OBJObject) (r : Record) :
    (OBJObject.addRecord u n o r).currentDirection = o.currentDirection := by
  cases r <;> rfl

theorem addRecords_currentDirection (u : Uninit) (rs : List Record) :
    ∀ (n : Nat) (o : OBJObject),
      (OBJObject.addRecords u n o rs).currentDirection = o.currentDirection := by
  induction rs with
  | nil => intro n o; rfl
  | cons r rs ih =>
    intro n o
    show (OBJObject.addRecords u (n + 1) (OBJObject.addRecord u n o r) rs).currentDirection = _
    rw [ih, addRecord_currentDirection]

theorem normalize_currentDirection {o o1 : OBJObject} (h : OBJObject.normalize o = some o1) :
    o1.currentDirection = o.currentDirection := by
  unfold OBJObject.normalize at h
  simp only at h
  split at h
  · exact absurd h (by simp)
  · simp only [Option.some.injEq] at h
    rw [← h]
    rfl

theorem parse_currentDirection {u : Uninit} {o o1 : OBJObject} {file : Option (List Char)}
    (h : OBJObject.parse u o file = some o1) : o1.currentDirection = o.currentDirection := by
  cases file with
  | none =>
    simp only [OBJObject.parse, Option.some.injEq] at h
    rw [← h]
    rfl
  | some s =>
    have h1 := normalize_currentDirection h
    rw [h1]
    show (OBJObject.addRecords u 0 o.resetBounds (fileRecords s)).currentDirection = _
    rw [addRecords_currentDirection]
    rfl

/-- The constructor leaves the direction (0, 0, 1) in `currentDirection`. -/
theorem new_currentDirection {mem : OBJObject} {u : Uninit} {file : Option (List Char)}
    {material : Int} {o : OBJObject} (h : OBJObject.new mem u file material = some o) :
    o.currentDirection = ⟨.fin 0, .fin 0, .fin 1⟩ := by
  unfold OBJObject.new at h
  simp only at h
  split at h
  · exact absurd h (by simp)
  · rename_i o1 hp
    simp only [Option.some.injEq] at h
    rw [← h]
    show o1.currentDirection = _
    rw [parse_currentDirection hp]

/-- The example glm normalizes within `2 ^ -20`. -/
theorem quarterGlm_normalizeWithin : quarterGlm.NormalizeWithin (1 / 1048576) :=
  fun v hv h1 h2 => normalizeRef_within sqrtRef sqrtRef_within v hv h1 h2

/-- Claim C15 as stated fails: the object that the constructor builds from `centredFile` faces
(0, 0, 1); after one call of `A_movement` with a frame time that is NaN, or with the frame time
`10 ^ 36` (the product with `TURN_SPEED` overflows to infinity), its direction is
(NaN, NaN, NaN) under the example glm, and with a NaN frame time its direction has not the
magnitude 1 under any glm that passes a NaN on. Nor is the magnitude 1 exactly after
`glm::normalize` in binary32: the normalized (1, 1, 0) has the squared magnitude
`140737483538089 / 140737488355328`. -/
theorem turn_nan_counterexample :
    (built centredFile).currentDirection = ⟨.fin 0, .fin 0, .fin 1⟩ ∧
    ((built centredFile).turns quarterGlm ⟨.fin 100, .fin 100⟩ [.A .nan]).currentDirection =
      ⟨.nan, .nan, .nan⟩ ∧
    ((built centredFile).turns quarterGlm ⟨.fin 100, .fin 100⟩
      [.A (.fin (10 ^ 36))]).currentDirection = ⟨.nan, .nan, .nan⟩ ∧
    (∀ g : Glm, g.PropagatesNaN →
      ¬ ((built centredFile).turns g ⟨.fin 100, .fin 100⟩ [.A .nan]).currentDirection.unitLength) ∧
    quarterGlm.PropagatesNaN ∧
    (normalizeRef sqrtRef ⟨.fin 1, .fin 1, .fin 0⟩).normSq = 140737483538089 / 140737488355328 := by
  refine ⟨by decide!, by decide!, by decide!, ?_, quarterGlm_propagatesNaN, by decide!⟩
  intro g hg
  exact not_unitLength_of_nan _ (propagatesNaN_direction g hg _ _)

/-- Claim C15, amended: the constructor leaves the direction (0, 0, 1); and for every glm whose
`normalize` returns, for a vector of numbers of squared magnitude between 1/4 and 4, a vector of
numbers whose squared magnitude is within `eps` of 1, and whose rotation turns a vector of
squared magnitude within `eps` of 1, by an angle that is a number, into a vector of numbers of
squared magnitude between 1/4 and 4: starting from an object whose direction is (0, 0, 1),
after any finite sequence of calls of `A_movement` and `D_movement` whose angles
`(±TURN_SPEED * delta) / 180 * pi` are numbers (no NaN, no infinity, no overflow),
`currentDirection` is a vector of numbers whose squared magnitude is within `eps` of 1; and
after each call, whatever the frame time, `currentDirection` is what `glm::normalize` returns
for the previous direction turned about the vertical axis. -/
theorem direction_near_unit (g : Glm) (eps : ℚ) (heps : 0 ≤ eps) (hn : g.NormalizeWithin eps)
    (hr : g.RotateWithin eps) (o : OBJObject) (boundaries : Vec2) (ts : List Turn)
    (hstart : o.currentDirection = ⟨.fin 0, .fin 0, .fin 1⟩)
    (hfin : ∀ t ∈ ts, (g.turnAngle t).isFinite = true) :
    (∀ (mem : OBJObject) (u : Uninit) (file : Option (List Char)) (material : Int)
        (o1 : OBJObject), OBJObject.new mem u file material = some o1 →
        o1.currentDirection = ⟨.fin 0, .fin 0, .fin 1⟩) ∧
    (o.turns g boundaries ts).currentDirection.nearUnit eps ∧
    (∀ (o1 : OBJObject) (delta : Flt),
      (o1.A_movement g boundaries delta).currentDirection =
        g.normalize (Vec3.ofVec4 (g.mulVec
          (g.rotate Mat4.identity ((TURN_SPEED * delta) / .fin 180 * g.pi)
            ⟨.fin 0, .fin 1, .fin 0⟩)
          (o1.currentDirection.toVec4 (.fin 1)))) ∧
      (o1.D_movement g boundaries delta).currentDirection =
        g.normalize (Vec3.ofVec4 (g.mulVec
          (g.rotate Mat4.identity ((Flt.neg TURN_SPEED * delta) / .fin 180 * g.pi)
            ⟨.fin 0, .fin 1, .fin 0⟩)
          (o1.currentDirection.toVec4 (.fin 1))))) := by
  refine ⟨fun _ _ _ _ _ h => new_currentDirection h, ?_, fun _ _ => ⟨rfl, rfl⟩⟩
  apply turns_nearUnit g eps boundaries hn hr ts o _ hfin
  rw [hstart]
  exact nearUnit_start heps

/-- The amended claim C15 applies to the object built from `centredFile` under the example glm,
which normalizes as glm does, within `2 ^ -20`: after a turn left, a turn right and a turn left
with the frame time 1/64 it faces (1, 0, 0). -/
theorem direction_near_unit_witness :
    quarterGlm.NormalizeWithin (1 / 1048576) ∧ quarterGlm.RotateWithin (1 / 1048576) ∧
    (built centredFile).currentDirection = ⟨.fin 0, .fin 0, .fin 1⟩ ∧
    (∀ t ∈ [Turn.A (.fin (1 / 64)), .D (.fin (1 / 64)), .A (.fin (1 / 64))],
      (quarterGlm.turnAngle t).isFinite = true) ∧
    turnedCentred.currentDirection = ⟨.fin 1, .fin 0, .fin 0⟩ ∧
    turnedCentred.currentDirection.nearUnit (1 / 1048576) :=
  ⟨quarterGlm_normalizeWithin, quarterGlm_rotateWithin (by norm_num), by decide!, by decide!,
   by decide!,
   (direction_near_unit quarterGlm (1 / 1048576) (by norm_num) quarterGlm_normalizeWithin
      (quarterGlm_rotateWithin (by norm_num)) (built centredFile) ⟨.fin 100, .fin 100⟩
      [.A (.fin (1 / 64)), .D (.fin (1 / 64)), .A (.fin (1 / 64))] (by decide!)
      (by decide!)).2.1⟩

end OBJ
